import Mathlib

/-!
# angcc tokenizer (`tokenize.c`): shallow embedding and verified properties

The input buffer of `tokenize` is modelled as a list of bytes (naturals below 256).
A C pointer into the buffer is modelled by the list of bytes from the pointer to the
end of the buffer (what the pointer can read) together with its offset from the start of
the buffer.  Reading outside the buffer is undefined behaviour in C; it is made explicit
here as the result `LexError.out_of_bounds`, and dereferencing the NULL `next` of the last
token as `LexError.null_deref`.  The four fatal diagnostics of the scanner (`error_at`
followed by `exit(1)`) are results of the `Except` type carrying the offset given to
`error_at`.

The `while (*p)` loop of `tokenize` is a function of a number of iterations it may use;
`tokenize` gives it more iterations than the buffer has bytes, and `LexError.out_of_fuel`
stands for a loop that needs more.  It is proved never to occur
(`tokenize_ne_out_of_fuel`).

The file has two parts: the definitions (the embedding of the source, then the notions
the properties are stated with), and the properties with their proofs.
-/

namespace Angcc

/-! ## Data model -/

/-- Token kinds (`TokenKind` of `angcc.h`, as used by `tokenize.c`). -/
inductive TokenKind where
  | TK_IDENT
  | TK_PUNCT
  | TK_KEYWORD
  | TK_STR
  | TK_NUM
  | TK_EOF
  deriving DecidableEq, Repr

/-- Modelled from the spec: the `Type` of `angcc.h` / `type.c`, which are not part of the
source; only "char" and "array of N elements" are needed by the tokenizer. -/
inductive CType where
  | ty_char
  | array (base : CType) (len : Nat)
  deriving DecidableEq, Repr

/-- Modelled from the spec: `array_of(base, len)` of `type.c` (not part of the source)
builds the type "array of `len` elements of type `base`". -/
def array_of (base : CType) (len : Nat) : CType := CType.array base len

/-- The length of an array type, `none` for a type that is no array. -/
def CType.array_len : CType → Option Nat
  | CType.ty_char => none
  | CType.array _ n => some n

/-- A token, with the fields of `Token` (`angcc.h`) that `tokenize.c` uses: `loc` is the
offset of `tok->loc` in the input buffer.  `calloc` zeroes every field, which is what the
defaults stand for (`ty = none` and `str = none` are the NULL pointers).  `val` holds the
result of `strtoul`, `str` the final contents of the buffer of decoded bytes. -/
structure Token where
  kind : TokenKind
  loc : Nat
  len : Nat
  val : Nat := 0
  line_no : Nat := 0
  ty : Option CType := none
  str : Option (List Nat) := none
  deriving DecidableEq, Repr

/-- Outcomes of the scanner other than returning: the four fatal diagnostics with the
offset given to `error_at`, and the undefined behaviours made explicit by the model. -/
inductive LexError where
  | unclosed_block_comment (loc : Nat)
  | unclosed_string_literal (loc : Nat)
  | invalid_hex_escape (loc : Nat)
  | invalid_token (loc : Nat)
  | out_of_bounds
  | null_deref
  | out_of_fuel
  deriving DecidableEq, Repr

/-- The four lexical errors of the scanner (as opposed to undefined behaviour). -/
def LexError.is_lexical : LexError → Bool
  | LexError.unclosed_block_comment _ => true
  | LexError.unclosed_string_literal _ => true
  | LexError.invalid_hex_escape _ => true
  | LexError.invalid_token _ => true
  | _ => false

/-- Equality of results is decidable. -/
instance instDecEqResult {α : Type} [DecidableEq α] : DecidableEq (Except LexError α) :=
  fun a b =>
    match a, b with
    | Except.ok x, Except.ok y =>
      if h : x = y then isTrue (by rw [h]) else isFalse (fun h2 => h (by cases h2; rfl))
    | Except.error x, Except.error y =>
      if h : x = y then isTrue (by rw [h]) else isFalse (fun h2 => h (by cases h2; rfl))
    | Except.ok _, Except.error _ => isFalse (fun h => by cases h)
    | Except.error _, Except.ok _ => isFalse (fun h => by cases h)

/-! ## Character classes of `<ctype.h>` in the "C" locale

A byte above 127 belongs to none of the classes. -/

/-- The function `isspace`: space, `\t`, `\n`, `\v`, `\f`, `\r`. -/
def isspace (c : Nat) : Bool := c == 32 || (9 ≤ c && c ≤ 13)

/-- The function `isdigit`: `0` to `9`. -/
def isdigit (c : Nat) : Bool := 48 ≤ c && c ≤ 57

/-- The function `isxdigit`: decimal digits, `a`-`f`, `A`-`F`. -/
def isxdigit (c : Nat) : Bool :=
  (48 ≤ c && c ≤ 57) || (97 ≤ c && c ≤ 102) || (65 ≤ c && c ≤ 70)

/-- The function `ispunct`: the printable ASCII characters that are neither a space nor
alphanumeric. -/
def ispunct (c : Nat) : Bool :=
  (33 ≤ c && c ≤ 47) || (58 ≤ c && c ≤ 64) || (91 ≤ c && c ≤ 96) || (123 ≤ c && c ≤ 126)

/-- The value of a `char` holding byte `b` as an `int` (`char` is signed on x86-64, the
target of the compiler). -/
def char_to_int (b : Nat) : Int := if b < 128 then (b : Int) else (b : Int) - 256

/-- The byte stored when an `int` is assigned to a `char`. -/
def int_to_char (c : Int) : Nat := (c % 256).toNat

/-- Wrap-around of `int` arithmetic (two-s complement, 32 bits). -/
def wrap_int (x : Int) : Int := (x + 2147483648) % 4294967296 - 2147483648

/-! ## Helpers of `tokenize.c` -/

/-- Function `new_token(kind, start, end)` with `start` at offset `loc` and `end - start = len`. -/
def new_token (kind : TokenKind) (loc len : Nat) : Token :=
  { kind := kind, loc := loc, len := len }

/-- Function `startswith(p, q)`, that is `strncmp(p, q, strlen(q)) == 0`, for a `q` without
NUL byte: `s` is what `p` can read.  The comparison stops at the first difference. -/
def startswith : List Nat → List Nat → Except LexError Bool
  | _, [] => Except.ok true
  | [], _ :: _ => Except.error LexError.out_of_bounds
  | a :: s, c :: q => if a = c then startswith s q else Except.ok false

/-- Function `is_ident1`. -/
def is_ident1 (c : Nat) : Bool := (97 ≤ c && c ≤ 122) || (65 ≤ c && c ≤ 90) || c == 95

/-- Function `is_ident2`. -/
def is_ident2 (c : Nat) : Bool := is_ident1 c || (48 ≤ c && c ≤ 57)

/-- Function `from_hex`, on the `int` value of the character. -/
def from_hex (c : Nat) : Int :=
  if 48 ≤ c ∧ c ≤ 57 then (c : Int) - 48
  else if 97 ≤ c ∧ c ≤ 102 then (c : Int) - 97 + 10
  else (c : Int) - 65 + 10

/-- The table `kw` of `read_punct`: `==`, `!=`, `<=`, `>=`, `->`. -/
def punct_kw : List (List Nat) := [[61, 61], [33, 61], [60, 61], [62, 61], [45, 62]]

/-- The loop of `read_punct` over its table. -/
def read_punct_loop (s : List Nat) : List (List Nat) → Except LexError Nat
  | [] =>
    match s with
    | [] => Except.error LexError.out_of_bounds
    | c :: _ => Except.ok (if ispunct c then 1 else 0)
  | k :: ks =>
    match startswith s k with
    | Except.error e => Except.error e
    | Except.ok true => Except.ok k.length
    | Except.ok false => read_punct_loop s ks

/-- Function `read_punct(p)`. -/
def read_punct (s : List Nat) : Except LexError Nat := read_punct_loop s punct_kw

/-- The comparison `memcmp(a, b, n) == 0`, byte by byte up to the first difference. -/
def memcmp_eq : List Nat → List Nat → Nat → Except LexError Bool
  | _, _, 0 => Except.ok true
  | x :: a, y :: b, n + 1 => if x = y then memcmp_eq a b n else Except.ok false
  | _, _, _ + 1 => Except.error LexError.out_of_bounds

/-- Function `equal(tok, op)`: `op` is given without its terminating NUL, which the string
literal carries in memory. -/
def equal (buf : List Nat) (tok : Token) (op : List Nat) : Except LexError Bool :=
  match memcmp_eq (buf.drop tok.loc) (op ++ [0]) tok.len with
  | Except.error e => Except.error e
  | Except.ok false => Except.ok false
  | Except.ok true =>
    match (op ++ [0]).get? tok.len with
    | none => Except.error LexError.out_of_bounds
    | some c => Except.ok (c == 0)

/-- The table `kw` of `is_keyword`. -/
def keyword_kw : List (List Nat) :=
  [ [114, 101, 116, 117, 114, 110],   -- return
    [105, 102],                       -- if
    [101, 108, 115, 101],             -- else
    [102, 111, 114],                  -- for
    [119, 104, 105, 108, 101],        -- while
    [105, 110, 116],                  -- int
    [115, 105, 122, 101, 111, 102],   -- sizeof
    [99, 104, 97, 114],               -- char
    [115, 116, 114, 117, 99, 116],    -- struct
    [117, 110, 105, 111, 110],        -- union
    [108, 111, 110, 103],             -- long
    [115, 104, 111, 114, 116] ]       -- short

/-- The loop of `is_keyword` over its table. -/
def is_keyword_loop (buf : List Nat) (tok : Token) : List (List Nat) → Except LexError Bool
  | [] => Except.ok false
  | k :: ks =>
    match equal buf tok k with
    | Except.error e => Except.error e
    | Except.ok true => Except.ok true
    | Except.ok false => is_keyword_loop buf tok ks

/-- Function `is_keyword(tok)`. -/
def is_keyword (buf : List Nat) (tok : Token) : Except LexError Bool :=
  is_keyword_loop buf tok keyword_kw

/-! ## String literals -/

/-- The loop `for (; isxdigit(*p); p++) c = (c << 4) + from_hex(*p);` of `read_escaped_char`:
returns the final `c` and the number of bytes passed. -/
def read_hex_loop : List Nat → Int → Except LexError (Int × Nat)
  | [], _ => Except.error LexError.out_of_bounds
  | c :: rest, acc =>
    if isxdigit c then
      match read_hex_loop rest (wrap_int (acc * 16 + from_hex c)) with
      | Except.error e => Except.error e
      | Except.ok (v, n) => Except.ok (v, n + 1)
    else Except.ok (acc, 0)

/-- The `switch` at the end of `read_escaped_char`. -/
def named_escape (c : Nat) : Int :=
  if c = 97 then 7            -- \a
  else if c = 98 then 8       -- \b
  else if c = 116 then 9      -- \t
  else if c = 110 then 10     -- \n
  else if c = 118 then 11     -- \v
  else if c = 102 then 12     -- \f
  else if c = 114 then 13     -- \r
  else if c = 101 then 27     -- \e
  else char_to_int c

/-- Function `read_escaped_char(&new_pos, p)`: `s` is what `p` (the byte after the
backslash) can read and `q` is the offset of `p`.  Returns the `int` result and
`new_pos - p`. -/
def read_escaped_char (s : List Nat) (q : Nat) : Except LexError (Int × Nat) :=
  match s with
  | [] => Except.error LexError.out_of_bounds
  | c0 :: s1 =>
    if 48 ≤ c0 ∧ c0 ≤ 55 then
      match s1 with
      | [] => Except.error LexError.out_of_bounds
      | c1 :: s2 =>
        if 48 ≤ c1 ∧ c1 ≤ 55 then
          match s2 with
          | [] => Except.error LexError.out_of_bounds
          | c2 :: _ =>
            if 48 ≤ c2 ∧ c2 ≤ 55 then
              Except.ok ((((c0 : Int) - 48) * 8 + ((c1 : Int) - 48)) * 8 + ((c2 : Int) - 48), 3)
            else Except.ok (((c0 : Int) - 48) * 8 + ((c1 : Int) - 48), 2)
        else Except.ok ((c0 : Int) - 48, 1)
    else if c0 = 120 then
      match s1 with
      | [] => Except.error LexError.out_of_bounds
      | c1 :: _ =>
        if !isxdigit c1 then Except.error (LexError.invalid_hex_escape (q + 1))
        else
          match read_hex_loop s1 0 with
          | Except.error e => Except.error e
          | Except.ok (v, n) => Except.ok (v, n + 1)
    else Except.ok (named_escape c0, 1)

/-- The loop of `string_literal_end`: `start` is the offset kept for the diagnostic, `s` is
what `p` can read and the second argument is the offset of `p`.  Returns the offset of
the closing quote. -/
def string_literal_end_loop (start : Nat) : List Nat → Nat → Except LexError Nat
  | [], _ => Except.error LexError.out_of_bounds
  | c :: rest, p =>
    if c = 34 then Except.ok p
    else if c = 10 ∨ c = 0 then Except.error (LexError.unclosed_string_literal start)
    else if c = 92 then
      match rest with
      | [] => Except.error LexError.out_of_bounds
      | _ :: rest2 => string_literal_end_loop start rest2 (p + 2)
    else string_literal_end_loop start rest (p + 1)

/-- Function `string_literal_end(p)`: `char *start = p;` and then the loop. -/
def string_literal_end (s : List Nat) (p : Nat) : Except LexError Nat :=
  string_literal_end_loop p s p

/-- The decoding loop `for (char *p = start + 1; p < end;)` of `read_string_literal`: `s` is
what `p` can read, `p` its offset, `e` the offset of `end`.  Returns the bytes stored in
`buf[0..len)` in order and the final offset of `p`. -/
def decode_loop : Nat → List Nat → Nat → Nat → Except LexError (List Nat × Nat)
  | 0, _, p, e => if p < e then Except.error LexError.out_of_fuel else Except.ok ([], p)
  | fuel + 1, s, p, e =>
    if p < e then
      match s with
      | [] => Except.error LexError.out_of_bounds
      | c :: rest =>
        if c = 92 then
          match read_escaped_char rest (p + 1) with
          | Except.error err => Except.error err
          | Except.ok (v, n) =>
            match decode_loop fuel (rest.drop n) (p + 1 + n) e with
            | Except.error err => Except.error err
            | Except.ok (bs, pf) => Except.ok (int_to_char v :: bs, pf)
        else
          match decode_loop fuel rest (p + 1) e with
          | Except.error err => Except.error err
          | Except.ok (bs, pf) => Except.ok (c :: bs, pf)
    else Except.ok ([], p)

/-- Function `read_string_literal(start)`: `s` is what `start` can read (it begins with the
opening quote).  `buf` is `calloc(1, end - start)`: the token holds its final contents,
the `len` stored bytes followed by the bytes left zero; storing outside of it is
undefined behaviour. -/
def read_string_literal (s : List Nat) (start : Nat) : Except LexError Token :=
  match string_literal_end (s.drop 1) (start + 1) with
  | Except.error err => Except.error err
  | Except.ok e =>
    match decode_loop (e - start) (s.drop 1) (start + 1) e with
    | Except.error err => Except.error err
    | Except.ok (bs, _) =>
      if bs.length ≤ e - start then
        Except.ok { new_token TokenKind.TK_STR start (e + 1 - start) with
                    ty := some (array_of CType.ty_char (bs.length + 1)),
                    str := some (bs ++ List.replicate (e - start - bs.length) 0) }
      else Except.error LexError.out_of_bounds

/-! ## The two passes over the finished token list -/

/-- Function `convert_keywords(tok)`: the linked list is a list, the in-place update of
`kind` returns the updated list. -/
def convert_keywords (buf : List Nat) : List Token → Except LexError (List Token)
  | [] => Except.error LexError.null_deref
  | t :: ts =>
    if t.kind = TokenKind.TK_EOF then Except.ok (t :: ts)
    else
      match is_keyword buf t with
      | Except.error e => Except.error e
      | Except.ok k =>
        match convert_keywords buf ts with
        | Except.error e => Except.error e
        | Except.ok r =>
          Except.ok ((if k then { t with kind := TokenKind.TK_KEYWORD } else t) :: r)

/-- Function `add_line_numbers(tok)`: `s` is what `p` can read, `p` its offset, `n` the
line counter; the loop is `do .. while (*p++)`.  An iteration first reads `tok->loc`,
then `*p`. -/
def add_line_numbers : List Nat → Nat → Nat → List Token → Except LexError (List Token)
  | _, _, _, [] => Except.error LexError.null_deref
  | [], _, _, _ :: _ => Except.error LexError.out_of_bounds
  | c :: rest, p, n, t :: ts =>
    if p = t.loc then
      if c = 0 then Except.ok ({ t with line_no := n } :: ts)
      else
        match add_line_numbers rest (p + 1) (if c = 10 then n + 1 else n) ts with
        | Except.error e => Except.error e
        | Except.ok r => Except.ok ({ t with line_no := n } :: r)
    else
      if c = 0 then Except.ok (t :: ts)
      else add_line_numbers rest (p + 1) (if c = 10 then n + 1 else n) (t :: ts)

/-! ## The scanner -/

/-- The loop `while (*p != '\n') p++;` of the line-comment rule: the number of bytes
passed. -/
def skip_line : List Nat → Except LexError Nat
  | [] => Except.error LexError.out_of_bounds
  | c :: rest =>
    if c = 10 then Except.ok 0
    else
      match skip_line rest with
      | Except.error e => Except.error e
      | Except.ok n => Except.ok (n + 1)

/-- Function `strstr(hay, needle)` of `<string.h>` for a non-empty needle without NUL byte:
the index of the first occurrence of the needle in the string `hay`, which ends at its
first NUL byte. -/
def strstr : List Nat → List Nat → Except LexError (Option Nat)
  | [], _ => Except.error LexError.out_of_bounds
  | c :: rest, needle =>
    if c = 0 then Except.ok none
    else if (c :: rest).take needle.length = needle then Except.ok (some 0)
    else
      match strstr rest needle with
      | Except.error e => Except.error e
      | Except.ok none => Except.ok none
      | Except.ok (some i) => Except.ok (some (i + 1))

/-- The digit loop of `strtoul(p, &p, 10)` started on a digit: the value of the digits
read and their number. -/
def strtoul_loop : List Nat → Nat → Except LexError (Nat × Nat)
  | [], _ => Except.error LexError.out_of_bounds
  | c :: rest, acc =>
    if isdigit c then
      match strtoul_loop rest (acc * 10 + (c - 48)) with
      | Except.error e => Except.error e
      | Except.ok (v, n) => Except.ok (v, n + 1)
    else Except.ok (acc, 0)

/-- The largest `unsigned long` (64 bits on x86-64). -/
def ULONG_MAX : Nat := 18446744073709551615

/-- Function `strtoul(p, &p, 10)` of `<stdlib.h>` with `p` at a decimal digit: the result,
which is `ULONG_MAX` when the digits stand for a larger number, and the number of bytes
consumed. -/
def strtoul (s : List Nat) : Except LexError (Nat × Nat) :=
  match strtoul_loop s 0 with
  | Except.error e => Except.error e
  | Except.ok (v, n) => Except.ok (min v ULONG_MAX, n)

/-- The loop `do { p++; } while (is_ident2(*p));` after its first `p++`: `s` is what `p` can
read; returns the number of further bytes passed. -/
def ident_loop : List Nat → Except LexError Nat
  | [] => Except.error LexError.out_of_bounds
  | c :: rest =>
    if is_ident2 c then
      match ident_loop rest with
      | Except.error e => Except.error e
      | Except.ok n => Except.ok (n + 1)
    else Except.ok 0

/-- The loop `while (*end != '\n') end++;` of `verror_at`, which looks for the end of the
line of the reported position: `s` is what `loc` can read; returns `end - loc`. -/
def verror_at_line_end : List Nat → Except LexError Nat
  | [] => Except.error LexError.out_of_bounds
  | c :: rest =>
    if c = 10 then Except.ok 0
    else
      match verror_at_line_end rest with
      | Except.error e => Except.error e
      | Except.ok n => Except.ok (n + 1)

/-- One iteration of the `while (*p)` loop of `tokenize`, entered with `*p` not NUL: `s` is
what `p` can read and `p` its offset.  Returns how far `p` advances and the token
appended to the list, if any. -/
def scan_step (s : List Nat) (p : Nat) : Except LexError (Nat × Option Token) :=
  match startswith s [47, 47] with
  | Except.error e => Except.error e
  | Except.ok true =>
    match skip_line (s.drop 2) with
    | Except.error e => Except.error e
    | Except.ok n => Except.ok (2 + n, none)
  | Except.ok false =>
    match startswith s [47, 42] with
    | Except.error e => Except.error e
    | Except.ok true =>
      match strstr (s.drop 2) [42, 47] with
      | Except.error e => Except.error e
      | Except.ok none => Except.error (LexError.unclosed_block_comment p)
      | Except.ok (some i) => Except.ok (2 + i + 2, none)
    | Except.ok false =>
      match s with
      | [] => Except.error LexError.out_of_bounds
      | c :: rest =>
        if isspace c then Except.ok (1, none)
        else if isdigit c then
          match strtoul s with
          | Except.error e => Except.error e
          | Except.ok (v, n) =>
            Except.ok (n, some { new_token TokenKind.TK_NUM p 0 with val := v, len := n })
        else if c = 34 then
          match read_string_literal s p with
          | Except.error e => Except.error e
          | Except.ok tok => Except.ok (tok.len, some tok)
        else if is_ident1 c then
          match ident_loop rest with
          | Except.error e => Except.error e
          | Except.ok n => Except.ok (n + 1, some (new_token TokenKind.TK_IDENT p (n + 1)))
        else
          match read_punct s with
          | Except.error e => Except.error e
          | Except.ok punct_len =>
            if punct_len ≠ 0 then
              Except.ok (punct_len, some (new_token TokenKind.TK_PUNCT p punct_len))
            else Except.error (LexError.invalid_token p)

/-- The `while (*p)` loop of `tokenize` followed by the creation of the end-of-stream token:
the tokens appended from offset `p` on.  Every iteration moves `p` forward, so a number
of iterations above the number of bytes left is never used up. -/
def tokenize_loop : Nat → List Nat → Nat → Except LexError (List Token)
  | 0, _, _ => Except.error LexError.out_of_fuel
  | fuel + 1, s, p =>
    match s with
    | [] => Except.error LexError.out_of_bounds
    | c :: _ =>
      if c = 0 then Except.ok [new_token TokenKind.TK_EOF p 0]
      else
        match scan_step s p with
        | Except.error e => Except.error e
        | Except.ok (k, t) =>
          match tokenize_loop fuel (s.drop k) (p + k) with
          | Except.error e => Except.error e
          | Except.ok ts => Except.ok (t.toList ++ ts)

/-- The token list as the scanning loop leaves it, before the two passes. -/
def scan (buf : List Nat) : Except LexError (List Token) :=
  tokenize_loop (buf.length + 1) buf 0

/-- Function `tokenize(filename, p)` on the buffer `buf`: the scanning loop, then
`add_line_numbers`, then `convert_keywords`. -/
def tokenize (buf : List Nat) : Except LexError (List Token) :=
  match scan buf with
  | Except.error e => Except.error e
  | Except.ok toks =>
    match add_line_numbers buf 0 1 toks with
    | Except.error e => Except.error e
    | Except.ok toks1 => convert_keywords buf toks1

/-- The bytes of a token in the buffer. -/
def Token.text (buf : List Nat) (t : Token) : List Nat := (buf.drop t.loc).take t.len

/-! ## Notions the properties are stated with -/

/-- What a successful iteration of the scanning loop did, rule by rule. -/
inductive StepOk (s : List Nat) (p : Nat) : Nat → Option Token → Prop where
  | line_comment (n : Nat) :
      startswith s [47, 47] = Except.ok true → skip_line (s.drop 2) = Except.ok n →
      StepOk s p (2 + n) none
  | block_comment (i : Nat) :
      startswith s [47, 47] = Except.ok false → startswith s [47, 42] = Except.ok true →
      strstr (s.drop 2) [42, 47] = Except.ok (some i) → StepOk s p (2 + i + 2) none
  | space (c : Nat) (rest : List Nat) :
      s = c :: rest → startswith s [47, 47] = Except.ok false →
      startswith s [47, 42] = Except.ok false → isspace c = true → StepOk s p 1 none
  | num (c : Nat) (rest : List Nat) (v n : Nat) :
      s = c :: rest → startswith s [47, 47] = Except.ok false →
      startswith s [47, 42] = Except.ok false → isspace c = false → isdigit c = true →
      strtoul s = Except.ok (v, n) →
      StepOk s p n (some { new_token TokenKind.TK_NUM p 0 with val := v, len := n })
  | str (c : Nat) (rest : List Nat) (tok : Token) :
      s = c :: rest → startswith s [47, 47] = Except.ok false →
      startswith s [47, 42] = Except.ok false → isspace c = false → isdigit c = false →
      c = 34 → read_string_literal s p = Except.ok tok → StepOk s p tok.len (some tok)
  | ident (c : Nat) (rest : List Nat) (n : Nat) :
      s = c :: rest → startswith s [47, 47] = Except.ok false →
      startswith s [47, 42] = Except.ok false → isspace c = false → isdigit c = false →
      c ≠ 34 → is_ident1 c = true → ident_loop rest = Except.ok n →
      StepOk s p (n + 1) (some (new_token TokenKind.TK_IDENT p (n + 1)))
  | punct (c : Nat) (rest : List Nat) (n : Nat) :
      s = c :: rest → startswith s [47, 47] = Except.ok false →
      startswith s [47, 42] = Except.ok false → isspace c = false → isdigit c = false →
      c ≠ 34 → is_ident1 c = false → read_punct s = Except.ok n → n ≠ 0 →
      StepOk s p n (some (new_token TokenKind.TK_PUNCT p n))

/-- What a successful run of the scanning loop started at offset `p` of the buffer `buf`
did: the iterations it went through and the tokens it appended. -/
inductive ScanOut (buf : List Nat) : Nat → List Token → Prop where
  | eof (p : Nat) : buf.get? p = some 0 → ScanOut buf p [new_token TokenKind.TK_EOF p 0]
  | skip (p k c : Nat) (toks : List Token) :
      buf.get? p = some c → c ≠ 0 → StepOk (buf.drop p) p k none →
      ScanOut buf (p + k) toks → ScanOut buf p toks
  | tok (p k c : Nat) (t : Token) (toks : List Token) :
      buf.get? p = some c → c ≠ 0 → StepOk (buf.drop p) p k (some t) →
      ScanOut buf (p + k) toks → ScanOut buf p (t :: toks)

/-- The tokens `b` that differ from `a` at most in the line number. -/
def Token.same_but_line (a b : Token) : Prop := b = { a with line_no := b.line_no }

/-- The tokens `b` that differ from `a` at most in the kind, which is then keyword. -/
def Token.same_or_keyword (a b : Token) : Prop :=
  b = a ∨ (a.kind ≠ TokenKind.TK_EOF ∧ b = { a with kind := TokenKind.TK_KEYWORD })

/-- How a token returned by `tokenize` relates to the token the scanning loop made. -/
def Token.finished (a c : Token) : Prop :=
  ∃ b, Token.same_but_line a b ∧ Token.same_or_keyword b c

/-- The buffer holding `int x;`, a newline and the terminator. -/
def buf_int_x : List Nat := [105, 110, 116, 32, 120, 59, 10, 0]

/-- The tokens of `buf_int_x`. -/
def toks_int_x : List Token :=
  [ { kind := TokenKind.TK_KEYWORD, loc := 0, len := 3, line_no := 1 },
    { kind := TokenKind.TK_IDENT, loc := 4, len := 1, line_no := 1 },
    { kind := TokenKind.TK_PUNCT, loc := 5, len := 1, line_no := 1 },
    { kind := TokenKind.TK_EOF, loc := 7, len := 0, line_no := 2 } ]

/-- The offset of the first NUL byte of `s` (its length when there is none). -/
def first_nul : List Nat → Nat
  | [] => 0
  | c :: rest => if c = 0 then 0 else first_nul rest + 1

/-- The line number `add_line_numbers` gives a token: the walk from offset `p` (which can
read `s`, with line counter `n`) stops at the first NUL byte, so a token that starts
beyond it keeps its line number. -/
def Token.with_line (s : List Nat) (p n : Nat) (t : Token) : Token :=
  if t.loc ≤ p + first_nul s then { t with line_no := n + (s.take (t.loc - p)).count 10 }
  else t

/-- What the scanning loop guarantees of a token it appends before end-of-stream: the span
lies in the buffer and begins with a byte of the rule that made the token. -/
def Token.scanned (buf : List Nat) (t : Token) : Prop :=
  1 ≤ t.len ∧ t.loc + t.len ≤ buf.length ∧
  ∃ c rest, buf.drop t.loc = c :: rest ∧
    ((t.kind = TokenKind.TK_IDENT ∧ is_ident1 c = true ∧ ∀ b ∈ t.text buf, is_ident2 b = true) ∨
     (t.kind = TokenKind.TK_NUM ∧ isdigit c = true) ∨
     (t.kind = TokenKind.TK_STR ∧ c = 34) ∨
     (t.kind = TokenKind.TK_PUNCT ∧ is_ident1 c = false))

/-- The token `tokenize` returns for the token `t` of the scanning loop: `add_line_numbers`
sets the line number, `convert_keywords` the kind. -/
def Token.finish (buf : List Nat) (t : Token) : Token :=
  if t.kind = TokenKind.TK_IDENT ∧ t.text buf ∈ keyword_kw then
    { Token.with_line buf 0 1 t with kind := TokenKind.TK_KEYWORD }
  else Token.with_line buf 0 1 t

/-- The buffer holding `intx`, a newline and the terminator. -/
def buf_intx : List Nat := [105, 110, 116, 120, 10, 0]

/-- The buffer holding `int`, a newline and the terminator. -/
def buf_int : List Nat := [105, 110, 116, 10, 0]

/-- The buffer holding `int`, a space, a newline and the terminator. -/
def buf_int_space : List Nat := [105, 110, 116, 32, 10, 0]

/-- A buffer with a NUL byte inside a line comment: `//`, NUL, newline, `x`, newline and the
terminator. -/
def buf_nul_in_comment : List Nat := [47, 47, 0, 10, 120, 10, 0]

/-- The bytes `s` are NUL-terminated text filling the memory they stand for: the only NUL
byte is the last byte. -/
def c_string (s : List Nat) : Prop := first_nul s + 1 = s.length

/-- The input contract of `tokenize`: text without NUL byte, then a newline, then the
terminating NUL byte. -/
def newline_terminated (s : List Nat) : Prop := ∃ text, s = text ++ [10, 0] ∧ 0 ∉ text

/-- What a failed iteration of the scanning loop did, rule by rule. -/
inductive StepErr (s : List Nat) (p : Nat) : LexError → Prop where
  | line_test (e : LexError) : startswith s [47, 47] = Except.error e → StepErr s p e
  | line_comment (e : LexError) :
      startswith s [47, 47] = Except.ok true → skip_line (s.drop 2) = Except.error e →
      StepErr s p e
  | block_test (e : LexError) :
      startswith s [47, 47] = Except.ok false → startswith s [47, 42] = Except.error e →
      StepErr s p e
  | block_comment (e : LexError) :
      startswith s [47, 47] = Except.ok false → startswith s [47, 42] = Except.ok true →
      strstr (s.drop 2) [42, 47] = Except.error e → StepErr s p e
  | unclosed_block_comment :
      startswith s [47, 47] = Except.ok false → startswith s [47, 42] = Except.ok true →
      strstr (s.drop 2) [42, 47] = Except.ok none →
      StepErr s p (LexError.unclosed_block_comment p)
  | empty :
      s = [] → startswith s [47, 47] = Except.ok false →
      startswith s [47, 42] = Except.ok false → StepErr s p LexError.out_of_bounds
  | num (c : Nat) (rest : List Nat) (e : LexError) :
      s = c :: rest → startswith s [47, 47] = Except.ok false →
      startswith s [47, 42] = Except.ok false → isspace c = false → isdigit c = true →
      strtoul s = Except.error e → StepErr s p e
  | str (c : Nat) (rest : List Nat) (e : LexError) :
      s = c :: rest → startswith s [47, 47] = Except.ok false →
      startswith s [47, 42] = Except.ok false → isspace c = false → isdigit c = false →
      c = 34 → read_string_literal s p = Except.error e → StepErr s p e
  | ident (c : Nat) (rest : List Nat) (e : LexError) :
      s = c :: rest → startswith s [47, 47] = Except.ok false →
      startswith s [47, 42] = Except.ok false → isspace c = false → isdigit c = false →
      c ≠ 34 → is_ident1 c = true → ident_loop rest = Except.error e → StepErr s p e
  | punct (c : Nat) (rest : List Nat) (e : LexError) :
      s = c :: rest → startswith s [47, 47] = Except.ok false →
      startswith s [47, 42] = Except.ok false → isspace c = false → isdigit c = false →
      c ≠ 34 → is_ident1 c = false → read_punct s = Except.error e → StepErr s p e
  | invalid_token (c : Nat) (rest : List Nat) :
      s = c :: rest → startswith s [47, 47] = Except.ok false →
      startswith s [47, 42] = Except.ok false → isspace c = false → isdigit c = false →
      c ≠ 34 → is_ident1 c = false → read_punct s = Except.ok 0 →
      StepErr s p (LexError.invalid_token p)

/-- The two-character punctuators as the specification lists them: `==`, `!=`, `<=`, `>=`,
`->`. -/
def two_char_punct (c d : Nat) : Prop :=
  (c = 61 ∧ d = 61) ∨ (c = 33 ∧ d = 61) ∨ (c = 60 ∧ d = 61) ∨ (c = 62 ∧ d = 61) ∨
    (c = 45 ∧ d = 62)

/-- Deciding `two_char_punct`. -/
instance instDecTwoCharPunct (c d : Nat) : Decidable (two_char_punct c d) := by
  unfold two_char_punct; infer_instance

/-- The punctuator rule is reached with the bytes `c`, `d` at the cursor: no earlier rule of
the loop applies. -/
def punct_rule_reached (c d : Nat) : Prop :=
  ¬(c = 47 ∧ d = 47) ∧ ¬(c = 47 ∧ d = 42) ∧ isspace c = false ∧ isdigit c = false ∧
    c ≠ 34 ∧ is_ident1 c = false

/-- Deciding `punct_rule_reached`. -/
instance instDecPunctRuleReached (c d : Nat) : Decidable (punct_rule_reached c d) := by
  unfold punct_rule_reached; infer_instance

/-- The buffer holding `<=`, a newline and the terminator. -/
def buf_le : List Nat := [60, 61, 10, 0]

/-- Whether `*/` occurs in the bytes. -/
def has_close : List Nat → Bool
  | a :: b :: rest => (a == 42 && b == 47) || has_close (b :: rest)
  | _ => false

/-- The pieces of a text made of whitespace and comments only: a whitespace byte, a line
comment (`//`, a body, the newline that ends the line), a block comment (`/*`, a body,
`*/`). -/
inductive Segment where
  | space (c : Nat)
  | line_comment (body : List Nat)
  | block_comment (body : List Nat)
  deriving DecidableEq, Repr

/-- The bytes of a segment. -/
def Segment.bytes : Segment → List Nat
  | Segment.space c => [c]
  | Segment.line_comment body => [47, 47] ++ body ++ [10]
  | Segment.block_comment body => [47, 42] ++ body ++ [42, 47]

/-- The segment is what it is called: a whitespace byte; a line comment that runs up to the
end of its line (no newline in the body); a block comment that runs up to the first
`*/` that follows its `/*`. -/
def Segment.well_formed : Segment → Bool
  | Segment.space c => isspace c
  | Segment.line_comment body => !body.contains 10
  | Segment.block_comment body => !has_close (body ++ [42])

/-- A block comment has no NUL byte in its body. -/
def Segment.block_nul_free : Segment → Bool
  | Segment.block_comment body => !body.contains 0
  | _ => true

/-- The text made of the segments. -/
def segments_text (segs : List Segment) : List Nat := (segs.map Segment.bytes).flatten

/-- A block comment with a NUL byte in its body, then a newline. -/
def segs_nul_in_block : List Segment := [Segment.block_comment [0], Segment.space 10]

/-- The segments of the text `/*x*/`, a space, `//y` and its newline, a newline. -/
def segs_sample : List Segment :=
  [Segment.block_comment [120], Segment.space 32, Segment.line_comment [121],
   Segment.space 10]

/-! ## The decoding of a string literal as the specification words it -/

/-- An octal digit. -/
def is_octal_digit (c : Nat) : Bool := 48 ≤ c && c ≤ 55

/-- The value of a hexadecimal digit: `0`-`9`, `A`-`F`, `a`-`f`. -/
def hex_digit_value (c : Nat) : Nat :=
  if c ≤ 57 then c - 48 else if c ≤ 70 then c - 55 else c - 87

/-- The numeric interpretation of a run of octal digits. -/
def octal_value (ds : List Nat) : Nat := ds.foldl (fun acc d => acc * 8 + (d - 48)) 0

/-- The numeric interpretation of a run of hexadecimal digits. -/
def hex_value (ds : List Nat) : Nat := ds.foldl (fun acc d => acc * 16 + hex_digit_value d) 0

/-- The named escapes: `\a \b \t \n \v \f \r` give their control codes, `\e` gives 27, any
other character gives itself. -/
def escape_value (c : Nat) : Nat :=
  if c = 97 then 7 else if c = 98 then 8 else if c = 116 then 9 else if c = 110 then 10
  else if c = 118 then 11 else if c = 102 then 12 else if c = 114 then 13
  else if c = 101 then 27 else c

/-- One escape sequence, given the bytes after the backslash: the byte it stands for (the
value of the escape as a byte, that is modulo 256) and the number of bytes it takes up
after the backslash.  One to three octal digits, taken greedily; or `x` and all the
hexadecimal digits that follow, at least one; or one other character. -/
def spec_escape (rest : List Nat) : Option (Nat × Nat) :=
  let ds := (rest.takeWhile is_octal_digit).take 3
  if ds ≠ [] then some (octal_value ds % 256, ds.length)
  else
    match rest with
    | [] => none
    | c :: rest2 =>
      if c = 120 then
        let hs := rest2.takeWhile isxdigit
        if hs = [] then none else some (hex_value hs % 256, hs.length + 1)
      else some (escape_value c, 1)

/-- The escape-resolved content of the bytes between the quotes: literal bytes are copied,
every escape sequence gives one byte.  The first argument bounds the number of items; the
length of the content is enough. -/
def escape_resolved : Nat → List Nat → Option (List Nat)
  | _, [] => some []
  | 0, _ :: _ => none
  | fuel + 1, c :: rest =>
    if c = 92 then
      match spec_escape rest with
      | none => none
      | some (v, n) =>
        match escape_resolved fuel (rest.drop n) with
        | none => none
        | some bs => some (v :: bs)
    else
      match escape_resolved fuel rest with
      | none => none
      | some bs => some (c :: bs)

/-- The buffer holding the literal `"\101\x42\n"`, a newline and the terminator. -/
def buf_escapes : List Nat := [34, 92, 49, 48, 49, 92, 120, 52, 50, 92, 110, 34, 10, 0]

/-- The buffer holding `x = "abc`, a newline and the terminator: the opening quote is at
offset 4. -/
def buf_unclosed_assign : List Nat := [120, 32, 61, 32, 34, 97, 98, 99, 10, 0]

/-- The buffer holding `"abc`, a newline and the terminator. -/
def buf_unclosed : List Nat := [34, 97, 98, 99, 10, 0]

/-- The buffer ends in a newline followed by the terminating NUL byte. -/
def ends_newline_nul (buf : List Nat) : Prop := ∃ u, buf = u ++ [10, 0]

/-- Scanning forward from the byte after an opening quote, with every backslash protecting
the byte after it, a newline or the end of the buffer (a NUL byte, or no byte left) is
met before a quote that is not protected. -/
def meets_line_end : List Nat → Bool
  | [] => true
  | [c] => c != 34
  | c :: d :: rest =>
    if c = 34 then false
    else if c = 10 ∨ c = 0 then true
    else if c = 92 then meets_line_end rest
    else meets_line_end (d :: rest)

/-- The scanning loop, started with its cursor at offset `q`, has its cursor at offset `p` at
the start of an iteration. -/
inductive CursorPath (buf : List Nat) : Nat → Nat → Prop where
  | here (q : Nat) : CursorPath buf q q
  | step (q c k : Nat) (t : Option Token) (p : Nat) :
      buf.get? q = some c → c ≠ 0 → scan_step (buf.drop q) q = Except.ok (k, t) →
      CursorPath buf (q + k) p → CursorPath buf q p

/-- The bytes after the backslash of the escape `\x1F` followed by `g` (which is no
hexadecimal digit) and a quote. -/
def bytes_hex_escape : List Nat := [120, 49, 70, 103, 34]

/-- The bytes after the backslash of the escape `\1234` followed by a quote: four octal
digits. -/
def bytes_octal_escape : List Nat := [49, 50, 51, 52, 34]

/-- The base-10 value of a run of decimal digits. -/
def decimal_value (ds : List Nat) : Nat := ds.foldl (fun acc d => acc * 10 + (d - 48)) 0

/-- The buffer holding `12ab`, a newline and the terminator. -/
def buf_12ab : List Nat := [49, 50, 97, 98, 10, 0]

/-- The buffer holding `int x = 1 + 2; // comment`, a newline and the terminator; the
comment takes up the offsets 15 to 24. -/
def buf_end_to_end : List Nat :=
  [105, 110, 116, 32, 120, 32, 61, 32, 49, 32, 43, 32, 50, 59, 32,
   47, 47, 32, 99, 111, 109, 109, 101, 110, 116, 10, 0]

/-- The tokens of `buf_end_to_end`. -/
def toks_end_to_end : List Token :=
  [ { kind := TokenKind.TK_KEYWORD, loc := 0, len := 3, line_no := 1 },
    { kind := TokenKind.TK_IDENT, loc := 4, len := 1, line_no := 1 },
    { kind := TokenKind.TK_PUNCT, loc := 6, len := 1, line_no := 1 },
    { kind := TokenKind.TK_NUM, loc := 8, len := 1, val := 1, line_no := 1 },
    { kind := TokenKind.TK_PUNCT, loc := 10, len := 1, line_no := 1 },
    { kind := TokenKind.TK_NUM, loc := 12, len := 1, val := 2, line_no := 1 },
    { kind := TokenKind.TK_PUNCT, loc := 13, len := 1, line_no := 1 },
    { kind := TokenKind.TK_EOF, loc := 26, len := 0, line_no := 2 } ]

/-- The offset of the first `*/` in the bytes, if there is one. -/
def find_close : List Nat → Option Nat
  | a :: b :: rest =>
    if a = 42 ∧ b = 47 then some 0
    else
      match find_close (b :: rest) with
      | none => none
      | some j => some (j + 1)
  | _ => none

/-- The buffer holding `/*`, a NUL byte, `*/`, a newline and the terminator. -/
def buf_nul_in_block : List Nat := [47, 42, 0, 42, 47, 10, 0]

/-- The buffer holding `/*/`, a newline and the terminator. -/
def buf_slash_star_slash : List Nat := [47, 42, 47, 10, 0]

/-- The buffer holding `/* /* */x`, a newline and the terminator. -/
def buf_nested_comment : List Nat := [47, 42, 32, 47, 42, 32, 42, 47, 120, 10, 0]

/-- The byte matches none of the rules of the loop: it is no whitespace, no decimal digit, no
double quote, no letter or underscore, no ASCII punctuation character. -/
def no_rule_byte (c : Nat) : Prop :=
  isspace c = false ∧ isdigit c = false ∧ c ≠ 34 ∧ is_ident1 c = false ∧ ispunct c = false

/-- Deciding `no_rule_byte`. -/
instance instDecNoRuleByte (c : Nat) : Decidable (no_rule_byte c) := by
  unfold no_rule_byte; infer_instance

/-- The buffer holding `a`, the byte 1, a newline and the terminator. -/
def buf_control_byte : List Nat := [97, 1, 10, 0]

/-- The buffer holding a string literal made of a backslash and a NUL byte, then a newline and
the terminator. -/
def buf_nul_string : List Nat := [34, 92, 0, 34, 10, 0]

/-- The string token of `buf_nul_string`. -/
def tok_nul_string : Token :=
  { kind := TokenKind.TK_STR, loc := 0, len := 4, line_no := 1,
    ty := some (array_of CType.ty_char 2), str := some [0, 0, 0] }

/-- The loop `while (current_input < line && line[-1] != '\n') line--;` of `verror_at`, which
looks for the start of the line of the reported position: the argument is the offset of
`line`; returns the final offset of `line`. -/
def verror_at_line_start (buf : List Nat) : Nat → Except LexError Nat
  | 0 => Except.ok 0
  | line + 1 =>
    match buf.get? line with
    | none => Except.error LexError.out_of_bounds
    | some c => if c = 10 then Except.ok (line + 1) else verror_at_line_start buf line

/-- Function `verror_at(line_no, loc, fmt, ap)` up to the point where it prints: the line
number it is given and the offsets of `line` and `end`, between which the printed
source line lies. -/
def verror_at (buf : List Nat) (line_no : Nat) (loc : Nat) :
    Except LexError (Nat × Nat × Nat) :=
  match verror_at_line_start buf loc with
  | Except.error e => Except.error e
  | Except.ok line =>
    match verror_at_line_end (buf.drop loc) with
    | Except.error e => Except.error e
    | Except.ok n => Except.ok (line_no, line, loc + n)

/-- Function `error_tok(tok, fmt, ...)` up to the point where it prints. -/
def error_tok (buf : List Nat) (tok : Token) : Except LexError (Nat × Nat × Nat) :=
  verror_at buf tok.line_no tok.loc

/-- The cursor of the decoding loop of `read_string_literal` with `end` at offset `e`:
`DecodePath e t p t2 p2` says that the loop entered with `p` (which can read `t`) has,
some iterations later, `p` at `p2` (which can read `t2`) at the top of an iteration. -/
inductive DecodePath (e : Nat) : List Nat → Nat → List Nat → Nat → Prop where
  | here (t : List Nat) (p : Nat) : DecodePath e t p t p
  | escape (rest : List Nat) (p : Nat) (v : Int) (n : Nat) (t2 : List Nat) (p2 : Nat) :
      p < e → read_escaped_char rest (p + 1) = Except.ok (v, n) →
      DecodePath e (rest.drop n) (p + 1 + n) t2 p2 → DecodePath e (92 :: rest) p t2 p2
  | plain (c : Nat) (rest : List Nat) (p : Nat) (t2 : List Nat) (p2 : Nat) :
      p < e → c ≠ 92 → DecodePath e rest (p + 1) t2 p2 → DecodePath e (c :: rest) p t2 p2

/-- The buffer holding the string literal of the escape `\1`, a newline and the terminator:
the closing quote is at offset 3. -/
def buf_octal_one : List Nat := [34, 92, 49, 34, 10, 0]

/-- The buffer holding `a`, a NUL byte, `b`, a newline and the terminator. -/
def buf_a_nul_b : List Nat := [97, 0, 98, 10, 0]

/-- The offset `i` lies in the span of the token `t`. -/
def Token.covers (t : Token) (i : Nat) : Prop := t.loc ≤ i ∧ i < t.loc + t.len

/-- Deciding `Token.covers`. -/
instance instDecCovers (t : Token) (i : Nat) : Decidable (t.covers i) := by
  unfold Token.covers; infer_instance

/-! # Verified properties -/

/-! ## The scanning loop, rule by rule -/

theorem scan_step_ok (s : List Nat) (p k : Nat) (t : Option Token)
    (h : scan_step s p = Except.ok (k, t)) : StepOk s p k t := by
  unfold scan_step at h
  split at h
  · cases h
  · rename_i h1
    split at h
    · cases h
    · rename_i n h2
      simp only [Except.ok.injEq, Prod.mk.injEq] at h
      obtain ⟨hk, ht⟩ := h
      subst hk; subst ht
      exact StepOk.line_comment n h1 h2
  · rename_i h1
    split at h
    · cases h
    · rename_i h2
      split at h
      · cases h
      · cases h
      · rename_i i h3
        simp only [Except.ok.injEq, Prod.mk.injEq] at h
        obtain ⟨hk, ht⟩ := h
        subst hk; subst ht
        exact StepOk.block_comment i h1 h2 h3
    · rename_i h2
      split at h
      · cases h
      · rename_i c rest
        by_cases hsp : isspace c = true
        · rw [if_pos hsp] at h
          simp only [Except.ok.injEq, Prod.mk.injEq] at h
          obtain ⟨hk, ht⟩ := h
          subst hk; subst ht
          exact StepOk.space c rest rfl h1 h2 hsp
        · rw [if_neg hsp] at h
          have hsp2 : isspace c = false := by simpa using hsp
          by_cases hd : isdigit c = true
          · rw [if_pos hd] at h
            split at h
            · cases h
            · rename_i v n h3
              simp only [Except.ok.injEq, Prod.mk.injEq] at h
              obtain ⟨hk, ht⟩ := h
              subst hk; subst ht
              exact StepOk.num c rest v n rfl h1 h2 hsp2 hd h3
          · rw [if_neg hd] at h
            have hd2 : isdigit c = false := by simpa using hd
            by_cases hq : c = 34
            · rw [if_pos hq] at h
              split at h
              · cases h
              · rename_i tok h3
                simp only [Except.ok.injEq, Prod.mk.injEq] at h
                obtain ⟨hk, ht⟩ := h
                subst hk; subst ht
                exact StepOk.str c rest tok rfl h1 h2 hsp2 hd2 hq h3
            · rw [if_neg hq] at h
              by_cases hi : is_ident1 c = true
              · rw [if_pos hi] at h
                split at h
                · cases h
                · rename_i n h3
                  simp only [Except.ok.injEq, Prod.mk.injEq] at h
                  obtain ⟨hk, ht⟩ := h
                  subst hk; subst ht
                  exact StepOk.ident c rest n rfl h1 h2 hsp2 hd2 hq hi h3
              · rw [if_neg hi] at h
                have hi2 : is_ident1 c = false := by simpa using hi
                split at h
                · cases h
                · rename_i n h3
                  by_cases hn : n ≠ 0
                  · rw [if_pos hn] at h
                    simp only [Except.ok.injEq, Prod.mk.injEq] at h
                    obtain ⟨hk, ht⟩ := h
                    subst hk; subst ht
                    exact StepOk.punct c rest n rfl h1 h2 hsp2 hd2 hq hi2 h3 hn
                  · rw [if_neg hn] at h
                    cases h

theorem drop_eq_cons {buf : List Nat} {p c : Nat} {rest : List Nat}
    (h : buf.drop p = c :: rest) : buf.get? p = some c ∧ buf.drop (p + 1) = rest := by
  induction buf generalizing p with
  | nil => simp at h
  | cons b bs ih =>
    cases p with
    | zero => simp at h; simp [h]
    | succ q => simp at h; simpa using ih h

theorem tokenize_loop_ok (buf : List Nat) :
    ∀ (fuel p : Nat) (toks : List Token),
      tokenize_loop fuel (buf.drop p) p = Except.ok toks → ScanOut buf p toks := by
  intro fuel
  induction fuel with
  | zero => intro p toks h; simp [tokenize_loop] at h
  | succ fuel ih =>
    intro p toks h
    simp only [tokenize_loop] at h
    split at h
    · cases h
    · rename_i c rest hs
      have hc := (drop_eq_cons hs).1
      by_cases h0 : c = 0
      · rw [if_pos h0] at h
        cases h
        exact ScanOut.eof p (h0 ▸ hc)
      · rw [if_neg h0] at h
        split at h
        · cases h
        · rename_i k t hstep
          have hst := scan_step_ok _ _ _ _ hstep
          split at h
          · cases h
          · rename_i ts hl
            rw [List.drop_drop] at hl
            have hrec := ih (p + k) ts (by rw [← hl])
            cases h
            cases t with
            | none => simpa using ScanOut.skip p k c ts hc h0 hst hrec
            | some t => simpa using ScanOut.tok p k c t ts hc h0 hst hrec

theorem string_literal_end_loop_ge (st : Nat) :
    ∀ (n : Nat) (s : List Nat) (p e : Nat), s.length ≤ n →
      string_literal_end_loop st s p = Except.ok e → p ≤ e := by
  intro n
  induction n with
  | zero =>
    intro s p e hn h
    have : s = [] := List.length_eq_zero.mp (Nat.le_zero.mp hn)
    subst this
    simp [string_literal_end_loop] at h
  | succ n ih =>
    intro s p e hn h
    cases s with
    | nil => simp [string_literal_end_loop] at h
    | cons c rest =>
      unfold string_literal_end_loop at h
      split at h
      · cases h; exact Nat.le_refl _
      · split at h
        · cases h
        · split at h
          · split at h
            · cases h
            · rename_i x rest2
              have := ih rest2 (p + 2) e (by simp at hn; omega) h
              omega
          · have := ih rest (p + 1) e (by simp at hn; omega) h
            omega

theorem string_literal_end_ge (s : List Nat) (p e : Nat)
    (h : string_literal_end s p = Except.ok e) : p ≤ e :=
  string_literal_end_loop_ge p s.length s p e (Nat.le_refl _) h

theorem read_string_literal_ok (s : List Nat) (start : Nat) (tok : Token)
    (h : read_string_literal s start = Except.ok tok) :
    ∃ e bs pf, string_literal_end (s.drop 1) (start + 1) = Except.ok e ∧
      decode_loop (e - start) (s.drop 1) (start + 1) e = Except.ok (bs, pf) ∧
      bs.length ≤ e - start ∧
      tok = { new_token TokenKind.TK_STR start (e + 1 - start) with
              ty := some (array_of CType.ty_char (bs.length + 1)),
              str := some (bs ++ List.replicate (e - start - bs.length) 0) } := by
  unfold read_string_literal at h
  split at h
  · cases h
  · rename_i e he
    split at h
    · cases h
    · rename_i bs pf hd
      by_cases hb : bs.length ≤ e - start
      · rw [if_pos hb] at h
        cases h
        exact ⟨e, bs, pf, he, hd, hb, rfl⟩
      · rw [if_neg hb] at h
        cases h

theorem strtoul_loop_pos (c : Nat) (rest : List Nat) (acc v n : Nat) (hc : isdigit c = true)
    (h : strtoul_loop (c :: rest) acc = Except.ok (v, n)) : 1 ≤ n := by
  simp only [strtoul_loop, hc, if_true] at h
  split at h
  · cases h
  · cases h; omega

theorem strtoul_pos (c : Nat) (rest : List Nat) (v n : Nat) (hc : isdigit c = true)
    (h : strtoul (c :: rest) = Except.ok (v, n)) : 1 ≤ n := by
  unfold strtoul at h
  split at h
  · cases h
  · rename_i v2 n2 h2
    cases h
    exact strtoul_loop_pos c rest 0 v2 _ hc h2

theorem StepOk.advance {s : List Nat} {p k : Nat} {t : Option Token} (h : StepOk s p k t) :
    1 ≤ k := by
  cases h with
  | line_comment n _ _ => omega
  | block_comment i _ _ _ => omega
  | space c rest _ _ _ _ => omega
  | num c rest v n hs _ _ _ hd hv => subst hs; exact strtoul_pos c rest v _ hd hv
  | str c rest tok hs _ _ _ _ _ hr =>
    obtain ⟨e, bs, pf, he, _, _, rfl⟩ := read_string_literal_ok _ _ _ hr
    simp [new_token]
    have := string_literal_end_ge _ _ _ he
    omega
  | ident c rest n _ _ _ _ _ _ _ _ => omega
  | punct c rest n _ _ _ _ _ _ _ _ hn => omega

theorem StepOk.token {s : List Nat} {p k : Nat} {tok : Token} (h : StepOk s p k (some tok)) :
    tok.loc = p ∧ tok.len = k ∧ tok.kind ≠ TokenKind.TK_EOF ∧
      tok.kind ≠ TokenKind.TK_KEYWORD ∧ tok.line_no = 0 := by
  generalize ht : some tok = t at h
  cases h with
  | line_comment n _ _ => cases ht
  | block_comment i _ _ _ => cases ht
  | space c rest _ _ _ _ => cases ht
  | num c rest v n hs _ _ _ hd hv => cases ht; simp [new_token]
  | str c rest tok2 hs _ _ _ _ _ hr =>
    cases ht
    obtain ⟨e, bs, pf, he, _, _, rfl⟩ := read_string_literal_ok _ _ _ hr
    simp [new_token]
  | ident c rest n _ _ _ _ _ _ _ _ => cases ht; simp [new_token]
  | punct c rest n _ _ _ _ _ _ _ _ hn => cases ht; simp [new_token]

theorem ScanOut.loc_ge {buf : List Nat} {p : Nat} {toks : List Token} (h : ScanOut buf p toks) :
    ∀ t ∈ toks, p ≤ t.loc := by
  induction h with
  | eof p _ => intro t ht; simp at ht; subst ht; simp [new_token]
  | skip p k c toks _ _ hst _ ih => intro t ht; have := ih t ht; omega
  | tok p k c t toks _ _ hst _ ih =>
    intro u hu
    rcases List.mem_cons.mp hu with rfl | hu
    · exact Nat.le_of_eq hst.token.1.symm
    · have := ih u hu; omega

theorem ScanOut.sorted {buf : List Nat} {p : Nat} {toks : List Token} (h : ScanOut buf p toks) :
    List.Pairwise (fun a b => a < b) (toks.map Token.loc) := by
  induction h with
  | eof p _ => simp
  | skip p k c toks _ _ hst _ ih => exact ih
  | tok p k c t toks _ _ hst hrest ih =>
    rw [List.map_cons, List.pairwise_cons]
    refine ⟨?_, ih⟩
    intro b hb
    obtain ⟨u, hu, rfl⟩ := List.mem_map.mp hb
    have h1 := hrest.loc_ge u hu
    have h2 := hst.advance
    have h3 := hst.token.1
    omega

theorem ScanOut.ends {buf : List Nat} {p : Nat} {toks : List Token} (h : ScanOut buf p toks) :
    ∃ init pe, toks = init ++ [new_token TokenKind.TK_EOF pe 0] ∧ p ≤ pe ∧
      buf.get? pe = some 0 ∧
      ∀ t ∈ init, t.kind ≠ TokenKind.TK_EOF ∧ t.kind ≠ TokenKind.TK_KEYWORD ∧ t.loc < pe := by
  induction h with
  | eof p h0 => exact ⟨[], p, rfl, Nat.le_refl _, h0, by simp⟩
  | skip p k c toks _ _ hst _ ih =>
    obtain ⟨init, pe, h1, h2, h3, h4⟩ := ih
    exact ⟨init, pe, h1, by omega, h3, h4⟩
  | tok p k c t toks _ _ hst _ ih =>
    obtain ⟨init, pe, h1, h2, h3, h4⟩ := ih
    refine ⟨t :: init, pe, by rw [h1]; rfl, by omega, h3, ?_⟩
    intro u hu
    rcases List.mem_cons.mp hu with rfl | hu
    · have := hst.token
      have := hst.advance
      exact ⟨by tauto, by tauto, by omega⟩
    · exact h4 u hu

theorem ScanOut.line_zero {buf : List Nat} {p : Nat} {toks : List Token}
    (h : ScanOut buf p toks) : ∀ t ∈ toks, t.line_no = 0 := by
  induction h with
  | eof p _ => intro t ht; simp at ht; subst ht; simp [new_token]
  | skip p k c toks _ _ hst _ ih => exact ih
  | tok p k c t toks _ _ hst _ ih =>
    intro u hu
    rcases List.mem_cons.mp hu with rfl | hu
    · exact hst.token.2.2.2.2
    · exact ih u hu

theorem scan_ok (buf : List Nat) (toks : List Token) (h : scan buf = Except.ok toks) :
    ScanOut buf 0 toks := by
  unfold scan at h
  exact tokenize_loop_ok buf (buf.length + 1) 0 toks (by simpa using h)

theorem add_line_numbers_shape :
    ∀ (s : List Nat) (p n : Nat) (toks r : List Token),
      add_line_numbers s p n toks = Except.ok r → List.Forall₂ Token.same_but_line toks r := by
  intro s
  induction s with
  | nil => intro p n toks r h; cases toks <;> simp [add_line_numbers] at h
  | cons c rest ih =>
    intro p n toks r h
    have refl_all : ∀ l : List Token, List.Forall₂ Token.same_but_line l l := by
      intro l
      induction l with
      | nil => exact List.Forall₂.nil
      | cons a l ih2 => exact List.Forall₂.cons rfl ih2
    cases toks with
    | nil => simp [add_line_numbers] at h
    | cons t ts =>
      simp only [add_line_numbers] at h
      split at h
      · split at h
        · cases h
          exact List.Forall₂.cons rfl (refl_all ts)
        · split at h
          · cases h
          · rename_i r2 hr
            cases h
            exact List.Forall₂.cons rfl (ih _ _ _ _ hr)
      · split at h
        · cases h
          exact refl_all _
        · exact ih _ _ _ _ h

theorem convert_keywords_shape (buf : List Nat) :
    ∀ (toks r : List Token),
      convert_keywords buf toks = Except.ok r → List.Forall₂ Token.same_or_keyword toks r := by
  intro toks
  induction toks with
  | nil => intro r h; simp [convert_keywords] at h
  | cons t ts ih =>
    intro r h
    have refl_all : ∀ l : List Token, List.Forall₂ Token.same_or_keyword l l := by
      intro l
      induction l with
      | nil => exact List.Forall₂.nil
      | cons a l ih2 => exact List.Forall₂.cons (Or.inl rfl) ih2
    simp only [convert_keywords] at h
    split at h
    · cases h
      exact refl_all _
    · rename_i hk
      split at h
      · cases h
      · rename_i k _
        split at h
        · cases h
        · rename_i r2 hr
          cases h
          refine List.Forall₂.cons ?_ (ih _ hr)
          cases k with
          | false => exact Or.inl rfl
          | true => exact Or.inr ⟨hk, rfl⟩

theorem tokenize_ok (buf : List Nat) (toks : List Token) (h : tokenize buf = Except.ok toks) :
    ∃ raw lined, scan buf = Except.ok raw ∧ add_line_numbers buf 0 1 raw = Except.ok lined ∧
      convert_keywords buf lined = Except.ok toks := by
  unfold tokenize at h
  split at h
  · cases h
  · rename_i raw h1
    split at h
    · cases h
    · rename_i lined h2
      exact ⟨raw, lined, h1, h2, h⟩

theorem forall₂_append_singleton {R : Token → Token → Prop} :
    ∀ (init : List Token) (e : Token) (l : List Token), List.Forall₂ R (init ++ [e]) l →
      ∃ init2 e2, l = init2 ++ [e2] ∧ List.Forall₂ R init init2 ∧ R e e2 := by
  intro init
  induction init with
  | nil =>
    intro e l h
    cases h with
    | cons hab htl =>
      cases htl
      exact ⟨[], _, rfl, List.Forall₂.nil, hab⟩
  | cons a init ih =>
    intro e l h
    cases h with
    | cons hab htl =>
      obtain ⟨init2, e2, rfl, h1, h2⟩ := ih e _ htl
      exact ⟨_ :: init2, e2, rfl, List.Forall₂.cons hab h1, h2⟩

theorem forall₂_map_eq {R : Token → Token → Prop} {β : Type} (f : Token → β)
    (hR : ∀ a b, R a b → f b = f a) :
    ∀ (l1 l2 : List Token), List.Forall₂ R l1 l2 → l2.map f = l1.map f := by
  intro l1 l2 h
  induction h with
  | nil => rfl
  | cons hab _ ih => simp [hR _ _ hab, ih]

theorem forall₂_comp {R S : Token → Token → Prop} :
    ∀ (l1 l2 l3 : List Token), List.Forall₂ R l1 l2 → List.Forall₂ S l2 l3 →
      List.Forall₂ (fun a c => ∃ b, R a b ∧ S b c) l1 l3 := by
  intro l1 l2 l3 h
  induction h generalizing l3 with
  | nil => intro h2; cases h2; exact List.Forall₂.nil
  | cons hab _ ih =>
    intro h2
    cases h2 with
    | cons hbc htl => exact List.Forall₂.cons ⟨_, hab, hbc⟩ (ih _ htl)

theorem Token.finished.loc {a c : Token} (h : Token.finished a c) : c.loc = a.loc := by
  obtain ⟨b, h1, h2⟩ := h
  unfold Token.same_but_line at h1
  rcases h2 with rfl | ⟨_, rfl⟩
  · rw [h1]
  · rw [h1]

theorem Token.finished.len {a c : Token} (h : Token.finished a c) : c.len = a.len := by
  obtain ⟨b, h1, h2⟩ := h
  unfold Token.same_but_line at h1
  rcases h2 with rfl | ⟨_, rfl⟩
  · rw [h1]
  · rw [h1]

theorem Token.finished.eof_iff {a c : Token} (h : Token.finished a c) :
    c.kind = TokenKind.TK_EOF ↔ a.kind = TokenKind.TK_EOF := by
  obtain ⟨b, h1, h2⟩ := h
  unfold Token.same_but_line at h1
  have hb : b.kind = a.kind := by rw [h1]
  rcases h2 with rfl | ⟨hne, rfl⟩
  · rw [hb]
  · simp only [reduceCtorEq, false_iff]
    rw [← hb]; exact hne

theorem tokenize_finished (buf : List Nat) (toks : List Token)
    (h : tokenize buf = Except.ok toks) :
    ∃ raw, ScanOut buf 0 raw ∧ List.Forall₂ Token.finished raw toks := by
  obtain ⟨raw, lined, h1, h2, h3⟩ := tokenize_ok buf toks h
  exact ⟨raw, scan_ok buf raw h1,
    forall₂_comp _ _ _ (add_line_numbers_shape _ _ _ _ _ h2) (convert_keywords_shape _ _ _ h3)⟩

theorem countP_eof_init (init : List Token) (e : Token)
    (hi : ∀ t ∈ init, t.kind ≠ TokenKind.TK_EOF) (he : e.kind = TokenKind.TK_EOF) :
    (init ++ [e]).countP (fun t => decide (t.kind = TokenKind.TK_EOF)) = 1 := by
  rw [List.countP_append]
  have h0 : init.countP (fun t => decide (t.kind = TokenKind.TK_EOF)) = 0 := by
    rw [List.countP_eq_zero]
    intro t ht
    simpa using hi t ht
  simp [h0, he]

/-- C1: the token sequence returned by `tokenize` is never empty, holds exactly one
end-of-stream token, which is its last element, and its start offsets are strictly
increasing. -/
theorem tokenize_sequence_invariant (buf : List Nat) (toks : List Token)
    (h : tokenize buf = Except.ok toks) :
    toks ≠ [] ∧
    toks.countP (fun t => decide (t.kind = TokenKind.TK_EOF)) = 1 ∧
    toks.getLast?.map Token.kind = some TokenKind.TK_EOF ∧
    List.Pairwise (fun a b => a < b) (toks.map Token.loc) := by
  obtain ⟨raw, hscan, hfin⟩ := tokenize_finished buf toks h
  obtain ⟨init, pe, hraw, _, _, hinit⟩ := hscan.ends
  have hloc : toks.map Token.loc = raw.map Token.loc :=
    forall₂_map_eq Token.loc (fun a b hab => hab.loc) _ _ hfin
  rw [hraw] at hfin
  obtain ⟨init2, e2, rfl, hf1, hf2⟩ := forall₂_append_singleton _ _ _ hfin
  have he2 : e2.kind = TokenKind.TK_EOF := hf2.eof_iff.mpr rfl
  have hi2 : ∀ t ∈ init2, t.kind ≠ TokenKind.TK_EOF := by
    intro t ht hk
    have hmem : ∀ (l1 l2 : List Token), List.Forall₂ Token.finished l1 l2 → t ∈ l2 →
        ∃ a ∈ l1, Token.finished a t := by
      intro l1 l2 hl
      induction hl with
      | nil => intro hm; cases hm
      | cons hab _ ih =>
        intro hm
        rcases List.mem_cons.mp hm with rfl | hm
        · exact ⟨_, List.mem_cons_self _ _, hab⟩
        · obtain ⟨a, ha, hfa⟩ := ih hm
          exact ⟨a, List.mem_cons_of_mem _ ha, hfa⟩
    obtain ⟨a, ha, hfa⟩ := hmem _ _ hf1 ht
    exact (hinit a ha).1 (hfa.eof_iff.mp hk)
  refine ⟨by simp, countP_eof_init init2 e2 hi2 he2, by simp [he2], ?_⟩
  rw [hloc]
  exact hscan.sorted

/-- C1, on the buffer `int x;` followed by a newline and the terminator. -/
theorem tokenize_sequence_invariant_witness :
    tokenize buf_int_x = Except.ok toks_int_x ∧
    toks_int_x ≠ [] ∧
    toks_int_x.countP (fun t => decide (t.kind = TokenKind.TK_EOF)) = 1 ∧
    toks_int_x.getLast?.map Token.kind = some TokenKind.TK_EOF ∧
    List.Pairwise (fun a b => a < b) (toks_int_x.map Token.loc) :=
  ⟨by decide, tokenize_sequence_invariant buf_int_x toks_int_x (by decide)⟩

theorem first_nul_le_of_get {s : List Nat} {i : Nat} (h : s.get? i = some 0) :
    first_nul s ≤ i ∧ 0 ∈ s := by
  induction s generalizing i with
  | nil => simp at h
  | cons c rest ih =>
    cases i with
    | zero => simp at h; subst h; simp [first_nul]
    | succ j =>
      simp at h
      have := ih (by simpa using h)
      simp only [first_nul]
      split
      · simp [*]
      · exact ⟨by omega, List.mem_cons_of_mem _ this.2⟩

theorem add_line_numbers_spec :
    ∀ (s : List Nat) (p n : Nat) (toks : List Token), 0 ∈ s →
      List.Pairwise (fun a b => a < b) (toks.map Token.loc) →
      (∀ t ∈ toks, p ≤ t.loc) →
      (∃ last, toks.getLast? = some last ∧ p + first_nul s ≤ last.loc) →
      add_line_numbers s p n toks = Except.ok (toks.map (Token.with_line s p n)) := by
  intro s
  induction s with
  | nil => intro p n toks h0; simp at h0
  | cons c rest ih =>
    intro p n toks h0 hsorted hge hlast
    cases toks with
    | nil => obtain ⟨last, hl, _⟩ := hlast; simp at hl
    | cons t ts =>
      rw [List.map_cons, List.pairwise_cons] at hsorted
      obtain ⟨hlt, hsorted⟩ := hsorted
      have hlt2 : ∀ u ∈ ts, t.loc < u.loc := fun u hu => hlt _ (List.mem_map_of_mem _ hu)
      -- the tokens from offset `p + 1` on are numbered alike by the walk from `p + 1`
      have hshift : c ≠ 0 → ∀ u : Token, p + 1 ≤ u.loc →
          Token.with_line rest (p + 1) (if c = 10 then n + 1 else n) u =
            Token.with_line (c :: rest) p n u := by
        intro hc u hu
        unfold Token.with_line
        have e1 : first_nul (c :: rest) = first_nul rest + 1 := by simp [first_nul, hc]
        have e2 : u.loc - p = (u.loc - (p + 1)) + 1 := by omega
        rw [e1, e2, List.take_succ_cons, List.count_cons]
        by_cases h10 : c = 10
        · subst h10
          simp only [if_true, beq_self_eq_true]
          have : p + 1 + first_nul rest = p + (first_nul rest + 1) := by omega
          rw [this]
          split
          · congr 1; omega
          · rfl
        · have hb : (c == 10) = false := by simpa using h10
          simp only [if_neg h10, hb]
          have : p + 1 + first_nul rest = p + (first_nul rest + 1) := by omega
          rw [this]
          simp
      have hkeep : c = 0 → ∀ u : Token, p < u.loc → Token.with_line (c :: rest) p n u = u := by
        intro hc u hu
        unfold Token.with_line
        have : first_nul (c :: rest) = 0 := by simp [first_nul, hc]
        rw [this, if_neg (by omega)]
      simp only [add_line_numbers]
      by_cases hp : p = t.loc
      · rw [if_pos hp]
        have ht : Token.with_line (c :: rest) p n t = { t with line_no := n } := by
          unfold Token.with_line
          rw [if_pos (by omega)]
          simp [← hp]
        by_cases hc : c = 0
        · rw [if_pos hc, List.map_cons, ht]
          congr 2
          rw [List.map_congr_left (g := id) (fun u hu => hkeep hc u (by have := hlt2 u hu; omega))]
          simp
        · rw [if_neg hc]
          have hts : ts ≠ [] := by
            rintro rfl
            obtain ⟨last, hl, hle⟩ := hlast
            simp at hl; subst hl
            have : first_nul (c :: rest) = first_nul rest + 1 := by simp [first_nul, hc]
            omega
          have hrec := ih (p + 1) (if c = 10 then n + 1 else n) ts
            (by simpa [Ne.symm hc] using h0) hsorted
            (fun u hu => by have := hlt2 u hu; omega)
            (by
              obtain ⟨last, hl, hle⟩ := hlast
              refine ⟨last, ?_, ?_⟩
              · cases ts with
                | nil => exact absurd rfl hts
                | cons u us => simpa [List.getLast?_cons_cons] using hl
              · have : first_nul (c :: rest) = first_nul rest + 1 := by simp [first_nul, hc]
                omega)
          rw [hrec, List.map_cons, ht]
          simp only
          congr 2
          exact List.map_congr_left (fun u hu => hshift hc u (by have := hlt2 u hu; omega))
      · rw [if_neg hp]
        have hpt : p < t.loc := by
          have := hge t (List.mem_cons_self _ _)
          omega
        by_cases hc : c = 0
        · rw [if_pos hc]
          congr 1
          symm
          rw [List.map_congr_left (g := id) (fun u hu => hkeep hc u (by
            rcases List.mem_cons.mp hu with rfl | hu
            · exact hpt
            · have := hlt2 u hu; omega))]
          simp
        · rw [if_neg hc]
          have hrec := ih (p + 1) (if c = 10 then n + 1 else n) (t :: ts)
            (by simpa [Ne.symm hc] using h0)
            (by rw [List.map_cons, List.pairwise_cons]; exact ⟨hlt, hsorted⟩)
            (fun u hu => by
              rcases List.mem_cons.mp hu with rfl | hu
              · omega
              · have := hlt2 u hu; omega)
            (by
              obtain ⟨last, hl, hle⟩ := hlast
              refine ⟨last, hl, ?_⟩
              have : first_nul (c :: rest) = first_nul rest + 1 := by simp [first_nul, hc]
              omega)
          rw [hrec]
          congr 1
          exact List.map_congr_left (fun u hu => hshift hc u (by
            rcases List.mem_cons.mp hu with rfl | hu
            · omega
            · have := hlt2 u hu; omega))

theorem startswith_true {s q : List Nat} (h : startswith s q = Except.ok true) :
    s.take q.length = q ∧ q.length ≤ s.length := by
  induction q generalizing s with
  | nil => simp
  | cons c q ih =>
    cases s with
    | nil => simp [startswith] at h
    | cons a s =>
      simp only [startswith] at h
      split at h
      · rename_i hac
        have := ih h
        simp [hac, this.1, this.2]
      · cases h

theorem startswith_false {s q : List Nat} (h : startswith s q = Except.ok false) :
    s.take q.length ≠ q := by
  induction q generalizing s with
  | nil => simp [startswith] at h
  | cons c q ih =>
    cases s with
    | nil => simp [startswith] at h
    | cons a s =>
      simp only [startswith] at h
      split at h
      · have := ih h
        simpa using fun _ => this
      · rename_i hac
        simpa using fun h2 => absurd h2 hac

theorem startswith_of_length {s q : List Nat} (h : q.length ≤ s.length) :
    startswith s q = Except.ok (decide (s.take q.length = q)) := by
  induction q generalizing s with
  | nil => simp [startswith]
  | cons c q ih =>
    cases s with
    | nil => simp at h
    | cons a s =>
      simp only [startswith]
      split
      · rename_i hac
        rw [ih (by simpa using h)]
        simp [hac]
      · rename_i hac
        simp [hac]

theorem ident_loop_spec {s : List Nat} {n : Nat} (h : ident_loop s = Except.ok n) :
    n < s.length ∧ (∀ b ∈ s.take n, is_ident2 b = true) ∧
      ∃ b, s.get? n = some b ∧ is_ident2 b = false := by
  induction s generalizing n with
  | nil => simp [ident_loop] at h
  | cons c rest ih =>
    simp only [ident_loop] at h
    split at h
    · rename_i hc
      split at h
      · cases h
      · rename_i m hm
        cases h
        obtain ⟨h1, h2, h3⟩ := ih hm
        refine ⟨by simp; omega, ?_, by simpa using h3⟩
        intro b hb
        simp at hb
        rcases hb with rfl | hb
        · exact hc
        · exact h2 b hb
    · rename_i hc
      cases h
      exact ⟨by simp, by simp, c, by simp, by simpa using hc⟩

theorem strtoul_loop_spec {s : List Nat} {acc v n : Nat}
    (h : strtoul_loop s acc = Except.ok (v, n)) :
    n < s.length ∧ (∀ b ∈ s.take n, isdigit b = true) ∧
      ∃ b, s.get? n = some b ∧ isdigit b = false := by
  induction s generalizing acc n with
  | nil => simp [strtoul_loop] at h
  | cons c rest ih =>
    simp only [strtoul_loop] at h
    split at h
    · rename_i hc
      split at h
      · cases h
      · rename_i v2 m hm
        cases h
        obtain ⟨h1, h2, h3⟩ := ih hm
        refine ⟨by simp; omega, ?_, by simpa using h3⟩
        intro b hb
        simp at hb
        rcases hb with rfl | hb
        · exact hc
        · exact h2 b hb
    · rename_i hc
      cases h
      exact ⟨by simp, by simp, c, by simp, by simpa using hc⟩

theorem strtoul_spec {s : List Nat} {v n : Nat} (h : strtoul s = Except.ok (v, n)) :
    n < s.length ∧ (∀ b ∈ s.take n, isdigit b = true) ∧
      ∃ b, s.get? n = some b ∧ isdigit b = false := by
  unfold strtoul at h
  split at h
  · cases h
  · rename_i v2 n2 h2
    cases h
    exact strtoul_loop_spec h2

theorem string_literal_end_loop_quote (st : Nat) :
    ∀ (n : Nat) (s : List Nat) (p e : Nat), s.length ≤ n →
      string_literal_end_loop st s p = Except.ok e → s.get? (e - p) = some 34 := by
  intro n
  induction n with
  | zero =>
    intro s p e hn h
    have : s = [] := List.length_eq_zero.mp (Nat.le_zero.mp hn)
    subst this
    simp [string_literal_end_loop] at h
  | succ n ih =>
    intro s p e hn h
    have hge := string_literal_end_loop_ge st _ s p e (Nat.le_refl _) h
    cases s with
    | nil => simp [string_literal_end_loop] at h
    | cons c rest =>
      unfold string_literal_end_loop at h
      split at h
      · rename_i hc
        cases h; simp [hc]
      · split at h
        · cases h
        · split at h
          · split at h
            · cases h
            · rename_i x rest2
              have h1 := ih rest2 (p + 2) e (by simp at hn; omega) h
              have h2 := string_literal_end_loop_ge st _ rest2 (p + 2) e (Nat.le_refl _) h
              have : e - p = (e - (p + 2)) + 1 + 1 := by omega
              rw [this]
              simpa using h1
          · have h1 := ih rest (p + 1) e (by simp at hn; omega) h
            have h2 := string_literal_end_loop_ge st _ rest (p + 1) e (Nat.le_refl _) h
            have : e - p = (e - (p + 1)) + 1 := by omega
            rw [this]
            simpa using h1

theorem get?_lt {s : List Nat} {i b : Nat} (h : s.get? i = some b) : i < s.length := by
  by_contra hc
  rw [List.get?_eq_none.mpr (by omega)] at h
  cases h

theorem read_punct_loop_spec (s : List Nat) :
    ∀ (kws : List (List Nat)) (n : Nat), read_punct_loop s kws = Except.ok n →
      (∃ k ∈ kws, s.take k.length = k ∧ k.length ≤ s.length ∧ n = k.length ∧
        ∀ k2 ∈ kws.takeWhile (fun x => decide (x ≠ k)), s.take k2.length ≠ k2) ∨
      ((∀ k ∈ kws, s.take k.length ≠ k) ∧ ∃ c rest, s = c :: rest ∧
        n = if ispunct c then 1 else 0) := by
  intro kws
  induction kws with
  | nil =>
    intro n h
    simp only [read_punct_loop] at h
    split at h
    · cases h
    · rename_i c rest
      cases h
      exact Or.inr ⟨by simp, c, rest, rfl, rfl⟩
  | cons k ks ih =>
    intro n h
    simp only [read_punct_loop] at h
    split at h
    · cases h
    · rename_i hk
      cases h
      have := startswith_true hk
      exact Or.inl ⟨k, by simp, this.1, this.2, rfl, by simp [List.takeWhile]⟩
    · rename_i hk
      have hne := startswith_false hk
      rcases ih n h with ⟨k2, hk2, h1, h2, h3, h4⟩ | ⟨h1, h2⟩
      · refine Or.inl ⟨k2, List.mem_cons_of_mem _ hk2, h1, h2, h3, ?_⟩
        intro k3 hk3
        have hkk : k ≠ k2 := by rintro rfl; exact hne h1
        rw [List.takeWhile_cons] at hk3
        simp only [ne_eq, hkk, not_false_eq_true, decide_True, if_true] at hk3
        rcases List.mem_cons.mp hk3 with rfl | hk3
        · exact hne
        · exact h4 k3 hk3
      · refine Or.inr ⟨?_, h2⟩
        intro k2 hk2
        rcases List.mem_cons.mp hk2 with rfl | hk2
        · exact hne
        · exact h1 k2 hk2

theorem read_punct_spec {s : List Nat} {n : Nat} (h : read_punct s = Except.ok n) (hn : n ≠ 0) :
    1 ≤ n ∧ n ≤ 2 ∧ n ≤ s.length ∧ ∀ b ∈ s.take n, ispunct b = true := by
  rcases read_punct_loop_spec s punct_kw n h with ⟨k, hk, h1, h2, h3, _⟩ | ⟨_, c, rest, hs, h3⟩
  · subst h3
    rw [h1]
    simp [punct_kw] at hk
    rcases hk with rfl | rfl | rfl | rfl | rfl <;> simp at h2 ⊢ <;>
      exact ⟨h2, by decide⟩
  · subst hs
    by_cases hp : ispunct c = true
    · rw [if_pos hp] at h3
      subst h3
      simp [hp]
    · rw [if_neg hp] at h3
      exact absurd h3 hn

theorem read_punct_of_two (c d : Nat) (rest : List Nat) :
    read_punct (c :: d :: rest) =
      Except.ok (if [c, d] ∈ punct_kw then 2 else if ispunct c then 1 else 0) := by
  simp only [read_punct, punct_kw, read_punct_loop]
  rw [startswith_of_length (by simp), startswith_of_length (by simp),
    startswith_of_length (by simp), startswith_of_length (by simp),
    startswith_of_length (by simp)]
  by_cases h1 : c = 61 ∧ d = 61
  · simp [h1.1, h1.2]
  by_cases h2 : c = 33 ∧ d = 61
  · simp [h2.1, h2.2]
  by_cases h3 : c = 60 ∧ d = 61
  · simp [h3.1, h3.2]
  by_cases h4 : c = 62 ∧ d = 61
  · simp [h4.1, h4.2]
  by_cases h5 : c = 45 ∧ d = 62
  · simp [h5.1, h5.2]
  simp [h1, h2, h3, h4, h5]

theorem memcmp_eq_head_ne (c d : Nat) (s op : List Nat) (n : Nat) (hcd : c ≠ d) :
    memcmp_eq (c :: s) ((d :: op) ++ [0]) (n + 1) = Except.ok false := by
  simp [memcmp_eq, hcd]

theorem memcmp_eq_spec :
    ∀ (op s : List Nat) (n : Nat), n ≤ s.length → 0 ∉ s.take n →
      memcmp_eq s (op ++ [0]) n = Except.ok (decide (s.take n = op.take n ∧ n ≤ op.length)) := by
  intro op
  induction op with
  | nil =>
    intro s n hn h0
    cases n with
    | zero => simp [memcmp_eq]
    | succ n =>
      cases s with
      | nil => simp at hn
      | cons x s =>
        have hx : x ≠ 0 := by
          intro hx; apply h0; simp [hx]
        simp [memcmp_eq, hx]
  | cons d op ih =>
    intro s n hn h0
    cases n with
    | zero => simp [memcmp_eq]
    | succ n =>
      cases s with
      | nil => simp at hn
      | cons x s =>
        simp only [List.cons_append, memcmp_eq]
        split
        · rename_i hxd
          have := ih s n (by simpa using hn) (by intro h; apply h0; simp [h])
          simp only [List.append_eq] at this ⊢
          rw [this]
          simp [hxd]
        · rename_i hxd
          simp [hxd]

theorem equal_spec (buf : List Nat) (tok : Token) (op : List Nat) (hop : 0 ∉ op)
    (hlen : tok.loc + tok.len ≤ buf.length) (h0 : 0 ∉ tok.text buf) :
    equal buf tok op = Except.ok (decide (tok.text buf = op)) := by
  unfold equal
  unfold Token.text at h0 ⊢
  rw [memcmp_eq_spec op _ _ (by simp; omega) h0]
  by_cases h : List.take tok.len (List.drop tok.loc buf) = List.take tok.len op ∧
      tok.len ≤ op.length
  · rw [decide_eq_true h]
    simp only
    obtain ⟨h1, h2⟩ := h
    rcases Nat.lt_or_eq_of_le h2 with hlt | heq
    · have hg : (op ++ [0]).get? tok.len = some (op.get ⟨tok.len, hlt⟩) := by
        rw [List.get?_eq_getElem?, List.getElem?_append_left hlt]
        simp [List.getElem?_eq_getElem hlt]
      rw [hg]
      simp only
      have hne : op.get ⟨tok.len, hlt⟩ ≠ 0 := by
        intro hz
        apply hop
        rw [← hz]
        exact List.get_mem _ _ _
      have hne2 : List.take tok.len (List.drop tok.loc buf) ≠ op := by
        intro he
        have := congrArg List.length he
        simp at this
        omega
      have hne3 : ¬op[tok.len] = 0 := by simpa using hne
      simp [hne3, hne2]
    · have hg : (op ++ [0]).get? tok.len = some 0 := by
        rw [List.get?_eq_getElem?, heq]
        simp
      rw [hg]
      simp only
      rw [h1, heq, List.take_length]
      simp
  · rw [decide_eq_false h]
    simp only
    have hne2 : List.take tok.len (List.drop tok.loc buf) ≠ op := by
      intro he
      apply h
      have hl := congrArg List.length he
      simp at hl
      refine ⟨?_, by omega⟩
      rw [he, List.take_of_length_le (by omega)]
    simp [hne2]

theorem length_drop_of_cons {buf : List Nat} {p c : Nat} {rest : List Nat}
    (h : buf.drop p = c :: rest) : p + (rest.length + 1) = buf.length := by
  have := congrArg List.length h
  simp at this
  omega

theorem StepOk.token_scanned {buf : List Nat} {p k : Nat} {t : Token}
    (h : StepOk (buf.drop p) p k (some t)) : t.scanned buf := by
  generalize ht : some t = o at h
  generalize hs : buf.drop p = s at h
  cases h with
  | line_comment n _ _ => cases ht
  | block_comment i _ _ _ => cases ht
  | space c rest _ _ _ _ => cases ht
  | num c rest v n hs2 _ _ _ hd hv =>
    cases ht
    subst hs2
    have h1 := strtoul_pos c rest v _ hd hv
    have h2 := (strtoul_spec hv).1
    have h3 := length_drop_of_cons hs
    refine ⟨h1, ?_, c, rest, hs, Or.inr (Or.inl ⟨rfl, hd⟩)⟩
    simp [new_token] at h2 ⊢
    omega
  | str c rest tok hs2 _ _ _ _ hq hr =>
    cases ht
    subst hs2
    obtain ⟨e, bs, pf, he, _, _, rfl⟩ := read_string_literal_ok _ _ _ hr
    have h1 := string_literal_end_ge _ _ _ he
    have h2 := get?_lt (string_literal_end_loop_quote _ _ _ _ _ (Nat.le_refl _) he)
    have h3 := length_drop_of_cons hs
    refine ⟨?_, ?_, c, rest, hs, Or.inr (Or.inr (Or.inl ⟨rfl, hq⟩))⟩
    · simp [new_token]; omega
    · simp [new_token] at h2 ⊢; omega
  | ident c rest n hs2 _ _ _ _ _ hi hl =>
    cases ht
    subst hs2
    obtain ⟨h1, h2, _⟩ := ident_loop_spec hl
    have h3 := length_drop_of_cons hs
    refine ⟨by simp [new_token], by simp [new_token]; omega, c, rest, hs,
      Or.inl ⟨rfl, hi, ?_⟩⟩
    intro b hb
    simp only [Token.text, new_token, hs, List.take_succ_cons, List.mem_cons] at hb
    rcases hb with rfl | hb
    · simp [is_ident2, hi]
    · exact h2 b hb
  | punct c rest n hs2 _ _ _ _ _ hi hr hn =>
    cases ht
    subst hs2
    obtain ⟨h1, _, h2, _⟩ := read_punct_spec hr hn
    have h3 := length_drop_of_cons hs
    refine ⟨h1, ?_, c, rest, hs, Or.inr (Or.inr (Or.inr ⟨rfl, hi⟩))⟩
    simp [new_token] at h2 ⊢
    omega

theorem ScanOut.all_scanned {buf : List Nat} {p : Nat} {toks : List Token}
    (h : ScanOut buf p toks) : ∀ t ∈ toks, t.kind ≠ TokenKind.TK_EOF → t.scanned buf := by
  induction h with
  | eof p _ => intro t ht hk; simp at ht; subst ht; simp [new_token] at hk
  | skip p k c toks _ _ hst _ ih => exact ih
  | tok p k c t toks _ _ hst _ ih =>
    intro u hu hk
    rcases List.mem_cons.mp hu with rfl | hu
    · exact hst.token_scanned
    · exact ih u hu hk

theorem is_keyword_loop_text (buf : List Nat) (t : Token)
    (hlen : t.loc + t.len ≤ buf.length) (h0 : 0 ∉ t.text buf) :
    ∀ kws : List (List Nat), (∀ k ∈ kws, 0 ∉ k) →
      is_keyword_loop buf t kws = Except.ok (decide (t.text buf ∈ kws)) := by
  intro kws
  induction kws with
  | nil => intro _; simp [is_keyword_loop]
  | cons k ks ih =>
    intro hk
    simp only [is_keyword_loop]
    rw [equal_spec buf t k (hk k (List.mem_cons_self _ _)) hlen h0]
    by_cases he : t.text buf = k
    · simp [he]
    · rw [decide_eq_false he]
      simp only
      rw [ih (fun k2 hk2 => hk k2 (List.mem_cons_of_mem _ hk2))]
      simp [he]

theorem is_keyword_loop_head (buf : List Nat) (t : Token) (c : Nat) (rest : List Nat)
    (hs : buf.drop t.loc = c :: rest) (hlen : 1 ≤ t.len) :
    ∀ kws : List (List Nat), (∀ k ∈ kws, ∃ d k2, k = d :: k2 ∧ d ≠ c) →
      is_keyword_loop buf t kws = Except.ok false ∧ t.text buf ∉ kws := by
  intro kws
  induction kws with
  | nil => intro _; simp [is_keyword_loop]
  | cons k ks ih =>
    intro hk
    obtain ⟨d, k2, rfl, hd⟩ := hk _ (List.mem_cons_self _ _)
    obtain ⟨n, hn⟩ : ∃ n, t.len = n + 1 := ⟨t.len - 1, by omega⟩
    have h1 := ih (fun k3 hk3 => hk k3 (List.mem_cons_of_mem _ hk3))
    simp only [is_keyword_loop, equal, hs, hn]
    rw [memcmp_eq_head_ne c d rest k2 n (Ne.symm hd)]
    simp only
    refine ⟨h1.1, ?_⟩
    simp only [List.mem_cons, not_or]
    refine ⟨?_, h1.2⟩
    simp only [Token.text, hs, hn, List.take_succ_cons]
    intro h
    injection h with h2 _
    exact hd h2.symm

theorem keyword_kw_nul_free : ∀ k ∈ keyword_kw, 0 ∉ k := by decide

theorem keyword_kw_head : ∀ k ∈ keyword_kw, ∃ d k2, k = d :: k2 ∧ 97 ≤ d ∧ d ≤ 122 := by
  intro k hk
  simp only [keyword_kw, List.mem_cons, List.mem_singleton, List.not_mem_nil, or_false] at hk
  rcases hk with rfl | rfl | rfl | rfl | rfl | rfl | rfl | rfl | rfl | rfl | rfl | rfl <;>
    exact ⟨_, _, rfl, by decide, by decide⟩

theorem is_keyword_scanned (buf : List Nat) (t : Token) (h : t.scanned buf) :
    is_keyword buf t =
      Except.ok (decide (t.kind = TokenKind.TK_IDENT ∧ t.text buf ∈ keyword_kw)) := by
  obtain ⟨h1, h2, c, rest, hs, hk⟩ := h
  have hhead : ¬(97 ≤ c ∧ c ≤ 122) → t.kind ≠ TokenKind.TK_IDENT →
      is_keyword buf t =
        Except.ok (decide (t.kind = TokenKind.TK_IDENT ∧ t.text buf ∈ keyword_kw)) := by
    intro hc hki
    have := is_keyword_loop_head buf t c rest hs h1 keyword_kw (by
      intro k hk
      obtain ⟨d, k2, rfl, hd1, hd2⟩ := keyword_kw_head k hk
      exact ⟨d, k2, rfl, by rintro rfl; exact hc ⟨hd1, hd2⟩⟩)
    unfold is_keyword
    rw [this.1]
    simp [hki]
  rcases hk with ⟨hk, hc, hall⟩ | ⟨hk, hc⟩ | ⟨hk, hc⟩ | ⟨hk, hc⟩
  · have h0 : 0 ∉ t.text buf := by
      intro h
      have := hall 0 h
      simp [is_ident2, is_ident1] at this
    unfold is_keyword
    rw [is_keyword_loop_text buf t h2 h0 keyword_kw keyword_kw_nul_free]
    simp [hk]
  · apply hhead
    · simp [isdigit] at hc; omega
    · simp [hk]
  · apply hhead
    · omega
    · simp [hk]
  · apply hhead
    · simp [is_ident1] at hc; omega
    · simp [hk]

theorem Token.with_line_kind (s : List Nat) (p n : Nat) (t : Token) :
    (Token.with_line s p n t).kind = t.kind := by
  unfold Token.with_line; split <;> rfl

theorem Token.with_line_loc (s : List Nat) (p n : Nat) (t : Token) :
    (Token.with_line s p n t).loc = t.loc := by
  unfold Token.with_line; split <;> rfl

theorem Token.with_line_len (s : List Nat) (p n : Nat) (t : Token) :
    (Token.with_line s p n t).len = t.len := by
  unfold Token.with_line; split <;> rfl

theorem is_keyword_congr (buf : List Nat) (a b : Token) (h1 : a.loc = b.loc)
    (h2 : a.len = b.len) : is_keyword buf a = is_keyword buf b := by
  have he : ∀ op, equal buf a op = equal buf b op := by
    intro op; unfold equal; rw [h1, h2]
  have hl : ∀ kws, is_keyword_loop buf a kws = is_keyword_loop buf b kws := by
    intro kws
    induction kws with
    | nil => rfl
    | cons k ks ih => simp only [is_keyword_loop, he, ih]
  exact hl _

theorem convert_keywords_spec (buf : List Nat) (f : Token → Bool) (e : Token)
    (he : e.kind = TokenKind.TK_EOF) :
    ∀ init : List Token,
      (∀ t ∈ init, t.kind ≠ TokenKind.TK_EOF ∧ is_keyword buf t = Except.ok (f t)) →
      convert_keywords buf (init ++ [e]) = Except.ok
        (init.map (fun t => if f t then { t with kind := TokenKind.TK_KEYWORD } else t) ++ [e]) := by
  intro init
  induction init with
  | nil => intro _; simp [convert_keywords, he]
  | cons t ts ih =>
    intro h
    obtain ⟨h1, h2⟩ := h t (List.mem_cons_self _ _)
    have h3 := ih (fun u hu => h u (List.mem_cons_of_mem _ hu))
    simp only [List.cons_append, convert_keywords, if_neg h1, h2, List.map_cons]
    simp only [List.append_eq]
    rw [h3]

theorem ScanOut.tokenize_eq {buf : List Nat} {raw : List Token} (h : ScanOut buf 0 raw) :
    add_line_numbers buf 0 1 raw = Except.ok (raw.map (Token.with_line buf 0 1)) ∧
    convert_keywords buf (raw.map (Token.with_line buf 0 1)) =
      Except.ok (raw.map (Token.finish buf)) := by
  obtain ⟨init, pe, hraw, _, hpe, hinit⟩ := h.ends
  have hnul := first_nul_le_of_get hpe
  refine ⟨?_, ?_⟩
  · apply add_line_numbers_spec buf 0 1 raw hnul.2 h.sorted (fun t _ => Nat.zero_le _)
    refine ⟨new_token TokenKind.TK_EOF pe 0, by rw [hraw]; simp, ?_⟩
    simpa [new_token] using hnul.1
  · have hsc := h.all_scanned
    rw [hraw] at hsc ⊢
    rw [List.map_append, List.map_append, List.map_singleton, List.map_singleton]
    have hfe : Token.finish buf (new_token TokenKind.TK_EOF pe 0) =
        Token.with_line buf 0 1 (new_token TokenKind.TK_EOF pe 0) := by
      unfold Token.finish
      rw [if_neg (by simp [new_token])]
    rw [hfe, convert_keywords_spec buf
      (fun t => decide (t.kind = TokenKind.TK_IDENT ∧ t.text buf ∈ keyword_kw))
      _ (by rw [Token.with_line_kind]; rfl)]
    · congr 2
      rw [List.map_map]
      apply List.map_congr_left
      intro t _
      have htext : (Token.with_line buf 0 1 t).text buf = t.text buf := by
        unfold Token.text
        rw [Token.with_line_loc, Token.with_line_len]
      simp only [Function.comp, Token.finish, Token.with_line_kind, htext, decide_eq_true_eq]
    · intro u hu
      obtain ⟨t, ht, rfl⟩ := List.mem_map.mp hu
      have hk := (hinit t ht).1
      have hst := hsc t (by simp [ht]) hk
      refine ⟨by rw [Token.with_line_kind]; exact hk, ?_⟩
      have htext : (Token.with_line buf 0 1 t).text buf = t.text buf := by
        unfold Token.text
        rw [Token.with_line_loc, Token.with_line_len]
      rw [is_keyword_congr buf _ t (Token.with_line_loc _ _ _ _) (Token.with_line_len _ _ _ _),
        is_keyword_scanned buf t hst, Token.with_line_kind, htext]

theorem tokenize_eq_map (buf : List Nat) (raw : List Token) (h : scan buf = Except.ok raw) :
    tokenize buf = Except.ok (raw.map (Token.finish buf)) := by
  have h2 := (scan_ok buf raw h).tokenize_eq
  unfold tokenize
  rw [h]
  simp only [h2.1, h2.2]

theorem tokenize_error_iff (buf : List Nat) (e : LexError) :
    tokenize buf = Except.error e ↔ scan buf = Except.error e := by
  unfold tokenize
  cases h : scan buf with
  | error e2 => simp
  | ok raw =>
    have h2 := (scan_ok buf raw h).tokenize_eq
    simp only [h2.1, h2.2]
    simp

theorem tokenize_ok_iff (buf : List Nat) (toks : List Token) :
    tokenize buf = Except.ok toks ↔
      ∃ raw, scan buf = Except.ok raw ∧ toks = raw.map (Token.finish buf) := by
  constructor
  · intro h
    cases hs : scan buf with
    | error e => rw [(tokenize_error_iff buf e).mpr hs] at h; cases h
    | ok raw =>
      rw [tokenize_eq_map buf raw hs] at h
      cases h
      exact ⟨raw, rfl, rfl⟩
  · rintro ⟨raw, hs, rfl⟩
    exact tokenize_eq_map buf raw hs

theorem forall₂_map_of_mem {R : Token → Token → Prop} (f : Token → Token) :
    ∀ l : List Token, (∀ a ∈ l, R a (f a)) → List.Forall₂ R l (l.map f) := by
  intro l
  induction l with
  | nil => intro _; exact List.Forall₂.nil
  | cons a l ih =>
    intro h
    exact List.Forall₂.cons (h a (List.mem_cons_self _ _))
      (ih (fun b hb => h b (List.mem_cons_of_mem _ hb)))

theorem ScanOut.kind_ne_keyword {buf : List Nat} {p : Nat} {toks : List Token}
    (h : ScanOut buf p toks) : ∀ t ∈ toks, t.kind ≠ TokenKind.TK_KEYWORD := by
  obtain ⟨init, pe, rfl, _, _, hinit⟩ := h.ends
  intro t ht
  rcases List.mem_append.mp ht with ht | ht
  · exact (hinit t ht).2.1
  · simp at ht; subst ht; simp [new_token]

theorem Token.finish_loc (buf : List Nat) (t : Token) : (Token.finish buf t).loc = t.loc := by
  unfold Token.finish
  split
  · exact Token.with_line_loc _ _ _ _
  · exact Token.with_line_loc _ _ _ _

theorem Token.finish_len (buf : List Nat) (t : Token) : (Token.finish buf t).len = t.len := by
  unfold Token.finish
  split
  · exact Token.with_line_len _ _ _ _
  · exact Token.with_line_len _ _ _ _

theorem Token.finish_text (buf : List Nat) (t : Token) :
    (Token.finish buf t).text buf = t.text buf := by
  unfold Token.text
  rw [Token.finish_loc, Token.finish_len]

/-- C3: a token returned by `tokenize` has kind keyword exactly when the identifier rule made
it and its text is one of the twelve keywords; every other token keeps the kind its
rule gave it, so that no numeric, string or punctuator token is reclassified.  The
buffer `intx` gives an identifier, the buffers `int` and `int ` a keyword of text `int`. -/
theorem keyword_classification :
    (∀ (buf : List Nat) (toks : List Token), tokenize buf = Except.ok toks →
      ∃ raw, scan buf = Except.ok raw ∧
        List.Forall₂ (fun a c =>
          c.loc = a.loc ∧ c.len = a.len ∧
          (c.kind = TokenKind.TK_KEYWORD ↔
            (a.kind = TokenKind.TK_IDENT ∧ c.text buf ∈ keyword_kw)) ∧
          (c.kind ≠ TokenKind.TK_KEYWORD → c.kind = a.kind)) raw toks) ∧
    tokenize buf_intx = Except.ok
      [ { kind := TokenKind.TK_IDENT, loc := 0, len := 4, line_no := 1 },
        { kind := TokenKind.TK_EOF, loc := 5, len := 0, line_no := 2 } ] ∧
    tokenize buf_int = Except.ok
      [ { kind := TokenKind.TK_KEYWORD, loc := 0, len := 3, line_no := 1 },
        { kind := TokenKind.TK_EOF, loc := 4, len := 0, line_no := 2 } ] ∧
    tokenize buf_int_space = Except.ok
      [ { kind := TokenKind.TK_KEYWORD, loc := 0, len := 3, line_no := 1 },
        { kind := TokenKind.TK_EOF, loc := 5, len := 0, line_no := 2 } ] := by
  refine ⟨?_, by decide, by decide, by decide⟩
  intro buf toks h
  obtain ⟨raw, hs, rfl⟩ := (tokenize_ok_iff buf toks).mp h
  refine ⟨raw, hs, forall₂_map_of_mem _ raw ?_⟩
  intro a ha
  have hk := (scan_ok buf raw hs).kind_ne_keyword a ha
  refine ⟨Token.finish_loc buf a, Token.finish_len buf a, ?_, ?_⟩
  · rw [Token.finish_text]
    unfold Token.finish
    split
    · rename_i hc
      simp [hc.1, hc.2]
    · rename_i hc
      rw [Token.with_line_kind]
      constructor
      · intro h2; exact absurd h2 hk
      · intro h2; exact absurd h2 hc
  · unfold Token.finish
    split
    · intro h2; exact absurd rfl h2
    · intro _; exact Token.with_line_kind _ _ _ _

/-- C3 on the buffer `int x;`: its first token is the keyword `int`, made by the identifier
rule, and the identifier `x` stays an identifier. -/
theorem keyword_classification_witness :
    tokenize buf_int_x = Except.ok toks_int_x ∧
    ∃ raw, scan buf_int_x = Except.ok raw ∧
      List.Forall₂ (fun a c =>
        c.loc = a.loc ∧ c.len = a.len ∧
        (c.kind = TokenKind.TK_KEYWORD ↔
          (a.kind = TokenKind.TK_IDENT ∧ c.text buf_int_x ∈ keyword_kw)) ∧
        (c.kind ≠ TokenKind.TK_KEYWORD → c.kind = a.kind)) raw toks_int_x :=
  ⟨by decide, keyword_classification.1 buf_int_x toks_int_x (by decide)⟩

theorem Token.finish_line_no (buf : List Nat) (t : Token) :
    (Token.finish buf t).line_no =
      if t.loc ≤ first_nul buf then 1 + (buf.take t.loc).count 10 else t.line_no := by
  have h : (Token.with_line buf 0 1 t).line_no =
      if t.loc ≤ first_nul buf then 1 + (buf.take t.loc).count 10 else t.line_no := by
    unfold Token.with_line
    simp only [Nat.zero_add, Nat.sub_zero]
    split <;> rfl
  unfold Token.finish
  split
  · exact h
  · exact h

theorem count_take_mono (buf : List Nat) (a b : Nat) (h : a ≤ b) :
    (buf.take a).count 10 ≤ (buf.take b).count 10 := by
  have : buf.take b = buf.take a ++ (buf.drop a).take (b - a) := by
    rw [← List.take_append_drop a (buf.take b), List.take_take, List.drop_take,
      Nat.min_eq_left h]
  rw [this, List.count_append]
  omega

/-- C4 as stated fails: on a buffer with a NUL byte inside a line comment the scan passes
the NUL byte, `add_line_numbers` stops at it, and the tokens after it keep line number 0
although one and two newline bytes precede them. -/
theorem line_numbers_counterexample :
    tokenize buf_nul_in_comment = Except.ok
      [ { kind := TokenKind.TK_IDENT, loc := 4, len := 1, line_no := 0 },
        { kind := TokenKind.TK_EOF, loc := 6, len := 0, line_no := 0 } ] ∧
    1 + (buf_nul_in_comment.take 4).count 10 = 2 ∧
    1 + (buf_nul_in_comment.take 6).count 10 = 3 := by
  decide

/-- C4, amended: on every buffer on which `tokenize` succeeds, every token that starts at or
before the first NUL byte of the buffer has line number 1 plus the number of newline
bytes before its start offset; when the buffer has no NUL byte before its last byte this
holds of every token, end-of-stream included, and the line numbers are non-decreasing. -/
theorem line_numbers (buf : List Nat) (toks : List Token)
    (h : tokenize buf = Except.ok toks) :
    (∀ t ∈ toks, t.loc ≤ first_nul buf → t.line_no = 1 + (buf.take t.loc).count 10) ∧
    (first_nul buf + 1 = buf.length →
      (∀ t ∈ toks, t.line_no = 1 + (buf.take t.loc).count 10) ∧
      List.Pairwise (fun a b => a ≤ b) (toks.map Token.line_no)) := by
  obtain ⟨raw, hs, rfl⟩ := (tokenize_ok_iff buf toks).mp h
  have hscan := scan_ok buf raw hs
  have h1 : ∀ t ∈ raw.map (Token.finish buf), t.loc ≤ first_nul buf →
      t.line_no = 1 + (buf.take t.loc).count 10 := by
    intro t ht hle
    obtain ⟨a, _, rfl⟩ := List.mem_map.mp ht
    rw [Token.finish_loc] at hle ⊢
    rw [Token.finish_line_no, if_pos hle]
  refine ⟨h1, ?_⟩
  intro hnul
  have hall : ∀ a ∈ raw, a.loc ≤ first_nul buf := by
    obtain ⟨init, pe, hraw, _, hpe, hinit⟩ := hscan.ends
    have hlt := get?_lt hpe
    intro a ha
    rw [hraw] at ha
    rcases List.mem_append.mp ha with ha | ha
    · have := (hinit a ha).2.2
      omega
    · simp at ha; subst ha
      simp only [new_token]
      omega
  have h2 : ∀ t ∈ raw.map (Token.finish buf), t.line_no = 1 + (buf.take t.loc).count 10 := by
    intro t ht
    apply h1 t ht
    obtain ⟨a, ha, rfl⟩ := List.mem_map.mp ht
    rw [Token.finish_loc]
    exact hall a ha
  refine ⟨h2, ?_⟩
  have hsorted := hscan.sorted
  rw [List.map_map]
  rw [List.pairwise_map] at hsorted ⊢
  refine List.Pairwise.imp_of_mem ?_ hsorted
  intro a b ha hb hab
  simp only [Function.comp, Token.finish_line_no, if_pos (hall a ha), if_pos (hall b hb)]
  have := count_take_mono buf a.loc b.loc (Nat.le_of_lt hab)
  omega

/-- C4, amended, on the buffer `int x;`: line 1 for the three tokens, line 2 for
end-of-stream. -/
theorem line_numbers_witness :
    tokenize buf_int_x = Except.ok toks_int_x ∧
    (∀ t ∈ toks_int_x, t.loc ≤ first_nul buf_int_x →
      t.line_no = 1 + (buf_int_x.take t.loc).count 10) ∧
    (first_nul buf_int_x + 1 = buf_int_x.length →
      (∀ t ∈ toks_int_x, t.line_no = 1 + (buf_int_x.take t.loc).count 10) ∧
      List.Pairwise (fun a b => a ≤ b) (toks_int_x.map Token.line_no)) ∧
    first_nul buf_int_x + 1 = buf_int_x.length :=
  ⟨by decide, (line_numbers buf_int_x toks_int_x (by decide)).1,
    (line_numbers buf_int_x toks_int_x (by decide)).2, by decide⟩

theorem c_string_cons {c : Nat} {rest : List Nat} (h : c_string (c :: rest)) (hc : c ≠ 0) :
    c_string rest := by
  unfold c_string at h ⊢
  simp [first_nul, hc] at h
  exact h

theorem c_string_ne_nil {s : List Nat} (h : c_string s) : s ≠ [] := by
  rintro rfl
  simp [c_string, first_nul] at h

theorem c_string_tail_ne_nil {c : Nat} {rest : List Nat} (h : c_string (c :: rest))
    (hc : c ≠ 0) : rest ≠ [] :=
  c_string_ne_nil (c_string_cons h hc)

theorem first_nul_get (s : List Nat) (h : first_nul s < s.length) :
    s.get? (first_nul s) = some 0 := by
  induction s with
  | nil => simp at h
  | cons c rest ih =>
    by_cases hc : c = 0
    · simp [first_nul, hc]
    · simp only [first_nul, if_neg hc] at h ⊢
      simpa using ih (by simpa using h)

theorem first_nul_min (s : List Nat) (i : Nat) (h : i < first_nul s) :
    ∃ b, s.get? i = some b ∧ b ≠ 0 := by
  induction s generalizing i with
  | nil => simp [first_nul] at h
  | cons c rest ih =>
    by_cases hc : c = 0
    · simp [first_nul, hc] at h
    · simp only [first_nul, if_neg hc] at h
      cases i with
      | zero => exact ⟨c, by simp, hc⟩
      | succ j => simpa using ih j (by omega)

theorem first_nul_le_length (s : List Nat) : first_nul s ≤ s.length := by
  induction s with
  | nil => simp [first_nul]
  | cons c rest ih =>
    simp only [first_nul]
    split
    · simp
    · simp; omega

theorem c_string_get_ne_zero {s : List Nat} (h : c_string s) {i b : Nat}
    (hi : s.get? i = some b) (hb : b ≠ 0) : i + 1 < s.length := by
  have hlt := get?_lt hi
  unfold c_string at h
  by_contra hc
  have : i = first_nul s := by omega
  rw [this, first_nul_get s (by omega)] at hi
  cases hi
  exact hb rfl

theorem c_string_take_lt {s : List Nat} (h : c_string s) (n : Nat)
    (hn : ∀ b ∈ s.take n, b ≠ 0) : n < s.length := by
  by_contra hc
  have h1 : s.take n = s := List.take_of_length_le (by omega)
  rw [h1] at hn
  unfold c_string at h
  have h2 := first_nul_get s (by omega)
  exact hn 0 (List.get?_mem h2) rfl

theorem c_string_drop {s : List Nat} (h : c_string s) :
    ∀ n, n < s.length → c_string (s.drop n) := by
  intro n
  induction n generalizing s with
  | zero => intro _; simpa using h
  | succ n ih =>
    intro hn
    cases s with
    | nil => simp at hn
    | cons c rest =>
      have hc : c ≠ 0 := by
        rintro rfl
        simp [c_string, first_nul] at h
        subst h
        simp at hn
      simpa using ih (c_string_cons h hc) (by simpa using hn)

theorem newline_terminated_c_string {s : List Nat} (h : newline_terminated s) : c_string s := by
  obtain ⟨text, rfl, h0⟩ := h
  unfold c_string
  induction text with
  | nil => simp [first_nul]
  | cons c t ih =>
    have hc : c ≠ 0 := by rintro rfl; simp at h0
    have := ih (by intro hm; exact h0 (List.mem_cons_of_mem _ hm))
    simp [first_nul, hc] at this ⊢
    omega

theorem newline_terminated_length {s : List Nat} (h : newline_terminated s) : 2 ≤ s.length := by
  obtain ⟨text, rfl, _⟩ := h
  simp

theorem newline_terminated_head {c : Nat} {rest : List Nat}
    (h : newline_terminated (c :: rest)) : c ≠ 0 := by
  obtain ⟨text, hs, h0⟩ := h
  cases text with
  | nil => simp at hs; omega
  | cons d t =>
    simp at hs
    rintro rfl
    exact h0 (by simp [hs.1])

theorem newline_terminated_tail {c : Nat} {rest : List Nat}
    (h : newline_terminated (c :: rest)) : newline_terminated rest ∨ (c = 10 ∧ rest = [0]) := by
  obtain ⟨text, hs, h0⟩ := h
  cases text with
  | nil => simp at hs; exact Or.inr ⟨hs.1, hs.2⟩
  | cons d t =>
    simp at hs
    exact Or.inl ⟨t, hs.2, fun hm => h0 (List.mem_cons_of_mem _ hm)⟩

theorem newline_terminated_drop {s : List Nat} (h : newline_terminated s) :
    ∀ k, k + 1 ≤ s.length → newline_terminated (s.drop k) ∨ s.drop k = [0] := by
  intro k
  induction k generalizing s with
  | zero => intro _; exact Or.inl (by simpa using h)
  | succ k ih =>
    intro hk
    cases s with
    | nil => simp at hk
    | cons c rest =>
      rcases newline_terminated_tail h with h2 | ⟨_, rfl⟩
      · simpa using ih h2 (by simpa using hk)
      · simp at hk
        subst hk
        exact Or.inr rfl

theorem newline_terminated_buf_drop {buf : List Nat} (h : newline_terminated buf) (p : Nat)
    (hp : p + 1 < buf.length) : newline_terminated (buf.drop p) := by
  rcases newline_terminated_drop h p (by omega) with h2 | h2
  · exact h2
  · have := congrArg List.length h2
    simp at this
    omega

theorem skip_line_total {s : List Nat} (h : newline_terminated s) :
    ∃ n, skip_line s = Except.ok n ∧ n + 2 ≤ s.length := by
  induction s with
  | nil => exact absurd (newline_terminated_length h) (by simp)
  | cons c rest ih =>
    simp only [skip_line]
    by_cases hc : c = 10
    · rw [if_pos hc]
      exact ⟨0, rfl, newline_terminated_length h⟩
    · rw [if_neg hc]
      rcases newline_terminated_tail h with h2 | ⟨h2, _⟩
      · obtain ⟨n, hn, hl⟩ := ih h2
        rw [hn]
        exact ⟨n + 1, rfl, by simp; omega⟩
      · exact absurd h2 hc

theorem strstr_total {s : List Nat} (h : c_string s) (needle : List Nat) :
    ∃ r, strstr s needle = Except.ok r := by
  induction s with
  | nil => exact absurd rfl (c_string_ne_nil h)
  | cons c rest ih =>
    simp only [strstr]
    by_cases hc : c = 0
    · rw [if_pos hc]; exact ⟨_, rfl⟩
    · rw [if_neg hc]
      split
      · exact ⟨_, rfl⟩
      · obtain ⟨r, hr⟩ := ih (c_string_cons h hc)
        rw [hr]
        cases r <;> exact ⟨_, rfl⟩

theorem strstr_some {s needle : List Nat} {i : Nat} (h : strstr s needle = Except.ok (some i)) :
    (s.drop i).take needle.length = needle ∧ ∀ b ∈ s.take i, b ≠ 0 := by
  induction s generalizing i with
  | nil => simp [strstr] at h
  | cons c rest ih =>
    simp only [strstr] at h
    split at h
    · cases h
    · rename_i hc
      split at h
      · rename_i hm
        cases h
        exact ⟨by simpa using hm, by simp⟩
      · split at h
        · cases h
        · cases h
        · rename_i j hj
          cases h
          obtain ⟨h1, h2⟩ := ih hj
          refine ⟨by simpa using h1, ?_⟩
          intro b hb
          simp at hb
          rcases hb with rfl | hb
          · exact hc
          · exact h2 b hb

theorem strtoul_total {s : List Nat} (h : c_string s) :
    ∀ acc, ∃ v n, strtoul_loop s acc = Except.ok (v, n) := by
  induction s with
  | nil => exact absurd rfl (c_string_ne_nil h)
  | cons c rest ih =>
    intro acc
    simp only [strtoul_loop]
    by_cases hc : isdigit c = true
    · rw [if_pos hc]
      have hc0 : c ≠ 0 := by rintro rfl; simp [isdigit] at hc
      obtain ⟨v, n, hv⟩ := ih (c_string_cons h hc0) (acc * 10 + (c - 48))
      rw [hv]
      exact ⟨_, _, rfl⟩
    · rw [if_neg hc]
      exact ⟨_, _, rfl⟩

theorem ident_loop_total {s : List Nat} (h : c_string s) : ∃ n, ident_loop s = Except.ok n := by
  induction s with
  | nil => exact absurd rfl (c_string_ne_nil h)
  | cons c rest ih =>
    simp only [ident_loop]
    by_cases hc : is_ident2 c = true
    · rw [if_pos hc]
      have hc0 : c ≠ 0 := by rintro rfl; simp [is_ident2, is_ident1] at hc
      obtain ⟨n, hn⟩ := ih (c_string_cons h hc0)
      rw [hn]
      exact ⟨_, rfl⟩
    · rw [if_neg hc]
      exact ⟨_, rfl⟩

theorem read_hex_loop_total {s : List Nat} (h : c_string s) :
    ∀ acc, ∃ v n, read_hex_loop s acc = Except.ok (v, n) := by
  induction s with
  | nil => exact absurd rfl (c_string_ne_nil h)
  | cons c rest ih =>
    intro acc
    simp only [read_hex_loop]
    by_cases hc : isxdigit c = true
    · rw [if_pos hc]
      have hc0 : c ≠ 0 := by rintro rfl; simp [isxdigit] at hc
      obtain ⟨v, n, hv⟩ := ih (c_string_cons h hc0) (wrap_int (acc * 16 + from_hex c))
      rw [hv]
      exact ⟨_, _, rfl⟩
    · rw [if_neg hc]
      exact ⟨_, _, rfl⟩

theorem read_hex_loop_spec {s : List Nat} {acc v : Int} {n : Nat}
    (h : read_hex_loop s acc = Except.ok (v, n)) :
    n < s.length ∧ (∀ b ∈ s.take n, isxdigit b = true) ∧
      ∃ b, s.get? n = some b ∧ isxdigit b = false := by
  induction s generalizing acc n with
  | nil => simp [read_hex_loop] at h
  | cons c rest ih =>
    simp only [read_hex_loop] at h
    split at h
    · rename_i hc
      split at h
      · cases h
      · rename_i v2 m hm
        cases h
        obtain ⟨h1, h2, h3⟩ := ih hm
        refine ⟨by simp; omega, ?_, by simpa using h3⟩
        intro b hb
        simp at hb
        rcases hb with rfl | hb
        · exact hc
        · exact h2 b hb
    · rename_i hc
      cases h
      exact ⟨by simp, by simp, c, by simp, by simpa using hc⟩

theorem read_escaped_char_total {s : List Nat} (h : c_string s) (q : Nat)
    (hh : ∀ c rest, s = c :: rest → c ≠ 0) :
    (∃ v n, read_escaped_char s q = Except.ok (v, n) ∧ 1 ≤ n ∧ n < s.length) ∨
      read_escaped_char s q = Except.error (LexError.invalid_hex_escape (q + 1)) := by
  cases s with
  | nil => exact absurd rfl (c_string_ne_nil h)
  | cons c0 s1 =>
    have h0 : c0 ≠ 0 := hh c0 s1 rfl
    have hs1 := c_string_cons h h0
    cases s1 with
    | nil => exact absurd rfl (c_string_ne_nil hs1)
    | cons c1 s2 =>
      simp only [read_escaped_char]
      by_cases ho : 48 ≤ c0 ∧ c0 ≤ 55
      · rw [if_pos ho]
        by_cases ho1 : 48 ≤ c1 ∧ c1 ≤ 55
        · rw [if_pos ho1]
          have hs2 := c_string_cons hs1 (by omega)
          cases s2 with
          | nil => exact absurd rfl (c_string_ne_nil hs2)
          | cons c2 s3 =>
            simp only
            by_cases ho2 : 48 ≤ c2 ∧ c2 ≤ 55
            · rw [if_pos ho2]
              have hs3 := c_string_ne_nil (c_string_cons hs2 (by omega))
              refine Or.inl ⟨_, _, rfl, by omega, ?_⟩
              cases s3 with
              | nil => exact absurd rfl hs3
              | cons c3 s4 => simp
            · rw [if_neg ho2]
              exact Or.inl ⟨_, _, rfl, by omega, by simp⟩
        · rw [if_neg ho1]
          exact Or.inl ⟨_, _, rfl, by omega, by simp⟩
      · rw [if_neg ho]
        by_cases hx : c0 = 120
        · rw [if_pos hx]
          by_cases hd : isxdigit c1 = true
          · simp only [hd, Bool.not_true, Bool.false_eq_true, if_false]
            obtain ⟨v, n, hv⟩ := read_hex_loop_total hs1 0
            rw [hv]
            have := (read_hex_loop_spec hv).1
            exact Or.inl ⟨_, _, rfl, by omega, by simp at this ⊢; omega⟩
          · have hd2 : isxdigit c1 = false := by simpa using hd
            simp [hd2]
        · rw [if_neg hx]
          exact Or.inl ⟨_, _, rfl, by omega, by simp⟩

theorem string_literal_end_loop_total (st : Nat) :
    ∀ (n : Nat) (s : List Nat) (p : Nat), s.length ≤ n → newline_terminated s ∨ s = [0] →
      (∃ e, string_literal_end_loop st s p = Except.ok e) ∨
        string_literal_end_loop st s p = Except.error (LexError.unclosed_string_literal st) := by
  intro n
  induction n with
  | zero =>
    intro s p hn hs
    have : s = [] := List.length_eq_zero.mp (Nat.le_zero.mp hn)
    subst this
    rcases hs with hs | hs
    · exact absurd (newline_terminated_length hs) (by simp)
    · cases hs
  | succ n ih =>
    intro s p hn hs
    rcases hs with hs | rfl
    · cases s with
      | nil => exact absurd (newline_terminated_length hs) (by simp)
      | cons c rest =>
        unfold string_literal_end_loop
        by_cases h34 : c = 34
        · rw [if_pos h34]; exact Or.inl ⟨_, rfl⟩
        · rw [if_neg h34]
          by_cases h10 : c = 10 ∨ c = 0
          · rw [if_pos h10]; exact Or.inr rfl
          · rw [if_neg h10]
            have hrest : newline_terminated rest := by
              rcases newline_terminated_tail hs with h2 | ⟨h2, _⟩
              · exact h2
              · exact absurd (Or.inl h2) h10
            by_cases h92 : c = 92
            · rw [if_pos h92]
              cases rest with
              | nil => exact absurd (newline_terminated_length hrest) (by simp)
              | cons d rest2 =>
                simp only
                apply ih rest2 (p + 2) (by simp at hn; omega)
                rcases newline_terminated_tail hrest with h2 | ⟨_, h2⟩
                · exact Or.inl h2
                · exact Or.inr h2
            · rw [if_neg h92]
              exact ih rest (p + 1) (by simp at hn; omega) (Or.inl hrest)
    · unfold string_literal_end_loop
      simp

theorem c_string_head_ne_zero {c : Nat} {rest : List Nat} (h : c_string (c :: rest))
    (hl : rest ≠ []) : c ≠ 0 := by
  rintro rfl
  simp [c_string, first_nul] at h
  exact hl h

theorem decode_loop_total :
    ∀ (fuel : Nat) (s : List Nat) (p e : Nat), c_string s →
      (p < e → s.get? (e - p) = some 34) → e - p ≤ fuel →
      (∃ bs pf, decode_loop fuel s p e = Except.ok (bs, pf) ∧ bs.length ≤ e - p) ∨
        ∃ q, decode_loop fuel s p e = Except.error (LexError.invalid_hex_escape q) := by
  intro fuel
  induction fuel with
  | zero =>
    intro s p e _ _ hf
    simp only [decode_loop]
    rw [if_neg (by omega)]
    exact Or.inl ⟨_, _, rfl, by simp⟩
  | succ fuel ih =>
    intro s p e hs hq hf
    simp only [decode_loop]
    by_cases hpe : p < e
    · rw [if_pos hpe]
      have hq1 := hq hpe
      have hlen := c_string_get_ne_zero hs hq1 (by decide)
      cases s with
      | nil => simp at hlen
      | cons c rest =>
        simp only
        have hrl : 2 ≤ rest.length := by simp at hlen; omega
        have hc0 : c ≠ 0 := c_string_head_ne_zero hs (by rintro rfl; simp at hrl)
        have hrest := c_string_cons hs hc0
        have hq2 : rest.get? (e - p - 1) = some 34 := by
          have : e - p = (e - p - 1) + 1 := by omega
          rw [this] at hq1
          simpa using hq1
        by_cases h92 : c = 92
        · rw [if_pos h92]
          have hhead : ∀ c2 rest2, rest = c2 :: rest2 → c2 ≠ 0 := by
            intro c2 rest2 hr
            subst hr
            exact c_string_head_ne_zero hrest (by rintro rfl; simp at hrl)
          rcases read_escaped_char_total hrest (p + 1) hhead with ⟨v, n, hv, hn1, hn2⟩ | herr
          · rw [hv]
            simp only
            have hq3 : p + 1 + n < e → (rest.drop n).get? (e - (p + 1 + n)) = some 34 := by
              intro hlt
              rw [List.get?_eq_getElem?, List.getElem?_drop, ← List.get?_eq_getElem?]
              have : n + (e - (p + 1 + n)) = e - p - 1 := by omega
              rw [this]
              exact hq2
            rcases ih (rest.drop n) (p + 1 + n) e (c_string_drop hrest n hn2) hq3 (by omega)
              with ⟨bs, pf, hb, hbl⟩ | ⟨q, hq4⟩
            · rw [hb]
              exact Or.inl ⟨_, _, rfl, by simp; omega⟩
            · rw [hq4]
              exact Or.inr ⟨q, rfl⟩
          · rw [herr]
            exact Or.inr ⟨_, rfl⟩
        · rw [if_neg h92]
          have hq3 : p + 1 < e → rest.get? (e - (p + 1)) = some 34 := by
            intro _
            have : e - (p + 1) = e - p - 1 := by omega
            rw [this]
            exact hq2
          rcases ih rest (p + 1) e hrest hq3 (by omega) with ⟨bs, pf, hb, hbl⟩ | ⟨q, hq4⟩
          · rw [hb]
            exact Or.inl ⟨_, _, rfl, by simp; omega⟩
          · rw [hq4]
            exact Or.inr ⟨q, rfl⟩
    · rw [if_neg hpe]
      exact Or.inl ⟨_, _, rfl, by simp⟩

theorem read_string_literal_total {rest : List Nat} (h : newline_terminated (34 :: rest))
    (p : Nat) :
    (∃ tok, read_string_literal (34 :: rest) p = Except.ok tok ∧ tok.len + 1 ≤ rest.length + 1) ∨
      (∃ e, read_string_literal (34 :: rest) p = Except.error e ∧ e.is_lexical = true) := by
  have hrest : newline_terminated rest := by
    rcases newline_terminated_tail h with h2 | ⟨h2, _⟩
    · exact h2
    · cases h2
  unfold read_string_literal string_literal_end
  simp only [List.drop_succ_cons, List.drop_zero]
  rcases string_literal_end_loop_total (p + 1) _ rest (p + 1) (Nat.le_refl _) (Or.inl hrest)
    with ⟨e, he⟩ | herr
  · rw [he]
    simp only
    have hge := string_literal_end_loop_ge _ _ _ _ _ (Nat.le_refl _) he
    have hq := string_literal_end_loop_quote _ _ _ _ _ (Nat.le_refl _) he
    have hcs := newline_terminated_c_string hrest
    have hlt := c_string_get_ne_zero hcs hq (by decide)
    rcases decode_loop_total (e - p) rest (p + 1) e hcs (fun _ => hq) (by omega)
      with ⟨bs, pf, hb, hbl⟩ | ⟨q, hq4⟩
    · rw [hb]
      simp only
      rw [if_pos (by omega)]
      refine Or.inl ⟨_, rfl, ?_⟩
      simp only [new_token]
      omega
    · rw [hq4]
      exact Or.inr ⟨_, rfl, rfl⟩
  · rw [herr]
    exact Or.inr ⟨_, rfl, rfl⟩

theorem scan_step_err (s : List Nat) (p : Nat) (e : LexError)
    (h : scan_step s p = Except.error e) : StepErr s p e := by
  unfold scan_step at h
  split at h
  · rename_i e2 h1
    cases h
    exact StepErr.line_test _ h1
  · rename_i h1
    split at h
    · rename_i e2 h2
      cases h
      exact StepErr.line_comment _ h1 h2
    · cases h
  · rename_i h1
    split at h
    · rename_i e2 h2
      cases h
      exact StepErr.block_test _ h1 h2
    · rename_i h2
      split at h
      · rename_i e2 h3
        cases h
        exact StepErr.block_comment _ h1 h2 h3
      · rename_i h3
        cases h
        exact StepErr.unclosed_block_comment h1 h2 h3
      · cases h
    · rename_i h2
      split at h
      · cases h
        exact StepErr.empty rfl h1 h2
      · rename_i c rest
        by_cases hsp : isspace c = true
        · rw [if_pos hsp] at h
          cases h
        · rw [if_neg hsp] at h
          have hsp2 : isspace c = false := by simpa using hsp
          by_cases hd : isdigit c = true
          · rw [if_pos hd] at h
            split at h
            · rename_i e2 h3
              cases h
              exact StepErr.num c rest _ rfl h1 h2 hsp2 hd h3
            · cases h
          · rw [if_neg hd] at h
            have hd2 : isdigit c = false := by simpa using hd
            by_cases hq : c = 34
            · rw [if_pos hq] at h
              split at h
              · rename_i e2 h3
                cases h
                exact StepErr.str c rest _ rfl h1 h2 hsp2 hd2 hq h3
              · cases h
            · rw [if_neg hq] at h
              by_cases hi : is_ident1 c = true
              · rw [if_pos hi] at h
                split at h
                · rename_i e2 h3
                  cases h
                  exact StepErr.ident c rest _ rfl h1 h2 hsp2 hd2 hq hi h3
                · cases h
              · rw [if_neg hi] at h
                have hi2 : is_ident1 c = false := by simpa using hi
                split at h
                · rename_i e2 h3
                  cases h
                  exact StepErr.punct c rest _ rfl h1 h2 hsp2 hd2 hq hi2 h3
                · rename_i n h3
                  by_cases hn : n ≠ 0
                  · rw [if_pos hn] at h
                    cases h
                  · rw [if_neg hn] at h
                    have hn0 : n = 0 := by simpa using hn
                    subst hn0
                    cases h
                    exact StepErr.invalid_token c rest rfl h1 h2 hsp2 hd2 hq hi2 h3

theorem take_two_drop_get {s : List Nat} {i a b : Nat} (h : (s.drop i).take 2 = [a, b]) :
    s.get? i = some a ∧ s.get? (i + 1) = some b := by
  induction s generalizing i with
  | nil => simp at h
  | cons c rest ih =>
    cases i with
    | zero =>
      cases rest with
      | nil => simp at h
      | cons d r => simp at h; simp [h.1, h.2]
    | succ j => simpa using ih (by simpa using h)

theorem newline_terminated_tail_tail {c d : Nat} {rest : List Nat}
    (h : newline_terminated (c :: d :: rest)) (hc : c ≠ 10) (hd : d ≠ 10) :
    newline_terminated rest := by
  rcases newline_terminated_tail h with h2 | ⟨h2, _⟩
  · rcases newline_terminated_tail h2 with h3 | ⟨h3, _⟩
    · exact h3
    · exact absurd h3 hd
  · exact absurd h2 hc

theorem take_two_eq {s : List Nat} {a b : Nat} (h : s.take 2 = [a, b]) :
    ∃ rest, s = a :: b :: rest := by
  cases s with
  | nil => simp at h
  | cons c r =>
    cases r with
    | nil => simp at h
    | cons d r2 => simp at h; exact ⟨r2, by rw [h.1, h.2]⟩

theorem scan_step_total {s : List Nat} (h : newline_terminated s) (p : Nat) :
    (∃ e, scan_step s p = Except.error e ∧ e.is_lexical = true) ∨
      ∃ k t, scan_step s p = Except.ok (k, t) ∧ 1 ≤ k ∧ k + 1 ≤ s.length := by
  have hcs := newline_terminated_c_string h
  have hlen := newline_terminated_length h
  have hline : startswith s [47, 47] = Except.ok true →
      ∃ n, skip_line (s.drop 2) = Except.ok n ∧ 2 + n + 2 ≤ s.length := by
    intro h1
    obtain ⟨rest, rfl⟩ := take_two_eq (startswith_true h1).1
    obtain ⟨n, hn, hl⟩ :=
      skip_line_total (newline_terminated_tail_tail h (by decide) (by decide))
    exact ⟨n, by simpa using hn, by simp; omega⟩
  have hblock : startswith s [47, 42] = Except.ok true → c_string (s.drop 2) := by
    intro h2
    obtain ⟨rest, rfl⟩ := take_two_eq (startswith_true h2).1
    exact c_string_cons (c_string_cons hcs (by decide)) (by decide)
  cases hres : scan_step s p with
  | ok r =>
    obtain ⟨k, t⟩ := r
    refine Or.inr ⟨k, t, rfl, ?_⟩
    have hst := scan_step_ok s p k t hres
    refine ⟨hst.advance, ?_⟩
    cases hst with
    | line_comment n h1 h2 =>
      obtain ⟨m, hm, hml⟩ := hline h1
      rw [hm] at h2
      cases h2
      omega
    | block_comment i h1 h2 h3 =>
      obtain ⟨h4, h5⟩ := strstr_some h3
      have h6 := (take_two_drop_get h4).2
      have h7 := c_string_get_ne_zero (hblock h2) h6 (by decide)
      simp at h7
      omega
    | space c rest _ _ _ _ => omega
    | num c rest v n _ _ _ _ _ hv => have := (strtoul_spec hv).1; omega
    | str c rest tok hs _ _ _ _ hq hr =>
      subst hs; subst hq
      rcases read_string_literal_total h p with ⟨tok2, h2, h3⟩ | ⟨e, h2, _⟩
      · rw [h2] at hr
        cases hr
        simpa using h3
      · rw [h2] at hr
        cases hr
    | ident c rest n hs _ _ _ _ _ _ hl =>
      have := (ident_loop_spec hl).1
      subst hs
      simp
      omega
    | punct c rest n _ _ _ _ _ _ _ hr hn =>
      obtain ⟨_, _, _, h4⟩ := read_punct_spec hr hn
      have := c_string_take_lt hcs k (fun b hb => by
        have := h4 b hb
        rintro rfl
        simp [ispunct] at this)
      omega
  | error e =>
    refine Or.inl ⟨e, rfl, ?_⟩
    have hsw : ∀ q : List Nat, q.length = 2 → ∀ e2, startswith s q ≠ Except.error e2 := by
      intro q hq e2 he
      rw [startswith_of_length (by omega)] at he
      cases he
    cases scan_step_err s p e hres with
    | line_test e h1 => exact absurd h1 (hsw [47, 47] rfl _)
    | line_comment e h1 h2 =>
      obtain ⟨m, hm, _⟩ := hline h1
      rw [hm] at h2
      cases h2
    | block_test e _ h2 => exact absurd h2 (hsw [47, 42] rfl _)
    | block_comment e _ h2 h3 =>
      obtain ⟨r, hr⟩ := strstr_total (hblock h2) [42, 47]
      rw [hr] at h3
      cases h3
    | unclosed_block_comment _ _ _ => rfl
    | empty hs _ _ => subst hs; simp at hlen
    | num c rest e hs _ _ _ _ hv =>
      obtain ⟨v, n, hv2⟩ := strtoul_total hcs 0
      simp [strtoul, hv2] at hv
    | str c rest e hs _ _ _ _ hq hr =>
      subst hs; subst hq
      rcases read_string_literal_total h p with ⟨tok2, h3, _⟩ | ⟨e2, h3, h4⟩
      · rw [h3] at hr; cases hr
      · rw [h3] at hr; cases hr; exact h4
    | ident c rest e hs _ _ _ _ _ _ hl =>
      subst hs
      obtain ⟨n, hn⟩ := ident_loop_total (c_string_cons hcs (newline_terminated_head h))
      rw [hn] at hl
      cases hl
    | punct c rest e hs _ _ _ _ _ _ hr =>
      subst hs
      cases rest with
      | nil => simp at hlen
      | cons d r =>
        rw [read_punct_of_two] at hr
        cases hr
    | invalid_token c rest _ _ _ _ _ _ _ _ => rfl

theorem tokenize_loop_total :
    ∀ (fuel : Nat) (s : List Nat) (p : Nat), newline_terminated s ∨ s = [0] → s.length ≤ fuel →
      (∃ e, tokenize_loop fuel s p = Except.error e ∧ e.is_lexical = true) ∨
        ∃ toks, tokenize_loop fuel s p = Except.ok toks ∧
          toks.getLast? = some (new_token TokenKind.TK_EOF (p + s.length - 1) 0) := by
  intro fuel
  induction fuel with
  | zero =>
    intro s p hs hf
    have : s = [] := List.length_eq_zero.mp (Nat.le_zero.mp hf)
    subst this
    rcases hs with hs | hs
    · exact absurd (newline_terminated_length hs) (by simp)
    · cases hs
  | succ fuel ih =>
    intro s p hs hf
    rcases hs with hs | rfl
    · cases s with
      | nil => exact absurd (newline_terminated_length hs) (by simp)
      | cons c rest =>
        simp only [tokenize_loop]
        rw [if_neg (newline_terminated_head hs)]
        rcases scan_step_total hs p with ⟨e, he, hl⟩ | ⟨k, t, hk, hk1, hk2⟩
        · rw [he]
          exact Or.inl ⟨e, rfl, hl⟩
        · rw [hk]
          simp only
          have hlen : ((c :: rest).drop k).length + k = (c :: rest).length := by
            rw [List.length_drop]; omega
          rcases ih ((c :: rest).drop k) (p + k) (newline_terminated_drop hs k hk2) (by omega)
            with ⟨e, he, hl⟩ | ⟨toks, ht, hlast⟩
          · rw [he]
            exact Or.inl ⟨e, rfl, hl⟩
          · rw [ht]
            refine Or.inr ⟨_, rfl, ?_⟩
            have hne : toks ≠ [] := by rintro rfl; simp at hlast
            rw [List.getLast?_append_of_ne_nil _ hne, hlast]
            congr 2
            have : 1 ≤ ((c :: rest).drop k).length := by rw [List.length_drop]; omega
            omega
    · simp [tokenize_loop]

/-- C2: on a buffer made of text without NUL byte, a newline and the terminator, every
iteration of the scanning loop (entered at an offset `p` before the terminator) either
raises one of the four lexical errors or moves the cursor forward by at least one byte
and not beyond the terminator; and `tokenize` either fails with one of the four lexical
errors or returns a sequence whose last token is end-of-stream at the terminator.  The
results of the model that stand for undefined behaviour or for a loop that does not end
are excluded. -/
theorem tokenize_terminates (buf : List Nat) (h : newline_terminated buf) :
    (∀ p, p + 1 < buf.length →
      (∃ e, scan_step (buf.drop p) p = Except.error e ∧ e.is_lexical = true) ∨
      (∃ k t, scan_step (buf.drop p) p = Except.ok (k, t) ∧ 1 ≤ k ∧ p + k + 1 ≤ buf.length)) ∧
    ((∃ e, tokenize buf = Except.error e ∧ e.is_lexical = true) ∨
     (∃ toks last, tokenize buf = Except.ok toks ∧ toks.getLast? = some last ∧
        last.kind = TokenKind.TK_EOF ∧ last.loc + 1 = buf.length)) := by
  constructor
  · intro p hp
    rcases scan_step_total (newline_terminated_buf_drop h p hp) p with he | ⟨k, t, hk, h1, h2⟩
    · exact Or.inl he
    · refine Or.inr ⟨k, t, hk, h1, ?_⟩
      rw [List.length_drop] at h2
      omega
  · have hlen := newline_terminated_length h
    rcases tokenize_loop_total (buf.length + 1) buf 0 (Or.inl h) (by omega)
      with ⟨e, he, hl⟩ | ⟨raw, hraw, hlast⟩
    · exact Or.inl ⟨e, (tokenize_error_iff buf e).mpr he, hl⟩
    · refine Or.inr ⟨raw.map (Token.finish buf),
        Token.finish buf (new_token TokenKind.TK_EOF (0 + buf.length - 1) 0),
        tokenize_eq_map buf raw hraw, ?_, ?_, ?_⟩
      · rw [List.getLast?_map, hlast]
        rfl
      · unfold Token.finish
        rw [if_neg (by simp [new_token]), Token.with_line_kind]
        rfl
      · rw [Token.finish_loc]
        simp only [new_token]
        omega

/-- C2 on the buffer `int x;`. -/
theorem tokenize_terminates_witness :
    newline_terminated buf_int_x ∧
    (∀ p, p + 1 < buf_int_x.length →
      (∃ e, scan_step (buf_int_x.drop p) p = Except.error e ∧ e.is_lexical = true) ∨
      (∃ k t, scan_step (buf_int_x.drop p) p = Except.ok (k, t) ∧ 1 ≤ k ∧
        p + k + 1 ≤ buf_int_x.length)) ∧
    ((∃ e, tokenize buf_int_x = Except.error e ∧ e.is_lexical = true) ∨
     (∃ toks last, tokenize buf_int_x = Except.ok toks ∧ toks.getLast? = some last ∧
        last.kind = TokenKind.TK_EOF ∧ last.loc + 1 = buf_int_x.length)) :=
  ⟨⟨[105, 110, 116, 32, 120, 59], rfl, by decide⟩,
   tokenize_terminates buf_int_x ⟨[105, 110, 116, 32, 120, 59], rfl, by decide⟩⟩

theorem two_char_punct_iff (c d : Nat) : two_char_punct c d ↔ [c, d] ∈ punct_kw := by
  simp [two_char_punct, punct_kw]

theorem scan_step_punct (c d : Nat) (rest : List Nat) (p : Nat) (h : punct_rule_reached c d) :
    scan_step (c :: d :: rest) p =
      match read_punct (c :: d :: rest) with
      | Except.error e => Except.error e
      | Except.ok punct_len =>
        if punct_len ≠ 0 then
          Except.ok (punct_len, some (new_token TokenKind.TK_PUNCT p punct_len))
        else Except.error (LexError.invalid_token p) := by
  obtain ⟨h1, h2, h3, h4, h5, h6⟩ := h
  unfold scan_step
  rw [startswith_of_length (by simp), startswith_of_length (by simp)]
  have e1 : decide (List.take [47, 47].length (c :: d :: rest) = [47, 47]) = false := by
    simpa using h1
  have e2 : decide (List.take [47, 42].length (c :: d :: rest) = [47, 42]) = false := by
    simpa using h2
  rw [e1, e2]
  simp only [h3, h4, h6, if_neg h5, Bool.false_eq_true, if_false]

/-- C5: when the punctuator rule is reached with the bytes `c`, `d` at the cursor,
`read_punct` returns 2 if `c d` is one of `==`, `!=`, `<=`, `>=`, `->`, and otherwise 1 if `c`
is a punctuation character; the loop then appends a punctuator token of that length at
the cursor and moves the cursor by that length.  The buffer `<=` gives the single
punctuator token of length 2, then end-of-stream. -/
theorem punctuator_maximal_munch :
    (∀ (c d : Nat) (rest : List Nat) (p : Nat), punct_rule_reached c d →
      (two_char_punct c d →
        read_punct (c :: d :: rest) = Except.ok 2 ∧
        scan_step (c :: d :: rest) p =
          Except.ok (2, some (new_token TokenKind.TK_PUNCT p 2))) ∧
      (¬two_char_punct c d → ispunct c = true →
        read_punct (c :: d :: rest) = Except.ok 1 ∧
        scan_step (c :: d :: rest) p =
          Except.ok (1, some (new_token TokenKind.TK_PUNCT p 1)))) ∧
    tokenize buf_le = Except.ok
      [ { kind := TokenKind.TK_PUNCT, loc := 0, len := 2, line_no := 1 },
        { kind := TokenKind.TK_EOF, loc := 3, len := 0, line_no := 2 } ] := by
  refine ⟨?_, by decide⟩
  intro c d rest p h
  have hstep := scan_step_punct c d rest p h
  have hrp := read_punct_of_two c d rest
  constructor
  · intro h2
    have h3 : read_punct (c :: d :: rest) = Except.ok 2 := by
      rw [hrp, if_pos ((two_char_punct_iff c d).mp h2)]
    refine ⟨h3, ?_⟩
    rw [hstep, h3]
    rfl
  · intro h2 hp
    have h3 : read_punct (c :: d :: rest) = Except.ok 1 := by
      rw [hrp, if_neg (fun hm => h2 ((two_char_punct_iff c d).mpr hm)), if_pos hp]
    refine ⟨h3, ?_⟩
    rw [hstep, h3]
    rfl

/-- C5 at the bytes `<=` (a two-character punctuator) and `<` followed by a space. -/
theorem punctuator_maximal_munch_witness :
    punct_rule_reached 60 61 ∧ two_char_punct 60 61 ∧
    scan_step [60, 61, 10, 0] 0 = Except.ok (2, some (new_token TokenKind.TK_PUNCT 0 2)) ∧
    punct_rule_reached 60 32 ∧ ¬two_char_punct 60 32 ∧ ispunct 60 = true ∧
    scan_step [60, 32, 10, 0] 0 = Except.ok (1, some (new_token TokenKind.TK_PUNCT 0 1)) :=
  ⟨by decide, by decide,
   ((punctuator_maximal_munch.1 60 61 [10, 0] 0 (by decide)).1 (by decide)).2,
   by decide, by decide, by decide,
   ((punctuator_maximal_munch.1 60 32 [10, 0] 0 (by decide)).2 (by decide) (by decide)).2⟩

theorem strstr_cons (c : Nat) (rest needle : List Nat) :
    strstr (c :: rest) needle =
      if c = 0 then Except.ok none
      else if (c :: rest).take needle.length = needle then Except.ok (some 0)
      else
        match strstr rest needle with
        | Except.error e => Except.error e
        | Except.ok none => Except.ok none
        | Except.ok (some i) => Except.ok (some (i + 1)) := by
  rw [strstr]

theorem strstr_close (tail : List Nat) :
    ∀ body : List Nat, body.contains 0 = false → has_close (body ++ [42]) = false →
      strstr (body ++ 42 :: 47 :: tail) [42, 47] = Except.ok (some body.length) := by
  intro body
  induction body with
  | nil => intro _ _; simp [strstr]
  | cons b body ih =>
    intro h0 hc
    have hb : b ≠ 0 := by
      rintro rfl
      simp at h0
    have h0' : body.contains 0 = false := by
      simp only [List.contains_cons, Bool.or_eq_false_iff] at h0
      exact h0.2
    have hrec : has_close (body ++ [42]) = false ∧
        (b :: (body ++ 42 :: 47 :: tail)).take 2 ≠ [42, 47] := by
      cases body with
      | nil => simp [has_close]
      | cons d body =>
        simp only [List.cons_append, has_close, Bool.or_eq_false_iff] at hc
        refine ⟨by simpa using hc.2, ?_⟩
        intro h
        simp at h
        have := hc.1
        simp [h.1, h.2] at this
    have := ih h0' hrec.1
    rw [List.cons_append, strstr_cons, if_neg hb, if_neg (by simpa using hrec.2), this]
    simp

theorem skip_line_body (tail : List Nat) :
    ∀ body : List Nat, body.contains 10 = false →
      skip_line (body ++ 10 :: tail) = Except.ok body.length := by
  intro body
  induction body with
  | nil => intro _; simp [skip_line]
  | cons b body ih =>
    intro h
    simp only [List.contains_cons, Bool.or_eq_false_iff] at h
    have hb : b ≠ 10 := by
      intro hb; have := h.1; simp [hb] at this
    simp [skip_line, hb, ih h.2]

theorem tokenize_loop_succ (fuel : Nat) (c : Nat) (rest : List Nat) (p k : Nat)
    (t : Option Token) (hc : c ≠ 0) (h : scan_step (c :: rest) p = Except.ok (k, t)) :
    tokenize_loop (fuel + 1) (c :: rest) p =
      match tokenize_loop fuel ((c :: rest).drop k) (p + k) with
      | Except.error e => Except.error e
      | Except.ok ts => Except.ok (t.toList ++ ts) := by
  simp only [tokenize_loop, if_neg hc, h]

theorem scan_step_space (c : Nat) (rest : List Nat) (p : Nat) (h : isspace c = true) :
    scan_step (c :: rest) p = Except.ok (1, none) := by
  have h47 : c ≠ 47 := by rintro rfl; simp [isspace] at h
  simp only [scan_step, startswith, if_neg h47, h, if_true]

theorem scan_step_line_comment (body tail : List Nat) (p : Nat)
    (h : body.contains 10 = false) :
    scan_step (47 :: 47 :: (body ++ 10 :: tail)) p = Except.ok (2 + body.length, none) := by
  simp only [scan_step, startswith, if_true, List.drop_succ_cons, List.drop_zero,
    skip_line_body tail body h]

theorem scan_step_block_comment (body tail : List Nat) (p : Nat)
    (h0 : body.contains 0 = false) (hc : has_close (body ++ [42]) = false) :
    scan_step (47 :: 42 :: (body ++ 42 :: 47 :: tail)) p =
      Except.ok (2 + body.length + 2, none) := by
  simp only [scan_step, startswith, if_true, List.drop_succ_cons, List.drop_zero,
    strstr_close tail body h0 hc, if_neg (show (42 : Nat) ≠ 47 by decide)]

theorem tokenize_loop_blank :
    ∀ (segs : List Segment), (∀ s ∈ segs, s.well_formed = true ∧ s.block_nul_free = true) →
      ∀ (fuel p : Nat), (segments_text segs).length < fuel →
        tokenize_loop fuel (segments_text segs ++ [0]) p =
          Except.ok [new_token TokenKind.TK_EOF (p + (segments_text segs).length) 0] := by
  intro segs
  induction segs with
  | nil =>
    intro _ fuel p hf
    cases fuel with
    | zero => simp at hf
    | succ fuel => simp [segments_text, tokenize_loop]
  | cons sg segs ih =>
    intro hall fuel p hf
    obtain ⟨hw, hn⟩ := hall sg (List.mem_cons_self _ _)
    have ih2 := ih (fun s hs => hall s (List.mem_cons_of_mem _ hs))
    have htext : segments_text (sg :: segs) = sg.bytes ++ segments_text segs := by
      simp [segments_text]
    rw [htext] at hf ⊢
    cases fuel with
    | zero => simp at hf
    | succ fuel =>
      cases sg with
      | space c =>
        simp only [Segment.well_formed] at hw
        have hc0 : c ≠ 0 := by rintro rfl; simp [isspace] at hw
        simp only [Segment.bytes, List.length_append, List.length_singleton] at hf ⊢
        rw [List.singleton_append, List.cons_append,
          tokenize_loop_succ fuel c _ p 1 none hc0 (scan_step_space c _ p hw),
          List.drop_succ_cons, List.drop_zero, ih2 fuel (p + 1) (by omega)]
        simp only [Option.toList, List.nil_append]
        congr 3
        omega
      | line_comment body =>
        simp only [Segment.well_formed, Bool.not_eq_true'] at hw
        simp only [Segment.bytes, List.length_append, List.length_cons, List.length_singleton,
          List.length_nil] at hf ⊢
        cases fuel with
        | zero => omega
        | succ fuel =>
          have e1 : ([47, 47] ++ body ++ [10] ++ segments_text segs ++ [0]) =
              47 :: 47 :: (body ++ 10 :: (segments_text segs ++ [0])) := by simp
          have e2 : List.drop (2 + body.length)
              (47 :: 47 :: (body ++ 10 :: (segments_text segs ++ [0]))) =
              10 :: (segments_text segs ++ [0]) := by
            have : 2 + body.length = body.length + 1 + 1 := by omega
            rw [this, List.drop_succ_cons, List.drop_succ_cons]
            exact List.drop_left' rfl
          rw [e1, tokenize_loop_succ (fuel + 1) 47 _ p _ none (by decide)
              (scan_step_line_comment body _ p hw), e2,
            tokenize_loop_succ fuel 10 _ _ 1 none (by decide)
              (scan_step_space 10 _ _ (by decide)),
            List.drop_succ_cons, List.drop_zero,
            ih2 fuel (p + (2 + body.length) + 1) (by omega)]
          simp only [Option.toList, List.nil_append]
          congr 3
          omega
      | block_comment body =>
        simp only [Segment.well_formed, Bool.not_eq_true'] at hw
        simp only [Segment.block_nul_free, Bool.not_eq_true'] at hn
        simp only [Segment.bytes, List.length_append, List.length_cons, List.length_singleton,
          List.length_nil] at hf ⊢
        have e1 : ([47, 42] ++ body ++ [42, 47] ++ segments_text segs ++ [0]) =
            47 :: 42 :: (body ++ 42 :: 47 :: (segments_text segs ++ [0])) := by simp
        have e2 : List.drop (2 + body.length + 2)
            (47 :: 42 :: (body ++ 42 :: 47 :: (segments_text segs ++ [0]))) =
            segments_text segs ++ [0] := by
          have : 2 + body.length + 2 = (body.length + 2) + 1 + 1 := by omega
          rw [this, List.drop_succ_cons, List.drop_succ_cons]
          have e3 : body ++ 42 :: 47 :: (segments_text segs ++ [0]) =
              (body ++ [42, 47]) ++ (segments_text segs ++ [0]) := by simp
          rw [e3]
          exact List.drop_left' (by simp)
        rw [e1, tokenize_loop_succ fuel 47 _ p _ none (by decide)
            (scan_step_block_comment body _ p hn hw), e2,
          ih2 fuel (p + (2 + body.length + 2)) (by omega)]
        simp only [Option.toList, List.nil_append]
        congr 3
        omega

/-- C6 as stated fails: the text `/*`, NUL, `*/`, newline is a closed block comment followed
by a newline, and `tokenize` fails on it with "unclosed block comment", because `strstr`
stops at the NUL byte. -/
theorem blank_text_counterexample :
    (∀ s ∈ segs_nul_in_block, s.well_formed = true) ∧
    segments_text segs_nul_in_block = [47, 42, 0, 42, 47, 10] ∧
    tokenize (segments_text segs_nul_in_block ++ [0]) =
      Except.error (LexError.unclosed_block_comment 0) := by
  decide

/-- C6, amended: on a buffer whose text is a concatenation of whitespace bytes, line comments
(each up to the newline that ends its line) and closed block comments without NUL byte
in the body (each up to the first `*/` after its `/*`), followed by the terminator,
`tokenize` succeeds and returns the end-of-stream token alone, placed at the
terminator. -/
theorem blank_text_only_eof (segs : List Segment)
    (h : ∀ s ∈ segs, s.well_formed = true ∧ s.block_nul_free = true) :
    ∃ t, tokenize (segments_text segs ++ [0]) = Except.ok [t] ∧
      t.kind = TokenKind.TK_EOF ∧ t.loc = (segments_text segs).length := by
  have hloop := tokenize_loop_blank segs h ((segments_text segs ++ [0]).length + 1) 0
    (by simp; omega)
  refine ⟨_, tokenize_eq_map _ _ hloop, ?_, ?_⟩
  · unfold Token.finish
    rw [if_neg (by simp [new_token]), Token.with_line_kind]
    rfl
  · rw [Token.finish_loc]
    simp [new_token]

/-- C6, amended, on the text `/*x*/ //y` followed by two newlines. -/
theorem blank_text_only_eof_witness :
    (∀ s ∈ segs_sample, s.well_formed = true ∧ s.block_nul_free = true) ∧
    ∃ t, tokenize (segments_text segs_sample ++ [0]) = Except.ok [t] ∧
      t.kind = TokenKind.TK_EOF ∧ t.loc = (segments_text segs_sample).length :=
  ⟨by decide, blank_text_only_eof segs_sample (by decide)⟩

theorem takeWhile_take_of_get (P : Nat → Bool) :
    ∀ (l : List Nat) (m b : Nat), l.get? m = some b → P b = false →
      (l.take m).takeWhile P = l.takeWhile P := by
  intro l
  induction l with
  | nil => intro m b h; simp at h
  | cons a l ih =>
    intro m b h hb
    cases m with
    | zero =>
      simp at h
      subst h
      simp [List.takeWhile, hb]
    | succ m =>
      simp only [List.take_succ_cons, List.takeWhile_cons]
      split
      · rw [ih m b (by simpa using h) hb]
      · rfl

theorem spec_escape_take (rest : List Nat) (m : Nat) (hm : 1 ≤ m)
    (h : rest.get? m = some 34) : spec_escape (rest.take m) = spec_escape rest := by
  unfold spec_escape
  rw [takeWhile_take_of_get is_octal_digit rest m 34 h (by decide)]
  cases rest with
  | nil => simp
  | cons c rest2 =>
    obtain ⟨k, rfl⟩ : ∃ k, m = k + 1 := ⟨m - 1, by omega⟩
    simp only [List.take_succ_cons]
    rw [takeWhile_take_of_get isxdigit rest2 k 34 (by simpa using h) (by decide)]

/-- A byte the first pass over a string literal steps over as an ordinary byte. -/
theorem string_literal_end_loop_plain (st : Nat) (c : Nat) (rest : List Nat) (p : Nat)
    (h : isxdigit c = true) :
    string_literal_end_loop st (c :: rest) p = string_literal_end_loop st rest (p + 1) := by
  have h1 : c ≠ 34 := by rintro rfl; simp [isxdigit] at h
  have h2 : ¬(c = 10 ∨ c = 0) := by
    rintro (rfl | rfl) <;> simp [isxdigit] at h
  have h3 : c ≠ 92 := by rintro rfl; simp [isxdigit] at h
  rw [string_literal_end_loop.eq_def]
  simp only [if_neg h1, if_neg h2, if_neg h3]

theorem string_literal_end_loop_skip (st : Nat) :
    ∀ (k : Nat) (t : List Nat) (p : Nat), k ≤ t.length →
      (∀ b ∈ t.take k, isxdigit b = true) →
      string_literal_end_loop st t p = string_literal_end_loop st (t.drop k) (p + k) := by
  intro k
  induction k with
  | zero => intro t p _ _; simp
  | succ k ih =>
    intro t p hk hall
    cases t with
    | nil => simp at hk
    | cons c rest =>
      rw [string_literal_end_loop_plain st c rest p (hall c (by simp)),
        ih rest (p + 1) (by simpa using hk) (fun b hb => hall b (by simp [hb]))]
      simp only [List.drop_succ_cons]
      congr 1
      omega

theorem read_escaped_char_consumed {s : List Nat} {q : Nat} {v : Int} {n : Nat}
    (h : read_escaped_char s q = Except.ok (v, n)) :
    1 ≤ n ∧ n ≤ s.length ∧ ∀ b ∈ (s.take n).drop 1, isxdigit b = true := by
  unfold read_escaped_char at h
  split at h
  · cases h
  · rename_i c0 s1
    split at h
    · rename_i ho
      split at h
      · cases h
      · rename_i c1 s2
        split at h
        · rename_i ho1
          split at h
          · cases h
          · rename_i c2 s3
            split at h
            · rename_i ho2
              cases h
              refine ⟨by omega, by simp, ?_⟩
              intro b hb
              simp at hb
              rcases hb with rfl | rfl <;> simp [isxdigit] <;> omega
            · cases h
              refine ⟨by omega, by simp, ?_⟩
              intro b hb
              simp at hb
              subst hb
              simp [isxdigit]; omega
        · cases h
          exact ⟨by omega, by simp, by simp⟩
    · split at h
      · split at h
        · cases h
        · rename_i c1 s2
          split at h
          · cases h
          · split at h
            · cases h
            · rename_i v2 m hm
              cases h
              obtain ⟨h1, h2, _⟩ := read_hex_loop_spec hm
              refine ⟨by omega, by simp at h1 ⊢; omega, ?_⟩
              intro b hb
              rw [List.take_succ_cons, List.drop_succ_cons, List.drop_zero] at hb
              exact h2 b hb
      · cases h
        exact ⟨by omega, by simp, by simp⟩

theorem int_to_char_natCast (n : Nat) : int_to_char (n : Int) = n % 256 := by
  unfold int_to_char
  omega

theorem int_to_char_congr (v : Int) (n : Nat) (h : v % 256 = (n : Int) % 256) :
    int_to_char v = n % 256 := by
  unfold int_to_char
  omega

theorem wrap_int_emod (x : Int) : wrap_int x % 256 = x % 256 := by
  unfold wrap_int
  omega

theorem from_hex_eq (c : Nat) (h : isxdigit c = true) :
    from_hex c = (hex_digit_value c : Int) := by
  simp only [isxdigit, Bool.or_eq_true, Bool.and_eq_true, decide_eq_true_eq] at h
  unfold from_hex hex_digit_value
  split_ifs <;> omega

theorem read_hex_loop_value :
    ∀ (s : List Nat) (acc : Int) (a : Nat) (v : Int) (n : Nat),
      read_hex_loop s acc = Except.ok (v, n) → acc % 256 = (a : Int) % 256 →
      n = (s.takeWhile isxdigit).length ∧
      v % 256 =
        (((s.takeWhile isxdigit).foldl (fun x d => x * 16 + hex_digit_value d) a : Nat) : Int)
          % 256 := by
  intro s
  induction s with
  | nil => intro acc a v n h; simp [read_hex_loop] at h
  | cons c rest ih =>
    intro acc a v n h ha
    simp only [read_hex_loop] at h
    split at h
    · rename_i hc
      split at h
      · cases h
      · rename_i v2 m hm
        cases h
        have hstep : wrap_int (acc * 16 + from_hex c) % 256 =
            ((a * 16 + hex_digit_value c : Nat) : Int) % 256 := by
          rw [wrap_int_emod, from_hex_eq c hc]
          push_cast
          omega
        obtain ⟨h1, h2⟩ := ih _ _ _ _ hm hstep
        simp only [List.takeWhile_cons, hc, if_true, List.length_cons, List.foldl_cons]
        exact ⟨by omega, h2⟩
    · rename_i hc
      cases h
      have hc2 : isxdigit c = false := by simpa using hc
      simp [List.takeWhile_cons, hc2, ha]

theorem int_to_char_named_escape (c : Nat) (h : c < 256) :
    int_to_char (named_escape c) = escape_value c := by
  unfold named_escape escape_value
  split_ifs <;> try rfl
  unfold char_to_int int_to_char
  split <;> omega

theorem read_escaped_char_spec {s : List Nat} {q : Nat} {v : Int} {n : Nat}
    (h : read_escaped_char s q = Except.ok (v, n)) (hb : ∀ b ∈ s, b < 256) :
    spec_escape s = some (int_to_char v, n) := by
  unfold read_escaped_char at h
  split at h
  · cases h
  · rename_i c0 s1
    split at h
    · rename_i ho
      have ho' : is_octal_digit c0 = true := by simp [is_octal_digit, ho]
      split at h
      · cases h
      · rename_i c1 s2
        split at h
        · rename_i ho1
          have ho1' : is_octal_digit c1 = true := by simp [is_octal_digit, ho1]
          split at h
          · cases h
          · rename_i c2 s3
            split at h
            · rename_i ho2
              have ho2' : is_octal_digit c2 = true := by simp [is_octal_digit, ho2]
              cases h
              have hv : ((((c0 : Int) - 48) * 8 + ((c1 : Int) - 48)) * 8 + ((c2 : Int) - 48)) =
                  ((((c0 - 48) * 8 + (c1 - 48)) * 8 + (c2 - 48) : Nat) : Int) := by omega
              rw [hv, int_to_char_natCast]
              simp [spec_escape, List.takeWhile_cons, ho', ho1', ho2', octal_value]
            · rename_i ho2
              have ho2' : is_octal_digit c2 = false := by
                simp only [is_octal_digit, Bool.and_eq_false_imp, decide_eq_true_eq,
                  decide_eq_false_iff_not]
                omega
              cases h
              have hv : (((c0 : Int) - 48) * 8 + ((c1 : Int) - 48)) =
                  (((c0 - 48) * 8 + (c1 - 48) : Nat) : Int) := by omega
              rw [hv, int_to_char_natCast]
              simp [spec_escape, List.takeWhile_cons, ho', ho1', ho2', octal_value]
        · rename_i ho1
          have ho1' : is_octal_digit c1 = false := by
            simp only [is_octal_digit, Bool.and_eq_false_imp, decide_eq_true_eq,
              decide_eq_false_iff_not]
            omega
          cases h
          have hv : ((c0 : Int) - 48) = ((c0 - 48 : Nat) : Int) := by omega
          rw [hv, int_to_char_natCast]
          simp [spec_escape, List.takeWhile_cons, ho', ho1', octal_value]
    · rename_i ho
      have ho' : is_octal_digit c0 = false := by
        simp only [is_octal_digit, Bool.and_eq_false_imp, decide_eq_true_eq,
          decide_eq_false_iff_not]
        omega
      split at h
      · rename_i hx
        split at h
        · cases h
        · rename_i c1 s2
          split at h
          · cases h
          · rename_i hd
            have hd' : isxdigit c1 = true := by simpa using hd
            split at h
            · cases h
            · rename_i v2 m hm
              cases h
              obtain ⟨h1, h2⟩ := read_hex_loop_value _ 0 0 _ _ hm rfl
              have hne : List.takeWhile isxdigit (c1 :: s2) ≠ [] := by
                simp [List.takeWhile_cons, hd']
              simp only [spec_escape, List.takeWhile_cons, ho', Bool.false_eq_true, if_false,
                List.take_nil, ne_eq, not_true_eq_false, hx, if_true]
              simp only [List.takeWhile_cons] at hne h1 h2
              rw [if_neg hne, h1]
              rw [int_to_char_congr v _ h2]
              rfl
      · rename_i hx
        cases h
        rw [int_to_char_named_escape c0 (hb c0 (by simp))]
        simp [spec_escape, List.takeWhile_cons, ho', hx]

theorem string_literal_end_loop_cons (st c : Nat) (rest : List Nat) (p : Nat) :
    string_literal_end_loop st (c :: rest) p =
      if c = 34 then Except.ok p
      else if c = 10 ∨ c = 0 then Except.error (LexError.unclosed_string_literal st)
      else if c = 92 then
        match rest with
        | [] => Except.error LexError.out_of_bounds
        | _ :: rest2 => string_literal_end_loop st rest2 (p + 2)
      else string_literal_end_loop st rest (p + 1) := by
  rw [string_literal_end_loop.eq_def]

theorem decode_loop_spec (st : Nat) :
    ∀ (fuel : Nat) (t : List Nat) (p e : Nat) (bs : List Nat) (pf : Nat),
      (∀ b ∈ t, b < 256) → string_literal_end_loop st t p = Except.ok e →
      decode_loop fuel t p e = Except.ok (bs, pf) →
      pf = e ∧ bs.length ≤ e - p ∧
        ∀ fuel2, e - p ≤ fuel2 → escape_resolved fuel2 (t.take (e - p)) = some bs := by
  intro fuel
  induction fuel with
  | zero =>
    intro t p e bs pf _ hsle hdec
    have hge := string_literal_end_loop_ge st _ t p e (Nat.le_refl _) hsle
    simp only [decode_loop] at hdec
    split at hdec
    · cases hdec
    · cases hdec
      have : e - p = 0 := by omega
      refine ⟨by omega, by simp, ?_⟩
      intro fuel2 _
      rw [this]
      simp [escape_resolved]
  | succ fuel ih =>
    intro t p e bs pf hb hsle hdec
    have hge := string_literal_end_loop_ge st _ t p e (Nat.le_refl _) hsle
    have hq := string_literal_end_loop_quote st _ t p e (Nat.le_refl _) hsle
    simp only [decode_loop] at hdec
    by_cases hpe : p < e
    · rw [if_pos hpe] at hdec
      cases t with
      | nil => cases hdec
      | cons c rest =>
        simp only at hdec
        obtain ⟨m, hm⟩ : ∃ m, e - p = m + 1 := ⟨e - p - 1, by omega⟩
        have hq2 : rest.get? m = some 34 := by
          rw [hm] at hq
          simpa using hq
        have hbrest : ∀ b ∈ rest, b < 256 := fun b hb2 => hb b (List.mem_cons_of_mem _ hb2)
        by_cases h92 : c = 92
        · rw [if_pos h92] at hdec
          split at hdec
          · cases hdec
          · rename_i v n hv
            split at hdec
            · cases hdec
            · rename_i bs2 pf2 hrec
              cases hdec
              -- the first pass skipped the byte after the backslash and stepped over the digits
              obtain ⟨hn1, hn2, hdig⟩ := read_escaped_char_consumed hv
              have hsle2 : string_literal_end_loop st (rest.drop n) (p + 1 + n) = Except.ok e := by
                subst h92
                rw [string_literal_end_loop_cons, if_neg (by decide), if_neg (by decide),
                  if_pos rfl] at hsle
                cases rest with
                | nil => simp at hn2; omega
                | cons x rest2 =>
                  simp only at hsle
                  rw [string_literal_end_loop_skip st (n - 1) rest2 (p + 2) (by simp at hn2; omega)
                    (by
                      intro b hb3
                      apply hdig b
                      obtain ⟨k, rfl⟩ : ∃ k, n = k + 1 := ⟨n - 1, by omega⟩
                      simpa using hb3)] at hsle
                  obtain ⟨k, rfl⟩ : ∃ k, n = k + 1 := ⟨n - 1, by omega⟩
                  simp only [List.drop_succ_cons]
                  rw [← hsle]
                  congr 1
                  simp
                  omega
              have hge2 := string_literal_end_loop_ge st _ _ _ e (Nat.le_refl _) hsle2
              obtain ⟨h1, h2, h3⟩ := ih (rest.drop n) (p + 1 + n) e _ _
                (fun b hb3 => hbrest b (List.mem_of_mem_drop hb3)) hsle2 hrec
              refine ⟨h1, by simp; omega, ?_⟩
              intro fuel2 hf2
              obtain ⟨f2, rfl⟩ : ∃ f2, fuel2 = f2 + 1 := ⟨fuel2 - 1, by omega⟩
              rw [hm, List.take_succ_cons]
              simp only [escape_resolved, h92, if_true]
              rw [spec_escape_take rest m (by omega) hq2,
                read_escaped_char_spec hv hbrest]
              simp only
              have : m - n = e - (p + 1 + n) := by omega
              rw [List.drop_take, this, h3 f2 (by omega)]
        · rw [if_neg h92] at hdec
          split at hdec
          · cases hdec
          · rename_i bs2 pf2 hrec
            cases hdec
            have hsle2 : string_literal_end_loop st rest (p + 1) = Except.ok e := by
              rw [string_literal_end_loop_cons] at hsle
              split at hsle
              · cases hsle; omega
              · split at hsle
                · cases hsle
                · exact hsle
            obtain ⟨h1, h2, h3⟩ := ih rest (p + 1) e _ _ hbrest hsle2 hrec
            refine ⟨h1, by simp; omega, ?_⟩
            intro fuel2 hf2
            obtain ⟨f2, rfl⟩ : ∃ f2, fuel2 = f2 + 1 := ⟨fuel2 - 1, by omega⟩
            rw [hm, List.take_succ_cons]
            simp only [escape_resolved, if_neg h92]
            have : m = e - (p + 1) := by omega
            rw [this, h3 f2 (by omega)]
    · rw [if_neg hpe] at hdec
      cases hdec
      have : e - p = 0 := by omega
      refine ⟨by omega, by simp, ?_⟩
      intro fuel2 _
      rw [this]
      simp [escape_resolved]

/-- C7: for a token made by `read_string_literal` (from bytes below 256), the length of its
array type is the number of payload bytes plus 1, and the payload, which the token
holds followed by the zero bytes of the `calloc`, is the escape-resolved content between
the opening quote and the closing quote found by `string_literal_end`.  The literal
`"\101\x42\n"` has payload 65, 66, 10 and array length 4. -/
theorem string_literal_payload :
    (∀ (s : List Nat) (start : Nat) (tok : Token), (∀ b ∈ s, b < 256) →
      read_string_literal s start = Except.ok tok →
      ∃ e payload, string_literal_end (s.drop 1) (start + 1) = Except.ok e ∧
        tok.ty.bind CType.array_len = some (payload.length + 1) ∧
        tok.str = some (payload ++ List.replicate (e - start - payload.length) 0) ∧
        escape_resolved (e - (start + 1)) ((s.drop 1).take (e - (start + 1))) = some payload) ∧
    read_string_literal buf_escapes 0 = Except.ok
      { kind := TokenKind.TK_STR, loc := 0, len := 12,
        ty := some (CType.array CType.ty_char 4),
        str := some [65, 66, 10, 0, 0, 0, 0, 0, 0, 0, 0] } := by
  refine ⟨?_, by decide⟩
  intro s start tok hb h
  obtain ⟨e, bs, pf, he, hdec, _, rfl⟩ := read_string_literal_ok s start tok h
  obtain ⟨_, _, h3⟩ := decode_loop_spec (start + 1) _ _ _ _ _ _
    (fun b hb2 => hb b (List.mem_of_mem_drop hb2)) he hdec
  exact ⟨e, bs, he, rfl, rfl, h3 _ (Nat.le_refl _)⟩

/-- C7 on the literal `"\101\x42\n"`. -/
theorem string_literal_payload_witness :
    (∀ b ∈ buf_escapes, b < 256) ∧
    ∃ e payload, string_literal_end (buf_escapes.drop 1) (0 + 1) = Except.ok e ∧
      (some (CType.array CType.ty_char 4)).bind CType.array_len = some (payload.length + 1) ∧
      some [65, 66, 10, 0, 0, 0, 0, 0, 0, 0, 0] =
        some (payload ++ List.replicate (e - 0 - payload.length) 0) ∧
      escape_resolved (e - (0 + 1)) ((buf_escapes.drop 1).take (e - (0 + 1))) = some payload :=
  ⟨by decide, string_literal_payload.1 buf_escapes 0 _ (by decide) string_literal_payload.2⟩

/-- C8, the code at a failing input: on `x = "abc` the opening quote is at offset 4 and the
"unclosed string literal" error is reported at offset 5, the byte after the quote
(`string_literal_end` is called with `start + 1` and keeps that as its `start`). -/
theorem unclosed_string_reported_after_quote :
    buf_unclosed_assign.get? 4 = some 34 ∧
    tokenize buf_unclosed_assign = Except.error (LexError.unclosed_string_literal 5) := by
  decide

theorem CursorPath.le {buf : List Nat} {q p : Nat} (h : CursorPath buf q p) : q ≤ p := by
  induction h with
  | here q => exact Nat.le_refl _
  | step q c k t p _ _ _ _ ih => omega

theorem get?_drop_cons {buf : List Nat} {p c : Nat} (h : buf.get? p = some c) :
    ∃ rest, buf.drop p = c :: rest := by
  induction buf generalizing p with
  | nil => simp at h
  | cons b bs ih =>
    cases p with
    | zero => simp at h; exact ⟨bs, by simp [h]⟩
    | succ q => simpa using ih (by simpa using h)

theorem tokenize_loop_error_of_path {buf : List Nat} {q p : Nat} (h : CursorPath buf q p)
    (c : Nat) (e : LexError) (hc : buf.get? p = some c) (hc0 : c ≠ 0)
    (he : scan_step (buf.drop p) p = Except.error e) :
    ∀ fuel, p - q < fuel → tokenize_loop fuel (buf.drop q) q = Except.error e := by
  induction h with
  | here q =>
    intro fuel hf
    obtain ⟨f, rfl⟩ : ∃ f, fuel = f + 1 := ⟨fuel - 1, by omega⟩
    obtain ⟨rest, hr⟩ := get?_drop_cons hc
    rw [hr] at he ⊢
    simp only [tokenize_loop, if_neg hc0, he]
  | step q c2 k t p hq hq0 hstep hpath ih =>
    intro fuel hf
    obtain ⟨f, rfl⟩ : ∃ f, fuel = f + 1 := ⟨fuel - 1, by omega⟩
    have hk := (scan_step_ok _ _ _ _ hstep).advance
    have hle := hpath.le
    obtain ⟨rest, hr⟩ := get?_drop_cons hq
    have hrec := ih hc he f (by omega)
    rw [hr] at hstep ⊢
    rw [tokenize_loop_succ f c2 rest q k t hq0 hstep, ← hr, List.drop_drop, hrec]

theorem string_literal_end_loop_unclosed (st : Nat) :
    ∀ (n : Nat) (t : List Nat) (p : Nat), t.length ≤ n → ends_newline_nul t ∨ t = [0] →
      meets_line_end t = true →
      string_literal_end_loop st t p = Except.error (LexError.unclosed_string_literal st) := by
  intro n
  induction n with
  | zero =>
    intro t p hn ht
    have : t = [] := List.length_eq_zero.mp (Nat.le_zero.mp hn)
    subst this
    rcases ht with ⟨u, hu⟩ | hu
    · have := congrArg List.length hu
      simp at this
    · cases hu
  | succ n ih =>
    intro t p hn ht hm
    cases t with
    | nil =>
      rcases ht with ⟨u, hu⟩ | hu
      · have := congrArg List.length hu
        simp at this
      · cases hu
    | cons c rest =>
      rw [string_literal_end_loop_cons]
      cases rest with
      | nil =>
        have hc : c = 0 := by
          rcases ht with ⟨u, hu⟩ | hu
          · have := congrArg List.length hu
            simp at this
          · simpa using hu
        subst hc
        simp
      | cons d rest2 =>
        simp only [meets_line_end] at hm
        by_cases h34 : c = 34
        · simp [h34] at hm
        · rw [if_neg h34] at hm ⊢
          by_cases h10 : c = 10 ∨ c = 0
          · rw [if_pos h10]
          · rw [if_neg h10] at hm ⊢
            have hu : ends_newline_nul (d :: rest2) := by
              rcases ht with ⟨u, hu⟩ | hu
              · cases u with
                | nil => simp at hu; exact absurd (Or.inl hu.1) h10
                | cons a u => simp at hu; exact ⟨u, hu.2⟩
              · simp at hu
            have hu2 : ends_newline_nul rest2 ∨ rest2 = [0] := by
              obtain ⟨u, hu⟩ := hu
              cases u with
              | nil => simp at hu; exact Or.inr hu.2
              | cons a u => simp at hu; exact Or.inl ⟨u, hu.2⟩
            by_cases h92 : c = 92
            · rw [if_pos h92] at hm ⊢
              exact ih rest2 (p + 2) (by simp at hn; omega) hu2 hm
            · rw [if_neg h92] at hm ⊢
              exact ih (d :: rest2) (p + 1) (by simp at hn ⊢; omega) (Or.inl hu) hm

theorem ends_newline_nul_tail {c : Nat} {rest : List Nat} (h : ends_newline_nul (c :: rest)) :
    ends_newline_nul rest ∨ rest = [0] := by
  obtain ⟨u, hu⟩ := h
  cases u with
  | nil => simp at hu; exact Or.inr hu.2
  | cons a u => simp at hu; exact Or.inl ⟨u, hu.2⟩

theorem ends_newline_nul_drop :
    ∀ (k : Nat) (s : List Nat), ends_newline_nul s → k + 1 ≤ s.length →
      ends_newline_nul (s.drop k) ∨ s.drop k = [0] := by
  intro k
  induction k with
  | zero => intro s h _; exact Or.inl (by simpa using h)
  | succ k ih =>
    intro s h hk
    cases s with
    | nil => simp at hk
    | cons c rest =>
      rcases ends_newline_nul_tail h with h2 | rfl
      · simpa using ih rest h2 (by simpa using hk)
      · simp at hk
        subst hk
        exact Or.inr rfl

theorem scan_step_quote (rest : List Nat) (p : Nat) :
    scan_step (34 :: rest) p =
      match read_string_literal (34 :: rest) p with
      | Except.error e => Except.error e
      | Except.ok tok => Except.ok (tok.len, some tok) := by
  simp only [scan_step, startswith, if_neg (show (34 : Nat) ≠ 47 by decide),
    show isspace 34 = false by decide, show isdigit 34 = false by decide,
    Bool.false_eq_true, if_false, if_true]

theorem verror_at_line_end_total {s : List Nat} (h : ends_newline_nul s) :
    ∃ n, verror_at_line_end s = Except.ok n := by
  obtain ⟨u, rfl⟩ := h
  induction u with
  | nil => exact ⟨0, by simp [verror_at_line_end]⟩
  | cons c u ih =>
    obtain ⟨n, hn⟩ := ih
    rw [List.cons_append, verror_at_line_end]
    split
    · exact ⟨_, rfl⟩
    · rw [hn]
      exact ⟨_, rfl⟩

/-- C9: on a buffer that ends in a newline and the terminator, when the scanning loop has
its cursor at a quote at offset `p` and, forward from the next byte, a newline or the end
of the buffer is met before an unprotected quote, `tokenize` fails with "unclosed string
literal" (reported at offset `p + 1`), not with another error and not by reading outside
the buffer; the search of `verror_at` for the end of the reported line stays inside the
buffer too.  So it does on the buffer `"abc`. -/
theorem unclosed_string_detected :
    (∀ (buf : List Nat) (p : Nat), ends_newline_nul buf → CursorPath buf 0 p →
      buf.get? p = some 34 → meets_line_end (buf.drop (p + 1)) = true →
      tokenize buf = Except.error (LexError.unclosed_string_literal (p + 1)) ∧
      ∃ n, verror_at_line_end (buf.drop (p + 1)) = Except.ok n) ∧
    tokenize buf_unclosed = Except.error (LexError.unclosed_string_literal 1) := by
  refine ⟨?_, by decide⟩
  intro buf p hend hpath hq hm
  refine ⟨?_, ?_⟩
  swap
  · obtain ⟨rest, hr⟩ := get?_drop_cons hq
    rw [(drop_eq_cons hr).2]
    rcases ends_newline_nul_drop p buf hend (by have := get?_lt hq; omega) with h1 | h1
    · rw [hr] at h1
      rcases ends_newline_nul_tail h1 with h2 | h2
      · exact verror_at_line_end_total h2
      · obtain ⟨u, hu⟩ := h1
        rw [h2] at hu
        have h3 := congrArg List.reverse hu
        simp at h3
    · rw [hr] at h1
      cases h1
  have hlt := get?_lt hq
  obtain ⟨rest, hr⟩ := get?_drop_cons hq
  have hrest : buf.drop (p + 1) = rest := (drop_eq_cons hr).2
  have hends : ends_newline_nul rest ∨ rest = [0] := by
    rcases ends_newline_nul_drop p buf hend (by omega) with h1 | h1
    · rw [hr] at h1
      exact ends_newline_nul_tail h1
    · rw [hr] at h1
      cases h1
  have hstep : scan_step (buf.drop p) p =
      Except.error (LexError.unclosed_string_literal (p + 1)) := by
    rw [hr, scan_step_quote]
    unfold read_string_literal string_literal_end
    simp only [List.drop_succ_cons, List.drop_zero]
    rw [string_literal_end_loop_unclosed (p + 1) _ rest (p + 1) (Nat.le_refl _) hends
      (by rw [← hrest]; exact hm)]
  rw [tokenize_error_iff]
  unfold scan
  have := tokenize_loop_error_of_path hpath 34 _ hq (by decide) hstep (buf.length + 1) (by omega)
  simpa using this

/-- C9 on the buffer `x = "abc`: the loop gets to the quote at offset 4 through the
identifier, the punctuator and the spaces. -/
theorem unclosed_string_detected_witness :
    ends_newline_nul buf_unclosed_assign ∧ CursorPath buf_unclosed_assign 0 4 ∧
    buf_unclosed_assign.get? 4 = some 34 ∧
    meets_line_end (buf_unclosed_assign.drop (4 + 1)) = true ∧
    tokenize buf_unclosed_assign = Except.error (LexError.unclosed_string_literal (4 + 1)) ∧
    ∃ n, verror_at_line_end (buf_unclosed_assign.drop (4 + 1)) = Except.ok n :=
  have hend : ends_newline_nul buf_unclosed_assign := ⟨[120, 32, 61, 32, 34, 97, 98, 99], rfl⟩
  have hpath : CursorPath buf_unclosed_assign 0 4 :=
    CursorPath.step 0 120 1 (some (new_token TokenKind.TK_IDENT 0 1)) 4 (by decide) (by decide)
      (by decide)
      (CursorPath.step 1 32 1 none 4 (by decide) (by decide) (by decide)
        (CursorPath.step 2 61 1 (some (new_token TokenKind.TK_PUNCT 2 1)) 4 (by decide)
          (by decide) (by decide)
          (CursorPath.step 3 32 1 none 4 (by decide) (by decide) (by decide)
            (CursorPath.here 4))))
  ⟨hend, hpath, by decide, by decide,
    unclosed_string_detected.1 buf_unclosed_assign 4 hend hpath (by decide) (by decide)⟩

theorem read_hex_loop_run :
    ∀ (s : List Nat) (acc : Int), (s.takeWhile isxdigit).length < s.length →
      ∃ v, read_hex_loop s acc = Except.ok (v, (s.takeWhile isxdigit).length) := by
  intro s
  induction s with
  | nil => intro acc h; simp at h
  | cons c rest ih =>
    intro acc h
    simp only [read_hex_loop, List.takeWhile_cons] at h ⊢
    by_cases hc : isxdigit c = true
    · simp only [hc, if_true, List.length_cons] at h ⊢
      obtain ⟨v, hv⟩ := ih (wrap_int (acc * 16 + from_hex c)) (by omega)
      rw [hv]
      exact ⟨v, rfl⟩
    · simp only [hc, Bool.false_eq_true, if_false, List.length_nil]
      exact ⟨acc, rfl⟩

/-- C10: in `read_escaped_char` at an `x` (offset `q`) followed by the bytes `rest`, whose
leading run of hexadecimal digits is `ds`: when the run is not empty (and a byte that is
no hexadecimal digit can be read after it) the escape takes up the `x` and all of `ds`,
and the byte it gives when stored in the payload is the base-16 value of `ds` modulo 256,
as the decoding loop stores it; when the run is empty the result is the error "invalid
hex escape sequence" at offset `q + 1`, the byte after the `x`. -/
theorem hex_escape (rest : List Nat) (q : Nat) :
    (1 ≤ (rest.takeWhile isxdigit).length → (rest.takeWhile isxdigit).length < rest.length →
      ∃ v, read_escaped_char (120 :: rest) q =
          Except.ok (v, (rest.takeWhile isxdigit).length + 1) ∧
        int_to_char v = hex_value (rest.takeWhile isxdigit) % 256 ∧
        ∀ fuel p e, p < e →
          decode_loop (fuel + 1) (92 :: 120 :: rest) p e =
            match decode_loop fuel (rest.drop (rest.takeWhile isxdigit).length)
                (p + 1 + ((rest.takeWhile isxdigit).length + 1)) e with
            | Except.error err => Except.error err
            | Except.ok (bs, pf) =>
              Except.ok (hex_value (rest.takeWhile isxdigit) % 256 :: bs, pf)) ∧
    ((rest.takeWhile isxdigit).length = 0 → rest ≠ [] →
      read_escaped_char (120 :: rest) q =
        Except.error (LexError.invalid_hex_escape (q + 1))) := by
  constructor
  · intro h1 h2
    cases rest with
    | nil => simp at h2
    | cons c1 s2 =>
      have hd : isxdigit c1 = true := by
        by_contra hc
        simp [List.takeWhile_cons, hc] at h1
      obtain ⟨v, hv⟩ := read_hex_loop_run (c1 :: s2) 0 h2
      have hval := (read_hex_loop_value _ 0 0 _ _ hv rfl).2
      have hchar : int_to_char v = hex_value (List.takeWhile isxdigit (c1 :: s2)) % 256 := by
        rw [int_to_char_congr v _ hval]
        rfl
      have hre : ∀ q2, read_escaped_char (120 :: c1 :: s2) q2 =
          Except.ok (v, (List.takeWhile isxdigit (c1 :: s2)).length + 1) := by
        intro q2
        simp only [read_escaped_char, show ¬(48 ≤ 120 ∧ 120 ≤ 55) by omega, if_false, if_true,
          hd, Bool.not_true, Bool.false_eq_true, hv]
      refine ⟨v, hre q, hchar, ?_⟩
      intro fuel p e hpe
      simp only [decode_loop, if_pos hpe, if_true, hre (p + 1), hchar, List.drop_succ_cons]
  · intro h1 h2
    cases rest with
    | nil => exact absurd rfl h2
    | cons c1 s2 =>
      have hd : isxdigit c1 = false := by
        by_contra hc
        simp [List.takeWhile_cons, hc] at h1
      simp [read_escaped_char, hd]

/-- C10 at the escape `\x1F` followed by `g`: two digits, value 31. -/
theorem hex_escape_witness :
    1 ≤ ((bytes_hex_escape.drop 1).takeWhile isxdigit).length ∧
    ((bytes_hex_escape.drop 1).takeWhile isxdigit).length < (bytes_hex_escape.drop 1).length ∧
    hex_value ((bytes_hex_escape.drop 1).takeWhile isxdigit) % 256 = 31 ∧
    ∃ v, read_escaped_char (120 :: bytes_hex_escape.drop 1) 7 =
        Except.ok (v, ((bytes_hex_escape.drop 1).takeWhile isxdigit).length + 1) ∧
      int_to_char v = hex_value ((bytes_hex_escape.drop 1).takeWhile isxdigit) % 256 :=
  ⟨by decide, by decide, by decide,
    let ⟨v, h1, h2, _⟩ := (hex_escape (bytes_hex_escape.drop 1) 7).1 (by decide) (by decide)
    ⟨v, h1, h2⟩⟩

/-! ## The bound on the iterations is never met -/

theorem startswith_error {s q : List Nat} {e : LexError} (h : startswith s q = Except.error e) :
    e = LexError.out_of_bounds := by
  induction q generalizing s with
  | nil => simp [startswith] at h
  | cons c q ih =>
    cases s with
    | nil => simp [startswith] at h; exact h.symm
    | cons a s =>
      simp only [startswith] at h
      split at h
      · exact ih h
      · cases h

theorem skip_line_error {s : List Nat} {e : LexError} (h : skip_line s = Except.error e) :
    e = LexError.out_of_bounds := by
  induction s with
  | nil => simp [skip_line] at h; exact h.symm
  | cons c rest ih =>
    simp only [skip_line] at h
    split at h
    · cases h
    · split at h
      · rename_i e2 h2
        cases h
        exact ih h2
      · cases h

theorem strstr_error {s needle : List Nat} {e : LexError}
    (h : strstr s needle = Except.error e) : e = LexError.out_of_bounds := by
  induction s with
  | nil => simp [strstr] at h; exact h.symm
  | cons c rest ih =>
    rw [strstr_cons] at h
    split at h
    · cases h
    · split at h
      · cases h
      · split at h
        · rename_i e2 h2
          cases h
          exact ih h2
        · cases h
        · cases h

theorem strtoul_loop_error {s : List Nat} {acc : Nat} {e : LexError}
    (h : strtoul_loop s acc = Except.error e) : e = LexError.out_of_bounds := by
  induction s generalizing acc with
  | nil => simp [strtoul_loop] at h; exact h.symm
  | cons c rest ih =>
    simp only [strtoul_loop] at h
    split at h
    · split at h
      · rename_i e2 h2
        cases h
        exact ih h2
      · cases h
    · cases h

theorem ident_loop_error {s : List Nat} {e : LexError} (h : ident_loop s = Except.error e) :
    e = LexError.out_of_bounds := by
  induction s with
  | nil => simp [ident_loop] at h; exact h.symm
  | cons c rest ih =>
    simp only [ident_loop] at h
    split at h
    · split at h
      · rename_i e2 h2
        cases h
        exact ih h2
      · cases h
    · cases h

theorem read_hex_loop_error {s : List Nat} {acc : Int} {e : LexError}
    (h : read_hex_loop s acc = Except.error e) : e = LexError.out_of_bounds := by
  induction s generalizing acc with
  | nil => simp [read_hex_loop] at h; exact h.symm
  | cons c rest ih =>
    simp only [read_hex_loop] at h
    split at h
    · split at h
      · rename_i e2 h2
        cases h
        exact ih h2
      · cases h
    · cases h

theorem read_punct_loop_error (s : List Nat) {e : LexError} :
    ∀ kws, read_punct_loop s kws = Except.error e → e = LexError.out_of_bounds := by
  intro kws
  induction kws with
  | nil =>
    intro h
    simp only [read_punct_loop] at h
    split at h
    · cases h; rfl
    · cases h
  | cons k ks ih =>
    intro h
    simp only [read_punct_loop] at h
    split at h
    · rename_i e2 h2
      cases h
      exact startswith_error h2
    · cases h
    · exact ih h

theorem read_escaped_char_error {s : List Nat} {q : Nat} {e : LexError}
    (h : read_escaped_char s q = Except.error e) : e ≠ LexError.out_of_fuel := by
  unfold read_escaped_char at h
  split at h
  · cases h; simp
  · split at h
    · split at h
      · cases h; simp
      · split at h
        · split at h
          · cases h; simp
          · split at h <;> cases h
        · cases h
    · split at h
      · split at h
        · cases h; simp
        · split at h
          · cases h; simp
          · split at h
            · rename_i e2 h2
              cases h
              rw [read_hex_loop_error h2]
              simp
            · cases h
      · cases h

theorem string_literal_end_loop_error (st : Nat) :
    ∀ (n : Nat) (s : List Nat) (p : Nat) (e : LexError), s.length ≤ n →
      string_literal_end_loop st s p = Except.error e → e ≠ LexError.out_of_fuel := by
  intro n
  induction n with
  | zero =>
    intro s p e hn h
    have : s = [] := List.length_eq_zero.mp (Nat.le_zero.mp hn)
    subst this
    simp [string_literal_end_loop] at h
    rw [← h]; simp
  | succ n ih =>
    intro s p e hn h
    cases s with
    | nil => simp [string_literal_end_loop] at h; rw [← h]; simp
    | cons c rest =>
      rw [string_literal_end_loop_cons] at h
      split at h
      · cases h
      · split at h
        · cases h; simp
        · split at h
          · split at h
            · cases h; simp
            · rename_i x rest2
              exact ih rest2 _ e (by simp at hn; omega) h
          · exact ih rest _ e (by simp at hn; omega) h

theorem decode_loop_error :
    ∀ (fuel : Nat) (s : List Nat) (p e : Nat) (err : LexError), e - p ≤ fuel →
      decode_loop fuel s p e = Except.error err → err ≠ LexError.out_of_fuel := by
  intro fuel
  induction fuel with
  | zero =>
    intro s p e err hf h
    simp only [decode_loop] at h
    rw [if_neg (by omega)] at h
    cases h
  | succ fuel ih =>
    intro s p e err hf h
    simp only [decode_loop] at h
    split at h
    · split at h
      · cases h; simp
      · split at h
        · split at h
          · rename_i e2 h2
            cases h
            exact read_escaped_char_error h2
          · rename_i v n hv
            split at h
            · rename_i e2 h2
              cases h
              exact ih _ _ _ _ (by omega) h2
            · cases h
        · split at h
          · rename_i e2 h2
            cases h
            exact ih _ _ _ _ (by omega) h2
          · cases h
    · cases h

theorem read_string_literal_error {s : List Nat} {start : Nat} {err : LexError}
    (h : read_string_literal s start = Except.error err) : err ≠ LexError.out_of_fuel := by
  unfold read_string_literal string_literal_end at h
  split at h
  · rename_i e2 h2
    cases h
    exact string_literal_end_loop_error _ _ _ _ _ (Nat.le_refl _) h2
  · rename_i e he
    have hge := string_literal_end_loop_ge _ _ _ _ _ (Nat.le_refl _) he
    split at h
    · rename_i e2 h2
      cases h
      exact decode_loop_error _ _ _ _ _ (by omega) h2
    · split at h
      · cases h
      · cases h; simp

theorem scan_step_error_ne_fuel {s : List Nat} {p : Nat} {e : LexError}
    (h : scan_step s p = Except.error e) : e ≠ LexError.out_of_fuel := by
  cases scan_step_err s p e h with
  | line_test e h1 => rw [startswith_error h1]; simp
  | line_comment e _ h2 => rw [skip_line_error h2]; simp
  | block_test e _ h2 => rw [startswith_error h2]; simp
  | block_comment e _ _ h3 => rw [strstr_error h3]; simp
  | unclosed_block_comment _ _ _ => simp
  | empty _ _ _ => simp
  | num c rest e _ _ _ _ _ hv =>
    unfold strtoul at hv
    split at hv
    · rename_i e2 h2
      cases hv
      rw [strtoul_loop_error h2]; simp
    · cases hv
  | str c rest e _ _ _ _ _ _ hr => exact read_string_literal_error hr
  | ident c rest e _ _ _ _ _ _ _ hl => rw [ident_loop_error hl]; simp
  | punct c rest e _ _ _ _ _ _ _ hr => rw [read_punct_loop_error _ _ hr]; simp
  | invalid_token c rest _ _ _ _ _ _ _ _ => simp

theorem tokenize_loop_fuel :
    ∀ (fuel : Nat) (s : List Nat) (p : Nat), s.length < fuel →
      tokenize_loop fuel s p ≠ Except.error LexError.out_of_fuel := by
  intro fuel
  induction fuel with
  | zero => intro s p h; simp at h
  | succ fuel ih =>
    intro s p hf h
    simp only [tokenize_loop] at h
    split at h
    · cases h
    · rename_i c rest
      split at h
      · cases h
      · split at h
        · rename_i e2 h2
          cases h
          exact scan_step_error_ne_fuel h2 rfl
        · rename_i k t hk
          have hk1 := (scan_step_ok _ _ _ _ hk).advance
          split at h
          · rename_i e2 h2
            cases h
            exact ih _ _ (by rw [List.length_drop]; simp at hf ⊢; omega) h2
          · cases h

/-- The bound on the number of iterations is an artefact of the model that no input
shows: `tokenize` never stops for lack of iterations. -/
theorem tokenize_ne_out_of_fuel (buf : List Nat) :
    tokenize buf ≠ Except.error LexError.out_of_fuel := by
  intro h
  rw [tokenize_error_iff] at h
  exact tokenize_loop_fuel (buf.length + 1) buf 0 (by omega) h

theorem is_octal_digit_iff (c : Nat) : is_octal_digit c = true ↔ 48 ≤ c ∧ c ≤ 55 := by
  simp [is_octal_digit]

theorem decode_loop_plain (fuel : Nat) (c : Nat) (rest : List Nat) (p e : Nat) (hpe : p < e)
    (hc : c ≠ 92) :
    decode_loop (fuel + 1) (c :: rest) p e =
      match decode_loop fuel rest (p + 1) e with
      | Except.error err => Except.error err
      | Except.ok (bs, pf) => Except.ok (c :: bs, pf) := by
  simp only [decode_loop, if_pos hpe, if_neg hc]

theorem decode_loop_escape (fuel : Nat) (rest : List Nat) (p e : Nat) (v : Int) (n : Nat)
    (hpe : p < e) (hv : read_escaped_char rest (p + 1) = Except.ok (v, n)) :
    decode_loop (fuel + 1) (92 :: rest) p e =
      match decode_loop fuel (rest.drop n) (p + 1 + n) e with
      | Except.error err => Except.error err
      | Except.ok (bs, pf) => Except.ok (int_to_char v :: bs, pf) := by
  simp only [decode_loop, if_pos hpe, if_true, hv]

/-- C11: in `read_escaped_char` at an octal digit, with `k` the length of the run of octal
digits that starts there (and a byte readable after the run when the run is shorter than
three), exactly `min k 3` digits are taken and the result is the base-8 value of these
digits, which is at most 511.  The decoding loop stores that value as a byte and goes on
right after the digits taken, and an octal digit it finds there (the fourth of a longer
run) is stored as an ordinary byte. -/
theorem octal_escape (s : List Nat) (q : Nat)
    (h1 : 1 ≤ (s.takeWhile is_octal_digit).length)
    (h2 : (s.takeWhile is_octal_digit).length < s.length ∨
      3 ≤ (s.takeWhile is_octal_digit).length) :
    read_escaped_char s q =
      Except.ok ((octal_value ((s.takeWhile is_octal_digit).take 3) : Int),
        min (s.takeWhile is_octal_digit).length 3) ∧
    octal_value ((s.takeWhile is_octal_digit).take 3) ≤ 511 ∧
    (∀ fuel p e, p < e →
      decode_loop (fuel + 1) (92 :: s) p e =
        match decode_loop fuel (s.drop (min (s.takeWhile is_octal_digit).length 3))
            (p + 1 + min (s.takeWhile is_octal_digit).length 3) e with
        | Except.error err => Except.error err
        | Except.ok (bs, pf) =>
          Except.ok (octal_value ((s.takeWhile is_octal_digit).take 3) % 256 :: bs, pf)) ∧
    (∀ d rest fuel p e, is_octal_digit d = true → p < e →
      decode_loop (fuel + 1) (d :: rest) p e =
        match decode_loop fuel rest (p + 1) e with
        | Except.error err => Except.error err
        | Except.ok (bs, pf) => Except.ok (d :: bs, pf)) := by
  have hread : ∀ q2, read_escaped_char s q2 =
        Except.ok ((octal_value ((s.takeWhile is_octal_digit).take 3) : Int),
          min (s.takeWhile is_octal_digit).length 3) ∧
      octal_value ((s.takeWhile is_octal_digit).take 3) ≤ 511 := by
    intro q2
    cases s with
    | nil => simp at h1
    | cons c0 s1 =>
      have ho : is_octal_digit c0 = true := by
        by_contra hc
        simp [List.takeWhile_cons, hc] at h1
      have ho' := (is_octal_digit_iff c0).mp ho
      cases s1 with
      | nil => simp [List.takeWhile_cons, ho] at h2
      | cons c1 s2 =>
        by_cases ho1 : is_octal_digit c1 = true
        · have ho1' := (is_octal_digit_iff c1).mp ho1
          cases s2 with
          | nil => simp [List.takeWhile_cons, ho, ho1] at h2
          | cons c2 s3 =>
            by_cases ho2 : is_octal_digit c2 = true
            · have ho2' := (is_octal_digit_iff c2).mp ho2
              have hv : ((((c0 : Int) - 48) * 8 + ((c1 : Int) - 48)) * 8 + ((c2 : Int) - 48)) =
                  ((((c0 - 48) * 8 + (c1 - 48)) * 8 + (c2 - 48) : Nat) : Int) := by omega
              simp only [read_escaped_char, ho', ho1', ho2', and_self, if_true, hv,
                List.takeWhile_cons, ho, ho1, ho2, List.take_succ_cons, List.take_zero,
                List.length_cons, octal_value, List.foldl_cons, List.foldl_nil]
              refine ⟨?_, by omega⟩
              congr 2
              · simp
              · omega
            · have ho2' : ¬(48 ≤ c2 ∧ c2 ≤ 55) := fun h => ho2 ((is_octal_digit_iff c2).mpr h)
              have ho2f : is_octal_digit c2 = false := by simpa using ho2
              have hv : (((c0 : Int) - 48) * 8 + ((c1 : Int) - 48)) =
                  (((c0 - 48) * 8 + (c1 - 48) : Nat) : Int) := by omega
              simp only [read_escaped_char, ho', ho1', ho2', and_self, if_true, if_false, hv,
                List.takeWhile_cons, ho, ho1, ho2f, List.take_succ_cons, List.take_nil,
                List.length_cons, List.length_nil, octal_value, List.foldl_cons,
                List.foldl_nil, Bool.false_eq_true]
              refine ⟨?_, by omega⟩
              congr 2
              simp
        · have ho1' : ¬(48 ≤ c1 ∧ c1 ≤ 55) := fun h => ho1 ((is_octal_digit_iff c1).mpr h)
          have ho1f : is_octal_digit c1 = false := by simpa using ho1
          have hv : ((c0 : Int) - 48) = ((c0 - 48 : Nat) : Int) := by omega
          simp only [read_escaped_char, ho', ho1', and_self, if_true, if_false, hv,
            List.takeWhile_cons, ho, ho1f, List.take_succ_cons, List.take_nil,
            List.length_cons, List.length_nil, octal_value, List.foldl_cons,
            List.foldl_nil, Bool.false_eq_true]
          refine ⟨?_, by omega⟩
          congr 2
          simp
  refine ⟨(hread q).1, (hread q).2, ?_, ?_⟩
  · intro fuel p e hpe
    rw [decode_loop_escape fuel s p e _ _ hpe (hread (p + 1)).1, int_to_char_natCast]
  · intro d rest fuel p e hd hpe
    exact decode_loop_plain fuel d rest p e hpe (by
      rintro rfl
      simp [is_octal_digit] at hd)

/-- C11 at the escape `\1234`: three digits are taken, value 83, and `4` is left. -/
theorem octal_escape_witness :
    1 ≤ (bytes_octal_escape.takeWhile is_octal_digit).length ∧
    min (bytes_octal_escape.takeWhile is_octal_digit).length 3 = 3 ∧
    read_escaped_char bytes_octal_escape 1 =
      Except.ok ((octal_value ((bytes_octal_escape.takeWhile is_octal_digit).take 3) : Int),
        min (bytes_octal_escape.takeWhile is_octal_digit).length 3) ∧
    octal_value ((bytes_octal_escape.takeWhile is_octal_digit).take 3) = 83 :=
  ⟨by decide, by decide,
    (octal_escape bytes_octal_escape 1 (by decide) (by decide)).1, by decide⟩

/-- C12: in `read_escaped_char` at a byte `c` that is neither an octal digit nor `x`, one
byte is taken and the result is 7, 8, 9, 10, 11, 12, 13 for `a`, `b`, `t`, `n`, `v`, `f`,
`r`, 27 for `e`, and otherwise the value of the character `c` itself: `c` for an ASCII
byte, and in every case the byte stored in the payload is `c` (so `\\` and `\"` give a
backslash and a quote).  The stored byte is the one the specification names. -/
theorem named_escapes (c : Nat) (rest : List Nat) (q : Nat)
    (h1 : is_octal_digit c = false) (h2 : c ≠ 120) :
    ∃ v, read_escaped_char (c :: rest) q = Except.ok (v, 1) ∧
      (c = 97 → v = 7) ∧ (c = 98 → v = 8) ∧ (c = 116 → v = 9) ∧ (c = 110 → v = 10) ∧
      (c = 118 → v = 11) ∧ (c = 102 → v = 12) ∧ (c = 114 → v = 13) ∧ (c = 101 → v = 27) ∧
      (c ≠ 97 → c ≠ 98 → c ≠ 116 → c ≠ 110 → c ≠ 118 → c ≠ 102 → c ≠ 114 → c ≠ 101 →
        v = char_to_int c ∧ (c < 128 → v = (c : Int)) ∧ (c < 256 → int_to_char v = c)) ∧
      (c < 256 → int_to_char v = escape_value c) := by
  have ho : ¬(48 ≤ c ∧ c ≤ 55) := by
    intro h
    rw [(is_octal_digit_iff c).mpr h] at h1
    cases h1
  refine ⟨named_escape c, ?_, ?_, ?_, ?_, ?_, ?_, ?_, ?_, ?_, ?_, ?_⟩
  · simp only [read_escaped_char, if_neg ho, if_neg h2]
  · rintro rfl; rfl
  · rintro rfl; rfl
  · rintro rfl; rfl
  · rintro rfl; rfl
  · rintro rfl; rfl
  · rintro rfl; rfl
  · rintro rfl; rfl
  · rintro rfl; rfl
  · intro n1 n2 n3 n4 n5 n6 n7 n8
    have hv : named_escape c = char_to_int c := by
      simp only [named_escape, if_neg n1, if_neg n2, if_neg n3, if_neg n4, if_neg n5,
        if_neg n6, if_neg n7, if_neg n8]
    rw [hv]
    refine ⟨rfl, ?_, ?_⟩
    · intro hc
      simp only [char_to_int, if_pos hc]
    · intro hc
      unfold char_to_int int_to_char
      split <;> omega
  · intro hc
    exact int_to_char_named_escape c hc

/-- C12 at the escapes `\n` and `\"`. -/
theorem named_escapes_witness :
    is_octal_digit 110 = false ∧ is_octal_digit 34 = false ∧
    read_escaped_char [110, 34] 2 = Except.ok (10, 1) ∧
    read_escaped_char [34, 34] 2 = Except.ok (34, 1) := by
  refine ⟨by decide, by decide, ?_, ?_⟩
  · obtain ⟨v, h, _, _, _, h4, _⟩ := named_escapes 110 [34] 2 (by decide) (by decide)
    rw [h, h4 rfl]
  · obtain ⟨v, h, _, _, _, _, _, _, _, _, h9, _⟩ :=
      named_escapes 34 [34] 2 (by decide) (by decide)
    have hv := (h9 (by decide) (by decide) (by decide) (by decide) (by decide) (by decide)
      (by decide) (by decide)).2.1 (by decide)
    rw [h, hv]
    rfl

theorem strtoul_loop_run :
    ∀ (s : List Nat) (acc : Nat), (s.takeWhile isdigit).length < s.length →
      strtoul_loop s acc =
        Except.ok ((s.takeWhile isdigit).foldl (fun a d => a * 10 + (d - 48)) acc,
          (s.takeWhile isdigit).length) := by
  intro s
  induction s with
  | nil => intro acc h; simp at h
  | cons c rest ih =>
    intro acc h
    simp only [strtoul_loop, List.takeWhile_cons] at h ⊢
    by_cases hc : isdigit c = true
    · simp only [hc, if_true, List.length_cons, List.foldl_cons] at h ⊢
      rw [ih (acc * 10 + (c - 48)) (by omega)]
    · simp only [hc, Bool.false_eq_true, if_false, List.length_nil, List.foldl_nil]

theorem take_length_takeWhile (P : Nat → Bool) (l : List Nat) :
    l.take (l.takeWhile P).length = l.takeWhile P := by
  induction l with
  | nil => rfl
  | cons a l ih =>
    simp only [List.takeWhile_cons]
    split
    · simp [ih]
    · rfl

theorem scan_step_digit (c : Nat) (rest : List Nat) (p : Nat) (hc : isdigit c = true) :
    scan_step (c :: rest) p =
      match strtoul (c :: rest) with
      | Except.error e => Except.error e
      | Except.ok (v, n) =>
        Except.ok (n, some { new_token TokenKind.TK_NUM p 0 with val := v, len := n }) := by
  have h47 : c ≠ 47 := by rintro rfl; simp [isdigit] at hc
  have hsp : isspace c = false := by
    simp only [isdigit, Bool.and_eq_true, decide_eq_true_eq] at hc
    simp only [isspace, Bool.or_eq_false_iff, beq_eq_false_iff_ne, ne_eq,
      Bool.and_eq_false_imp, decide_eq_true_eq, decide_eq_false_iff_not]
    omega
  simp only [scan_step, startswith, if_neg h47, hsp, hc, Bool.false_eq_true, if_false, if_true]

/-- C13: with the cursor (offset `p`) at a decimal digit, and a byte that is no digit
readable after the run of digits that starts there, the loop appends a numeric token
whose span is exactly that maximal run and moves the cursor to its end; the value of
the token is the base-10 value of the run when that is below 2^31 (for such a value
the conversion of the `strtoul` result to the type of the field changes nothing).  On
`12ab` the token is `12` and `ab` is a separate identifier. -/
theorem numeric_literal :
    (∀ (c : Nat) (rest : List Nat) (p : Nat), isdigit c = true →
      ((c :: rest).takeWhile isdigit).length < (c :: rest).length →
      ∃ tok, scan_step (c :: rest) p =
          Except.ok (((c :: rest).takeWhile isdigit).length, some tok) ∧
        tok.kind = TokenKind.TK_NUM ∧ tok.loc = p ∧
        tok.len = ((c :: rest).takeWhile isdigit).length ∧
        (c :: rest).take tok.len = (c :: rest).takeWhile isdigit ∧
        (∃ b, (c :: rest).get? tok.len = some b ∧ isdigit b = false) ∧
        (decimal_value ((c :: rest).takeWhile isdigit) < 2147483648 →
          tok.val = decimal_value ((c :: rest).takeWhile isdigit))) ∧
    tokenize buf_12ab = Except.ok
      [ { kind := TokenKind.TK_NUM, loc := 0, len := 2, val := 12, line_no := 1 },
        { kind := TokenKind.TK_IDENT, loc := 2, len := 2, line_no := 1 },
        { kind := TokenKind.TK_EOF, loc := 5, len := 0, line_no := 2 } ] := by
  refine ⟨?_, by decide⟩
  intro c rest p hc hrun
  have hloop := strtoul_loop_run (c :: rest) 0 hrun
  have hspec := strtoul_loop_spec hloop
  refine ⟨{ new_token TokenKind.TK_NUM p 0 with
      val := min ((List.takeWhile isdigit (c :: rest)).foldl
        (fun a d => a * 10 + (d - 48)) 0) ULONG_MAX,
      len := (List.takeWhile isdigit (c :: rest)).length }, ?_, rfl, rfl, rfl, ?_, ?_, ?_⟩
  · rw [scan_step_digit c rest p hc]
    simp only [strtoul, hloop]
  · exact take_length_takeWhile isdigit (c :: rest)
  · simpa [new_token] using hspec.2.2
  · intro hv
    simp only [new_token, decimal_value] at hv ⊢
    apply Nat.min_eq_left
    unfold ULONG_MAX
    omega

/-- C13 on the bytes `12ab`: the run is `12`, the value 12. -/
theorem numeric_literal_witness :
    isdigit 49 = true ∧
    (([49, 50, 97, 98, 10, 0] : List Nat).takeWhile isdigit).length <
      ([49, 50, 97, 98, 10, 0] : List Nat).length ∧
    decimal_value (([49, 50, 97, 98, 10, 0] : List Nat).takeWhile isdigit) = 12 ∧
    ∃ tok, scan_step [49, 50, 97, 98, 10, 0] 0 =
        Except.ok ((([49, 50, 97, 98, 10, 0] : List Nat).takeWhile isdigit).length, some tok) ∧
      tok.kind = TokenKind.TK_NUM ∧ tok.loc = 0 ∧ tok.val = 12 := by
  refine ⟨by decide, by decide, by decide, ?_⟩
  obtain ⟨tok, h1, h2, h3, _, _, _, h7⟩ :=
    numeric_literal.1 49 [50, 97, 98, 10, 0] 0 (by decide) (by decide)
  exact ⟨tok, h1, h2, h3, by rw [h7 (by decide)]; decide⟩

/-- C17: the buffer `int x = 1 + 2; // comment` gives exactly the eight tokens keyword `int`,
identifier `x`, punctuator `=`, number 1, punctuator `+`, number 2, punctuator `;`,
end-of-stream, in that order, with these texts, and the span of every token lies
before the comment (offsets 15 to 24) or after it. -/
theorem end_to_end :
    tokenize buf_end_to_end = Except.ok toks_end_to_end ∧
    toks_end_to_end.map (fun t => t.text buf_end_to_end) =
      [[105, 110, 116], [120], [61], [49], [43], [50], [59], []] ∧
    (buf_end_to_end.drop 15).take 10 = [47, 47, 32, 99, 111, 109, 109, 101, 110, 116] ∧
    ∀ t ∈ toks_end_to_end, t.loc + t.len ≤ 15 ∨ 25 ≤ t.loc := by
  decide

theorem find_close_cons_cons (a b : Nat) (rest : List Nat) :
    find_close (a :: b :: rest) =
      if a = 42 ∧ b = 47 then some 0
      else
        match find_close (b :: rest) with
        | none => none
        | some j => some (j + 1) := by
  rw [find_close]

theorem strstr_eq_find_close :
    ∀ rest : List Nat, 0 ∈ rest →
      strstr rest [42, 47] = Except.ok (find_close (rest.take (first_nul rest))) := by
  intro rest
  induction rest with
  | nil => intro h; simp at h
  | cons c r ih =>
    intro h0
    rw [strstr_cons]
    by_cases hc : c = 0
    · rw [if_pos hc]
      simp [first_nul, hc, find_close]
    · rw [if_neg hc]
      have h0r : 0 ∈ r := by
        rcases List.mem_cons.mp h0 with h | h
        · exact absurd h.symm hc
        · exact h
      have hfn : first_nul (c :: r) = first_nul r + 1 := by simp [first_nul, hc]
      rw [hfn, List.take_succ_cons, ih h0r]
      cases r with
      | nil => simp at h0r
      | cons d r2 =>
        by_cases hd : d = 0
        · subst hd
          have hne : ¬(List.take [42, 47].length (c :: 0 :: r2) = [42, 47]) := by simp
          rw [if_neg hne]
          simp [first_nul, find_close]
        · have hfn2 : first_nul (d :: r2) = first_nul r2 + 1 := by simp [first_nul, hd]
          rw [hfn2, List.take_succ_cons, find_close_cons_cons]
          by_cases hm : c = 42 ∧ d = 47
          · rw [if_pos hm, if_pos (by simp [hm.1, hm.2])]
          · rw [if_neg hm, if_neg (by simpa using hm)]
            cases find_close (d :: List.take (first_nul r2) r2) <;> rfl

theorem scan_step_slash_star (rest : List Nat) (p : Nat) :
    scan_step (47 :: 42 :: rest) p =
      match strstr rest [42, 47] with
      | Except.error e => Except.error e
      | Except.ok none => Except.error (LexError.unclosed_block_comment p)
      | Except.ok (some i) => Except.ok (2 + i + 2, none) := by
  simp only [scan_step, startswith, if_true, if_neg (show (42 : Nat) ≠ 47 by decide),
    List.drop_succ_cons, List.drop_zero]

/-- C14 as stated fails: in `/*`, NUL, `*/`, newline the cursor is at a `/*` at offset 0 and
`*/` occurs at offset 3, before the terminator at offset 6, yet `tokenize` fails with
"unclosed block comment": `strstr` stops at the NUL byte at offset 2. -/
theorem block_comment_skip_counterexample :
    buf_nul_in_block.take 2 = [47, 42] ∧
    find_close ((buf_nul_in_block.drop 2).dropLast) = some 1 ∧
    buf_nul_in_block.length - 1 = 6 ∧
    tokenize buf_nul_in_block = Except.error (LexError.unclosed_block_comment 0) := by
  decide

/-- C14, amended: with the cursor at a `/*` at offset `p` (the bytes `rest` follow it and
hold a NUL byte): if `*/` occurs in `rest` before its first NUL byte, the cursor moves
to just past the first such occurrence and no token is appended; otherwise the
iteration, and `tokenize` when its loop gets to offset `p`, fails with "unclosed block
comment" reported at `p`.  So `/*/` does not close itself, and in `/* /* */x` the comment
ends at the first `*/`. -/
theorem block_comment_skip :
    (∀ (rest : List Nat) (p : Nat), 0 ∈ rest →
      (∀ j, find_close (rest.take (first_nul rest)) = some j →
        scan_step (47 :: 42 :: rest) p = Except.ok (2 + j + 2, none)) ∧
      (find_close (rest.take (first_nul rest)) = none →
        scan_step (47 :: 42 :: rest) p =
          Except.error (LexError.unclosed_block_comment p))) ∧
    (∀ (buf rest : List Nat) (p : Nat), CursorPath buf 0 p → buf.drop p = 47 :: 42 :: rest →
      0 ∈ rest → find_close (rest.take (first_nul rest)) = none →
      tokenize buf = Except.error (LexError.unclosed_block_comment p)) ∧
    tokenize buf_slash_star_slash = Except.error (LexError.unclosed_block_comment 0) ∧
    tokenize buf_nested_comment = Except.ok
      [ { kind := TokenKind.TK_IDENT, loc := 8, len := 1, line_no := 1 },
        { kind := TokenKind.TK_EOF, loc := 10, len := 0, line_no := 2 } ] := by
  have hstep : ∀ (rest : List Nat) (p : Nat), 0 ∈ rest →
      (∀ j, find_close (rest.take (first_nul rest)) = some j →
        scan_step (47 :: 42 :: rest) p = Except.ok (2 + j + 2, none)) ∧
      (find_close (rest.take (first_nul rest)) = none →
        scan_step (47 :: 42 :: rest) p =
          Except.error (LexError.unclosed_block_comment p)) := by
    intro rest p h0
    rw [scan_step_slash_star, strstr_eq_find_close rest h0]
    constructor
    · intro j hj
      rw [hj]
    · intro hn
      rw [hn]
  refine ⟨hstep, ?_, by decide, by decide⟩
  intro buf rest p hpath hdrop h0 hn
  have herr := (hstep rest p h0).2 hn
  rw [← hdrop] at herr
  rw [tokenize_error_iff]
  unfold scan
  have hget := (drop_eq_cons hdrop).1
  have hlt := get?_lt hget
  exact tokenize_loop_error_of_path hpath 47 _ hget (by decide) herr (buf.length + 1) (by omega)

/-- C14, amended, on `/*x*/y` and on `/*x`. -/
theorem block_comment_skip_witness :
    (0 : Nat) ∈ [120, 42, 47, 121, 10, 0] ∧
    find_close (([120, 42, 47, 121, 10, 0] : List Nat).take
      (first_nul [120, 42, 47, 121, 10, 0])) = some 1 ∧
    scan_step [47, 42, 120, 42, 47, 121, 10, 0] 0 = Except.ok (2 + 1 + 2, none) ∧
    (0 : Nat) ∈ [120, 10, 0] ∧
    find_close (([120, 10, 0] : List Nat).take (first_nul [120, 10, 0])) = none ∧
    scan_step [47, 42, 120, 10, 0] 0 = Except.error (LexError.unclosed_block_comment 0) :=
  ⟨by decide, by decide,
    (block_comment_skip.1 [120, 42, 47, 121, 10, 0] 0 (by decide)).1 1 (by decide),
    by decide, by decide,
    (block_comment_skip.1 [120, 10, 0] 0 (by decide)).2 (by decide)⟩

theorem tokenize_loop_error_path (buf : List Nat) :
    ∀ (fuel q : Nat) (e : LexError), tokenize_loop fuel (buf.drop q) q = Except.error e →
      ∃ p, CursorPath buf q p ∧
        ((buf.drop p = [] ∧ e = LexError.out_of_bounds) ∨ e = LexError.out_of_fuel ∨
          ∃ c, buf.get? p = some c ∧ c ≠ 0 ∧ scan_step (buf.drop p) p = Except.error e) := by
  intro fuel
  induction fuel with
  | zero =>
    intro q e h
    simp only [tokenize_loop] at h
    cases h
    exact ⟨q, CursorPath.here q, Or.inr (Or.inl rfl)⟩
  | succ fuel ih =>
    intro q e h
    simp only [tokenize_loop] at h
    split at h
    · rename_i hs
      cases h
      exact ⟨q, CursorPath.here q, Or.inl ⟨hs, rfl⟩⟩
    · rename_i c rest hs
      have hc := (drop_eq_cons hs).1
      by_cases h0 : c = 0
      · rw [if_pos h0] at h
        cases h
      · rw [if_neg h0] at h
        split at h
        · rename_i e2 hstep
          cases h
          exact ⟨q, CursorPath.here q, Or.inr (Or.inr ⟨c, hc, h0, hstep⟩)⟩
        · rename_i k t hstep
          split at h
          · rename_i e2 hl
            cases h
            rw [List.drop_drop] at hl
            obtain ⟨p, hp, hcase⟩ := ih (q + k) _ hl
            exact ⟨p, CursorPath.step q c k t p hc h0 hstep hp, hcase⟩
          · cases h

theorem string_literal_end_loop_error_kind (st : Nat) :
    ∀ (n : Nat) (s : List Nat) (p : Nat) (e : LexError), s.length ≤ n →
      string_literal_end_loop st s p = Except.error e →
      e = LexError.out_of_bounds ∨ e = LexError.unclosed_string_literal st := by
  intro n
  induction n with
  | zero =>
    intro s p e hn h
    have : s = [] := List.length_eq_zero.mp (Nat.le_zero.mp hn)
    subst this
    simp [string_literal_end_loop] at h
    exact Or.inl h.symm
  | succ n ih =>
    intro s p e hn h
    cases s with
    | nil => simp [string_literal_end_loop] at h; exact Or.inl h.symm
    | cons c rest =>
      rw [string_literal_end_loop_cons] at h
      split at h
      · cases h
      · split at h
        · cases h; exact Or.inr rfl
        · split at h
          · split at h
            · cases h; exact Or.inl rfl
            · rename_i x rest2
              exact ih rest2 _ e (by simp at hn; omega) h
          · exact ih rest _ e (by simp at hn; omega) h

theorem read_escaped_char_error_kind {s : List Nat} {q : Nat} {e : LexError}
    (h : read_escaped_char s q = Except.error e) :
    e = LexError.out_of_bounds ∨ e = LexError.invalid_hex_escape (q + 1) := by
  unfold read_escaped_char at h
  split at h
  · cases h; exact Or.inl rfl
  · split at h
    · split at h
      · cases h; exact Or.inl rfl
      · split at h
        · split at h
          · cases h; exact Or.inl rfl
          · split at h <;> cases h
        · cases h
    · split at h
      · split at h
        · cases h; exact Or.inl rfl
        · split at h
          · cases h; exact Or.inr rfl
          · split at h
            · rename_i e2 h2
              cases h
              exact Or.inl (read_hex_loop_error h2)
            · cases h
      · cases h

theorem decode_loop_error_kind :
    ∀ (fuel : Nat) (s : List Nat) (p e : Nat) (err : LexError),
      decode_loop fuel s p e = Except.error err →
      err = LexError.out_of_bounds ∨ err = LexError.out_of_fuel ∨
        ∃ q, err = LexError.invalid_hex_escape q := by
  intro fuel
  induction fuel with
  | zero =>
    intro s p e err h
    simp only [decode_loop] at h
    split at h
    · cases h; exact Or.inr (Or.inl rfl)
    · cases h
  | succ fuel ih =>
    intro s p e err h
    simp only [decode_loop] at h
    split at h
    · split at h
      · cases h; exact Or.inl rfl
      · split at h
        · split at h
          · rename_i e2 h2
            cases h
            rcases read_escaped_char_error_kind h2 with h3 | h3
            · exact Or.inl h3
            · exact Or.inr (Or.inr ⟨_, h3⟩)
          · split at h
            · rename_i e2 h2
              cases h
              exact ih _ _ _ _ h2
            · cases h
        · split at h
          · rename_i e2 h2
            cases h
            exact ih _ _ _ _ h2
          · cases h
    · cases h

theorem read_string_literal_error_kind {s : List Nat} {start : Nat} {err : LexError}
    (h : read_string_literal s start = Except.error err) :
    err = LexError.out_of_bounds ∨ err = LexError.out_of_fuel ∨
      err = LexError.unclosed_string_literal (start + 1) ∨
      ∃ q, err = LexError.invalid_hex_escape q := by
  unfold read_string_literal string_literal_end at h
  split at h
  · rename_i e2 h2
    cases h
    rcases string_literal_end_loop_error_kind _ _ _ _ _ (Nat.le_refl _) h2 with h3 | h3
    · exact Or.inl h3
    · exact Or.inr (Or.inr (Or.inl h3))
  · split at h
    · rename_i e2 h2
      cases h
      rcases decode_loop_error_kind _ _ _ _ _ h2 with h3 | h3 | h3
      · exact Or.inl h3
      · exact Or.inr (Or.inl h3)
      · exact Or.inr (Or.inr (Or.inr h3))
    · split at h
      · cases h
      · cases h; exact Or.inl rfl

theorem scan_step_invalid_token {s : List Nat} {p i : Nat}
    (h : scan_step s p = Except.error (LexError.invalid_token i)) :
    i = p ∧ ∃ c rest, s = c :: rest ∧ no_rule_byte c := by
  generalize he : LexError.invalid_token i = e at h
  cases scan_step_err s p e h with
  | line_test e h1 => rw [startswith_error h1] at he; cases he
  | line_comment e _ h2 => rw [skip_line_error h2] at he; cases he
  | block_test e _ h2 => rw [startswith_error h2] at he; cases he
  | block_comment e _ _ h3 => rw [strstr_error h3] at he; cases he
  | unclosed_block_comment _ _ _ => cases he
  | empty _ _ _ => cases he
  | num c rest e _ _ _ _ _ hv =>
    unfold strtoul at hv
    split at hv
    · rename_i e2 h2
      cases hv
      rw [strtoul_loop_error h2] at he; cases he
    · cases hv
  | str c rest e _ _ _ _ _ _ hr =>
    rcases read_string_literal_error_kind hr with h3 | h3 | h3 | ⟨q, h3⟩ <;>
      rw [h3] at he <;> cases he
  | ident c rest e _ _ _ _ _ _ _ hl => rw [ident_loop_error hl] at he; cases he
  | punct c rest e _ _ _ _ _ _ _ hr => rw [read_punct_loop_error _ _ hr] at he; cases he
  | invalid_token c rest hs _ _ hsp hd hq hi hr =>
    cases he
    refine ⟨rfl, c, rest, hs, hsp, hd, hq, hi, ?_⟩
    rcases read_punct_loop_spec s punct_kw 0 hr with ⟨k, hk, _, _, h3, _⟩ | ⟨_, c2, rest2, hs2, h3⟩
    · simp [punct_kw] at hk
      rcases hk with rfl | rfl | rfl | rfl | rfl <;> simp at h3
    · rw [hs] at hs2
      cases hs2
      by_contra hp
      have hp2 : ispunct c = true := by simpa using hp
      rw [if_pos hp2] at h3
      cases h3

theorem scan_step_no_rule (c : Nat) (rest : List Nat) (p : Nat) (h : no_rule_byte c) :
    scan_step (c :: rest) p = Except.error (LexError.invalid_token p) := by
  obtain ⟨hsp, hd, hq, hi, hp⟩ := h
  have hne : ∀ a, ispunct a = true → c ≠ a := by
    rintro a ha rfl
    rw [ha] at hp
    cases hp
  have h47 := hne 47 (by decide)
  have h61 := hne 61 (by decide)
  have h33 := hne 33 (by decide)
  have h60 := hne 60 (by decide)
  have h62 := hne 62 (by decide)
  have h45 := hne 45 (by decide)
  simp only [scan_step, startswith, if_neg h47, hsp, hd, hi, if_neg hq, Bool.false_eq_true,
    if_false, read_punct, punct_kw, read_punct_loop, if_neg h61, if_neg h33, if_neg h60,
    if_neg h62, if_neg h45, hp]
  simp

theorem printable_has_rule (b : Nat) (h : 32 ≤ b ∧ b ≤ 126) : ¬no_rule_byte b := by
  intro ⟨hsp, hd, hq, hi, hp⟩
  simp only [isspace, isdigit, is_ident1, ispunct, Bool.or_eq_false_iff, Bool.and_eq_false_imp,
    beq_eq_false_iff_ne, decide_eq_true_eq, decide_eq_false_iff_not, ne_eq] at hsp hd hi hp
  omega

/-- C15: `tokenize` fails with "invalid token" reported at offset `i` exactly when its loop
gets to offset `i` and the byte there is not NUL and is none of whitespace, decimal
digit, double quote, letter or underscore, ASCII punctuation character.  So a buffer
whose bytes are NUL, whitespace or printable ASCII never gives that error. -/
theorem invalid_token_iff :
    (∀ (buf : List Nat) (i : Nat),
      tokenize buf = Except.error (LexError.invalid_token i) ↔
        (CursorPath buf 0 i ∧ ∃ c, buf.get? i = some c ∧ c ≠ 0 ∧ no_rule_byte c)) ∧
    (∀ buf : List Nat, (∀ b ∈ buf, b = 0 ∨ isspace b = true ∨ (32 ≤ b ∧ b ≤ 126)) →
      ∀ i, tokenize buf ≠ Except.error (LexError.invalid_token i)) := by
  have hiff : ∀ (buf : List Nat) (i : Nat),
      tokenize buf = Except.error (LexError.invalid_token i) ↔
        (CursorPath buf 0 i ∧ ∃ c, buf.get? i = some c ∧ c ≠ 0 ∧ no_rule_byte c) := by
    intro buf i
    constructor
    · intro h
      rw [tokenize_error_iff] at h
      unfold scan at h
      obtain ⟨p, hp, hcase⟩ := tokenize_loop_error_path buf (buf.length + 1) 0 _
        (by simpa using h)
      rcases hcase with ⟨_, h2⟩ | h2 | ⟨c, hc, hc0, hstep⟩
      · cases h2
      · cases h2
      · obtain ⟨hi, c2, rest, hs, hno⟩ := scan_step_invalid_token hstep
        subst hi
        have hc2 := (drop_eq_cons hs).1
        rw [hc] at hc2
        cases hc2
        exact ⟨hp, c, hc, hc0, hno⟩
    · rintro ⟨hpath, c, hc, hc0, hno⟩
      obtain ⟨rest, hr⟩ := get?_drop_cons hc
      have hstep : scan_step (buf.drop i) i = Except.error (LexError.invalid_token i) := by
        rw [hr]
        exact scan_step_no_rule c rest i hno
      rw [tokenize_error_iff]
      unfold scan
      have hlt := get?_lt hc
      simpa using
        tokenize_loop_error_of_path hpath c _ hc hc0 hstep (buf.length + 1) (by omega)
  refine ⟨hiff, ?_⟩
  intro buf hall i h
  obtain ⟨_, c, hc, hc0, hno⟩ := (hiff buf i).mp h
  rcases hall c (List.get?_mem hc) with h0 | hsp | hpr
  · exact hc0 h0
  · rw [hno.1] at hsp
    cases hsp
  · exact printable_has_rule c hpr hno

/-- C15 on the buffer `a`, byte 1, newline: the loop gets to offset 1 through the
identifier, the byte 1 matches no rule, and `tokenize` fails there. -/
theorem invalid_token_iff_witness :
    CursorPath buf_control_byte 0 1 ∧ buf_control_byte.get? 1 = some 1 ∧ no_rule_byte 1 ∧
    tokenize buf_control_byte = Except.error (LexError.invalid_token 1) ∧
    (∀ b ∈ buf_int_x, b = 0 ∨ isspace b = true ∨ (32 ≤ b ∧ b ≤ 126)) ∧
    tokenize buf_int_x ≠ Except.error (LexError.invalid_token 1) :=
  have hpath : CursorPath buf_control_byte 0 1 :=
    CursorPath.step 0 97 1 (some (new_token TokenKind.TK_IDENT 0 1)) 1 (by decide) (by decide)
      (by decide) (CursorPath.here 1)
  ⟨hpath, by decide, by decide,
    (invalid_token_iff.1 buf_control_byte 1).mpr ⟨hpath, 1, by decide, by decide, by decide⟩,
    by decide, invalid_token_iff.2 buf_int_x (by decide) 1⟩

theorem memcmp_eq_true :
    ∀ (a b : List Nat) (n : Nat), memcmp_eq a b n = Except.ok true →
      n ≤ b.length ∧ a.take n = b.take n := by
  intro a b n
  induction n generalizing a b with
  | zero => intro _; simp
  | succ n ih =>
    intro h
    cases a with
    | nil => simp [memcmp_eq] at h
    | cons x a =>
      cases b with
      | nil => simp [memcmp_eq] at h
      | cons y b =>
        simp only [memcmp_eq] at h
        split at h
        · rename_i hxy
          obtain ⟨h1, h2⟩ := ih a b h
          subst hxy
          simp [h2]
          omega
        · cases h

theorem equal_true_iff (buf : List Nat) (tok : Token) (op : List Nat) (hop : 0 ∉ op)
    (hlen : tok.loc + tok.len ≤ buf.length) :
    equal buf tok op = Except.ok true ↔ tok.text buf = op := by
  constructor
  · intro h
    unfold equal at h
    split at h
    · cases h
    · cases h
    · rename_i hm
      obtain ⟨h1, h2⟩ := memcmp_eq_true _ _ _ hm
      split at h
      · cases h
      · rename_i c hc
        simp only [Except.ok.injEq, beq_iff_eq] at h
        subst h
        have hl : tok.len = op.length := by
          by_contra hne
          have hlt2 := get?_lt hc
          have hlt : tok.len < op.length := by
            simp at hlt2
            omega
          rw [List.get?_eq_getElem?, List.getElem?_append_left hlt] at hc
          exact hop (List.getElem?_mem hc)
        unfold Token.text
        rw [h2, hl]
        simp
  · intro h
    have h0 : 0 ∉ tok.text buf := by rw [h]; exact hop
    rw [equal_spec buf tok op hop hlen h0]
    simp [h]

theorem ScanOut.in_bounds {buf : List Nat} {p : Nat} {toks : List Token}
    (h : ScanOut buf p toks) :
    ∃ pe, buf.get? pe = some 0 ∧ ∀ t ∈ toks, t.loc + t.len ≤ pe := by
  induction h with
  | eof p hp => exact ⟨p, hp, by simp [new_token]⟩
  | skip p k c toks _ _ _ _ ih => exact ih
  | tok p k c t toks _ _ hstep hrest ih =>
    obtain ⟨pe, hpe, hall⟩ := ih
    refine ⟨pe, hpe, ?_⟩
    intro t2 ht2
    rcases List.mem_cons.mp ht2 with rfl | hmem
    · obtain ⟨hl, hk, _⟩ := StepOk.token hstep
      obtain ⟨init, pe2, htoks, hle, hpe2, _⟩ := ScanOut.ends hrest
      have := hall (new_token TokenKind.TK_EOF pe2 0) (by rw [htoks]; simp)
      simp [new_token] at this
      omega
    · exact hall t2 hmem

theorem text_nul_free_of_terminated {buf : List Nat} (h : newline_terminated buf) {pe : Nat}
    (hpe : buf.get? pe = some 0) (t : Token) (ht : t.loc + t.len ≤ pe) :
    0 ∉ t.text buf := by
  obtain ⟨text, rfl, h0⟩ := h
  intro hmem
  unfold Token.text at hmem
  obtain ⟨i, hi⟩ := List.mem_iff_getElem?.mp hmem
  rw [List.getElem?_take] at hi
  split at hi
  · rename_i hlt
    rw [List.getElem?_drop] at hi
    have hlt2 : pe < (text ++ [10, 0]).length := get?_lt hpe
    simp at hlt2
    by_cases hin : t.loc + i < text.length
    · rw [List.getElem?_append_left hin] at hi
      exact h0 (List.getElem?_mem hi)
    · have hpe2 : pe = text.length + 1 := by
        by_contra hne
        have hpl : pe = text.length := by
          by_contra hne2
          have : pe < text.length := by omega
          rw [List.get?_eq_getElem?, List.getElem?_append_left this] at hpe
          exact h0 (List.getElem?_mem hpe)
        subst hpl
        rw [List.get?_eq_getElem?, List.getElem?_append_right (Nat.le_refl _)] at hpe
        simp at hpe
      have hi2 : t.loc + i = text.length := by omega
      rw [hi2, List.getElem?_append_right (Nat.le_refl _)] at hi
      simp at hi
  · cases hi

/-- C16 does not hold of a token whose span has a NUL byte: the string token of
`buf_nul_string` has the four bytes quote, backslash, NUL, quote; the NUL-free text
quote, backslash is a proper prefix of it, and `equal` is not false: `memcmp` goes on
past the terminator of the text, out of its bounds. -/
theorem equal_counterexample :
    tokenize buf_nul_string =
      Except.ok [tok_nul_string, { kind := TokenKind.TK_EOF, loc := 5, len := 0, line_no := 0 }] ∧
    tok_nul_string.text buf_nul_string = [34, 92, 0, 34] ∧
    0 ∉ [34, 92] ∧ [34, 92] <+: tok_nul_string.text buf_nul_string ∧
    [34, 92] ≠ tok_nul_string.text buf_nul_string ∧
    equal buf_nul_string tok_nul_string [34, 92] = Except.error LexError.out_of_bounds := by
  decide

/-- C16, amended: for every token of a sequence returned by `tokenize` and every NUL-free text
`s`, `equal(tok, s)` is true exactly when `s` is the text of the span; when the span has
no NUL byte (as every span has when no NUL byte precedes the terminator of the buffer),
`equal` returns whether the two are the same, so it is false when `s` is a proper prefix
of the token text; and it is false when the token text is a proper prefix of `s`. -/
theorem equal_iff_span_text (buf : List Nat) (toks : List Token)
    (h : tokenize buf = Except.ok toks) (tok : Token) (hmem : tok ∈ toks) (s : List Nat)
    (hs : 0 ∉ s) :
    (equal buf tok s = Except.ok true ↔ (s.length = tok.len ∧ tok.text buf = s)) ∧
    (0 ∉ tok.text buf → equal buf tok s = Except.ok (decide (tok.text buf = s))) ∧
    (0 ∉ tok.text buf → s <+: tok.text buf → s ≠ tok.text buf →
      equal buf tok s = Except.ok false) ∧
    (tok.text buf <+: s → tok.text buf ≠ s → equal buf tok s = Except.ok false) ∧
    (newline_terminated buf → 0 ∉ tok.text buf) := by
  obtain ⟨raw, hraw, rfl⟩ := (tokenize_ok_iff buf toks).mp h
  obtain ⟨t, ht, rfl⟩ := List.mem_map.mp hmem
  obtain ⟨pe, hpe, hall⟩ := ScanOut.in_bounds (scan_ok buf raw hraw)
  have hb := hall t ht
  have hlt := get?_lt hpe
  have hlen : (Token.finish buf t).loc + (Token.finish buf t).len ≤ buf.length := by
    rw [Token.finish_loc, Token.finish_len]
    omega
  have htl : ((Token.finish buf t).text buf).length = (Token.finish buf t).len := by
    unfold Token.text
    rw [List.length_take, List.length_drop]
    omega
  have hfree : ∀ s2, 0 ∉ (Token.finish buf t).text buf → 0 ∉ s2 →
      equal buf (Token.finish buf t) s2 =
        Except.ok (decide ((Token.finish buf t).text buf = s2)) :=
    fun s2 h0 hs2 => equal_spec buf _ s2 hs2 hlen h0
  refine ⟨?_, fun h0 => hfree s h0 hs, ?_, ?_, ?_⟩
  · rw [equal_true_iff buf _ s hs hlen]
    constructor
    · intro h2
      exact ⟨by rw [← htl, h2], h2⟩
    · exact fun h2 => h2.2
  · intro h0 _ hne
    rw [hfree s h0 hs]
    simp [Ne.symm hne]
  · intro hpre hne
    have h0 : 0 ∉ (Token.finish buf t).text buf := fun hm => hs (hpre.subset hm)
    rw [hfree s h0 hs]
    simp [hne]
  · intro hnt
    rw [Token.finish_text]
    exact text_nul_free_of_terminated hnt hpe t hb

/-- C16 on `int x;`: the keyword token is equal to `int` and to neither `in` nor `intx`. -/
theorem equal_iff_span_text_witness :
    tokenize buf_int_x = Except.ok toks_int_x ∧
    equal buf_int_x { kind := TokenKind.TK_KEYWORD, loc := 0, len := 3, line_no := 1 }
      [105, 110, 116] = Except.ok true ∧
    equal buf_int_x { kind := TokenKind.TK_KEYWORD, loc := 0, len := 3, line_no := 1 }
      [105, 110] = Except.ok false ∧
    equal buf_int_x { kind := TokenKind.TK_KEYWORD, loc := 0, len := 3, line_no := 1 }
      [105, 110, 116, 120] = Except.ok false :=
  ⟨by decide,
    (equal_iff_span_text buf_int_x toks_int_x (by decide) _ (by decide) [105, 110, 116]
      (by decide)).1.mpr (by decide),
    (equal_iff_span_text buf_int_x toks_int_x (by decide) _ (by decide) [105, 110]
      (by decide)).2.2.1 (by decide) (by decide) (by decide),
    (equal_iff_span_text buf_int_x toks_int_x (by decide) _ (by decide) [105, 110, 116, 120]
      (by decide)).2.2.2.1 (by decide) (by decide)⟩

theorem verror_at_line_start_spec (buf : List Nat) :
    ∀ loc, loc ≤ buf.length →
      ∃ line, verror_at_line_start buf loc = Except.ok line ∧ line ≤ loc ∧
        (line = 0 ∨ buf.get? (line - 1) = some 10) ∧
        ∀ i, line ≤ i → i < loc → buf.get? i ≠ some 10 := by
  intro loc
  induction loc with
  | zero => intro _; exact ⟨0, rfl, Nat.le_refl _, Or.inl rfl, fun i _ hi => absurd hi (by omega)⟩
  | succ loc ih =>
    intro hle
    have hlt : loc < buf.length := by omega
    obtain ⟨c, hc⟩ : ∃ c, buf.get? loc = some c := ⟨buf.get ⟨loc, hlt⟩, List.get?_eq_get hlt⟩
    simp only [verror_at_line_start, hc]
    by_cases h10 : c = 10
    · rw [if_pos h10]
      subst h10
      exact ⟨loc + 1, rfl, Nat.le_refl _, Or.inr (by simpa using hc), fun i h1 h2 => by omega⟩
    · rw [if_neg h10]
      obtain ⟨line, h1, h2, h3, h4⟩ := ih (by omega)
      refine ⟨line, h1, by omega, h3, ?_⟩
      intro i hi1 hi2
      by_cases hil : i = loc
      · subst hil
        rw [hc]
        simpa using h10
      · exact h4 i hi1 (by omega)

theorem verror_at_line_end_spec :
    ∀ (s : List Nat) (n : Nat), verror_at_line_end s = Except.ok n →
      s.get? n = some 10 ∧ ∀ i, i < n → s.get? i ≠ some 10 := by
  intro s
  induction s with
  | nil => intro n h; simp [verror_at_line_end] at h
  | cons c rest ih =>
    intro n h
    rw [verror_at_line_end] at h
    by_cases h10 : c = 10
    · rw [if_pos h10] at h
      cases h
      subst h10
      exact ⟨rfl, fun i hi => absurd hi (by omega)⟩
    · rw [if_neg h10] at h
      split at h
      · cases h
      · rename_i m hm
        cases h
        obtain ⟨h1, h2⟩ := ih m hm
        refine ⟨by simpa using h1, ?_⟩
        intro i hi
        cases i with
        | zero => simpa using h10
        | succ i => simpa using h2 i (by omega)

theorem verror_at_line_end_no_newline :
    ∀ s : List Nat, 10 ∉ s → verror_at_line_end s = Except.error LexError.out_of_bounds := by
  intro s
  induction s with
  | nil => intro _; rfl
  | cons c rest ih =>
    intro h
    have hc : c ≠ 10 := fun hc => h (by simp [hc])
    have hr : 10 ∉ rest := fun hr => h (by simp [hr])
    rw [verror_at_line_end, if_neg hc, ih hr]

theorem eof_offset_of_terminated {buf : List Nat} (h : newline_terminated buf) {pe : Nat}
    (hpe : buf.get? pe = some 0) : pe + 1 = buf.length ∧ buf.drop pe = [0] := by
  obtain ⟨text, rfl, h0⟩ := h
  have hlt := get?_lt hpe
  simp at hlt
  have hpe2 : pe = text.length + 1 := by
    by_contra hne
    by_cases hpl : pe = text.length
    · subst hpl
      rw [List.get?_eq_getElem?, List.getElem?_append_right (Nat.le_refl _)] at hpe
      simp at hpe
    · have : pe < text.length := by omega
      rw [List.get?_eq_getElem?, List.getElem?_append_left this] at hpe
      exact h0 (List.getElem?_mem hpe)
  subst hpe2
  constructor
  · simp
  · rw [List.drop_append_eq_append_drop]
    simp

/-- C18: for the tokens of a sequence returned by `tokenize` on a buffer that ends with a
newline and the terminator, `error_tok` finds the line in the buffer for every token
but the end-of-stream token: `line` stops at the buffer start or just after a newline,
`end` stops on a newline at or after the token and before the terminator.  For the
end-of-stream token of a buffer without NUL byte before its terminator, the forward
scan starts on the terminator, which is no newline, and reads past the end of the
buffer. -/
theorem error_tok_line (buf : List Nat) (toks : List Token)
    (h : tokenize buf = Except.ok toks) (hnl : ends_newline_nul buf) :
    (∀ t ∈ toks, t.kind ≠ TokenKind.TK_EOF →
      ∃ line e, error_tok buf t = Except.ok (t.line_no, line, e) ∧
        line ≤ t.loc ∧ t.loc ≤ e ∧ e + 1 < buf.length ∧ buf.get? e = some 10 ∧
        (line = 0 ∨ buf.get? (line - 1) = some 10) ∧
        ∀ i, line ≤ i → i < e → buf.get? i ≠ some 10) ∧
    (newline_terminated buf → ∀ t ∈ toks, t.kind = TokenKind.TK_EOF →
      t.loc + 1 = buf.length ∧ buf.get? t.loc = some 0 ∧
      verror_at_line_start buf t.loc = Except.ok t.loc ∧
      verror_at_line_end (buf.drop t.loc) = Except.error LexError.out_of_bounds ∧
      error_tok buf t = Except.error LexError.out_of_bounds) := by
  obtain ⟨raw, hraw, rfl⟩ := (tokenize_ok_iff buf toks).mp h
  have hscan := scan_ok buf raw hraw
  obtain ⟨init, pe, hinit, _, hpe, hall⟩ := ScanOut.ends hscan
  have hpelt := get?_lt hpe
  have hkind : ∀ t : Token, (Token.finish buf t).kind = TokenKind.TK_EOF →
      t.kind = TokenKind.TK_EOF := by
    intro t hk
    unfold Token.finish at hk
    split at hk
    · cases hk
    · rwa [Token.with_line_kind] at hk
  obtain ⟨u, hu⟩ := hnl
  have hlen : buf.length = u.length + 2 := by rw [hu]; simp
  constructor
  · intro t2 ht2 hk
    obtain ⟨t, ht, rfl⟩ := List.mem_map.mp ht2
    rw [hinit] at ht
    rcases List.mem_append.mp ht with hin | hlast
    · have hlt := (hall t hin).2.2
      have hdrop : ends_newline_nul (buf.drop t.loc) := by
        refine ⟨u.drop t.loc, ?_⟩
        rw [hu, List.drop_append_eq_append_drop]
        have : t.loc - u.length = 0 := by
          by_contra hne
          have hpe1 : pe = u.length + 1 := by omega
          have hloc : t.loc = u.length + 1 := by omega
          omega
        rw [this]
        simp
      obtain ⟨n, hn⟩ := verror_at_line_end_total hdrop
      obtain ⟨hn1, hn2⟩ := verror_at_line_end_spec _ n hn
      obtain ⟨line, hl1, hl2, hl3, hl4⟩ := verror_at_line_start_spec buf t.loc (by omega)
      have hget : buf.get? (t.loc + n) = some 10 := by
        rw [List.get?_eq_getElem?, List.getElem?_drop] at hn1
        rwa [List.get?_eq_getElem?]
      have hnlt := get?_lt hget
      have hne : t.loc + n + 1 ≠ buf.length := by
        intro heq
        have : buf.get? (t.loc + n) = some 0 := by
          rw [hu, List.get?_eq_getElem?, List.getElem?_append_right (by omega)]
          have : t.loc + n - u.length = 1 := by omega
          rw [this]
          rfl
        rw [this] at hget
        cases hget
      refine ⟨line, t.loc + n, ?_, ?_, ?_, by omega, hget, hl3, ?_⟩
      · unfold error_tok verror_at
        rw [Token.finish_loc, hl1, hn]
      · rw [Token.finish_loc]; exact hl2
      · rw [Token.finish_loc]; omega
      · intro i hi1 hi2
        by_cases hil : i < t.loc
        · exact hl4 i hi1 hil
        · have := hn2 (i - t.loc) (by omega)
          rw [List.get?_eq_getElem?, List.getElem?_drop] at this
          rw [List.get?_eq_getElem?]
          have heq : t.loc + (i - t.loc) = i := by omega
          rwa [heq] at this
    · simp at hlast
      subst hlast
      exfalso
      apply hk
      unfold Token.finish
      rw [if_neg (by simp [new_token]), Token.with_line_kind]
      rfl
  · intro hnt t2 ht2 hk
    obtain ⟨t, ht, rfl⟩ := List.mem_map.mp ht2
    have hk2 := hkind t hk
    rw [hinit] at ht
    rcases List.mem_append.mp ht with hin | hlast
    · exact absurd hk2 (hall t hin).1
    · simp at hlast
      subst hlast
      obtain ⟨h1, h2⟩ := eof_offset_of_terminated hnt hpe
      have hloc : (Token.finish buf (new_token TokenKind.TK_EOF pe 0)).loc = pe := by
        rw [Token.finish_loc]; rfl
      have hend : verror_at_line_end (buf.drop pe) = Except.error LexError.out_of_bounds := by
        rw [h2]; rfl
      have hstart : verror_at_line_start buf pe = Except.ok pe := by
        have hpe1 : pe = u.length + 1 := by omega
        have hg : buf.get? u.length = some 10 := by
          rw [hu, List.get?_eq_getElem?, List.getElem?_append_right (Nat.le_refl _)]
          simp
        rw [hpe1]
        simp only [verror_at_line_start, hg]
        simp
      rw [hloc]
      refine ⟨h1, hpe, hstart, hend, ?_⟩
      unfold error_tok verror_at
      rw [hloc, hstart, hend]

/-- C18 on `int x;`: the diagnostic at the keyword token finds the line from offset 0 to the
newline at offset 6; the one at the end-of-stream token reads out of the buffer. -/
theorem error_tok_line_witness :
    tokenize buf_int_x = Except.ok toks_int_x ∧
    error_tok buf_int_x { kind := TokenKind.TK_KEYWORD, loc := 0, len := 3, line_no := 1 } =
      Except.ok (1, 0, 6) ∧
    error_tok buf_int_x { kind := TokenKind.TK_EOF, loc := 7, len := 0, line_no := 2 } =
      Except.error LexError.out_of_bounds :=
  ⟨by decide, by decide,
    ((error_tok_line buf_int_x toks_int_x (by decide) ⟨[105, 110, 116, 32, 120, 59], rfl⟩).2
      ⟨[105, 110, 116, 32, 120, 59], rfl, by decide⟩ _ (by decide) rfl).2.2.2.2⟩

theorem string_literal_end_loop_escape (st : Nat) {rest : List Nat} {p e : Nat} {v : Int}
    {n : Nat} (hs : string_literal_end_loop st (92 :: rest) p = Except.ok e)
    (hr : read_escaped_char rest (p + 1) = Except.ok (v, n)) :
    string_literal_end_loop st (rest.drop n) (p + 1 + n) = Except.ok e := by
  obtain ⟨hn1, hn2, hhex⟩ := read_escaped_char_consumed hr
  rw [string_literal_end_loop_cons] at hs
  simp only [show (92 : Nat) ≠ 34 by decide, show ¬((92 : Nat) = 10 ∨ (92 : Nat) = 0) by decide,
    if_false, if_true] at hs
  cases rest with
  | nil => simp at hn2; omega
  | cons c0 rest2 =>
    simp only at hs
    have hskip := string_literal_end_loop_skip st (n - 1) rest2 (p + 2)
      (by simp at hn2; omega)
      (by
        intro b hb
        apply hhex b
        have : (c0 :: rest2).take n = c0 :: rest2.take (n - 1) := by
          cases n with
          | zero => omega
          | succ m => simp
        rw [this]
        simpa using hb)
    rw [hskip] at hs
    have h1 : (c0 :: rest2).drop n = rest2.drop (n - 1) := by
      cases n with
      | zero => omega
      | succ m => simp
    have h2 : p + 1 + n = p + 2 + (n - 1) := by omega
    rw [h1, h2]
    exact hs

theorem string_literal_end_loop_other (st : Nat) {c : Nat} {rest : List Nat} {p e : Nat}
    (hs : string_literal_end_loop st (c :: rest) p = Except.ok e) (hc : c ≠ 92) (hlt : p < e) :
    string_literal_end_loop st rest (p + 1) = Except.ok e := by
  rw [string_literal_end_loop_cons] at hs
  by_cases h34 : c = 34
  · rw [if_pos h34] at hs
    cases hs
    omega
  · rw [if_neg h34] at hs
    by_cases h10 : c = 10 ∨ c = 0
    · rw [if_pos h10] at hs
      cases hs
    · rw [if_neg h10, if_neg hc] at hs
      exact hs

theorem DecodePath.in_step {e : Nat} {t : List Nat} {p : Nat} {t2 : List Nat} {p2 : Nat}
    (h : DecodePath e t p t2 p2) (st : Nat)
    (hs : string_literal_end_loop st t p = Except.ok e) :
    string_literal_end_loop st t2 p2 = Except.ok e := by
  induction h with
  | here t p => exact hs
  | escape rest p v n t2 p2 _ hr _ ih => exact ih (string_literal_end_loop_escape st hs hr)
  | plain c rest p t2 p2 hlt hc _ ih =>
    exact ih (string_literal_end_loop_other st hs hc hlt)

theorem read_hex_loop_of_end (st : Nat) :
    ∀ (s : List Nat) (q e : Nat) (acc : Int),
      string_literal_end_loop st s q = Except.ok e →
      ∃ v n, read_hex_loop s acc = Except.ok (v, n) := by
  intro s
  induction s with
  | nil => intro q e acc h; simp [string_literal_end_loop] at h
  | cons c rest ih =>
    intro q e acc h
    rw [read_hex_loop]
    by_cases hx : isxdigit c = true
    · rw [if_pos hx]
      rw [string_literal_end_loop_plain st c rest q hx] at h
      obtain ⟨v, n, hvn⟩ := ih (q + 1) e (wrap_int (acc * 16 + from_hex c)) h
      exact ⟨v, n + 1, by rw [hvn]⟩
    · rw [if_neg hx]
      exact ⟨acc, 0, rfl⟩

theorem octal_isxdigit {c : Nat} (h : 48 ≤ c ∧ c ≤ 55) : isxdigit c = true := by
  simp only [isxdigit, Bool.or_eq_true, Bool.and_eq_true, decide_eq_true_eq]
  omega

theorem read_escaped_char_of_end (st : Nat) {c0 : Nat} {s1 : List Nat} {q e : Nat}
    (h : string_literal_end_loop st s1 q = Except.ok e) (q2 : Nat) :
    (∃ v n, read_escaped_char (c0 :: s1) q2 = Except.ok (v, n)) ∨
      read_escaped_char (c0 :: s1) q2 = Except.error (LexError.invalid_hex_escape (q2 + 1)) := by
  unfold read_escaped_char
  cases s1 with
  | nil => simp [string_literal_end_loop] at h
  | cons c1 s2 =>
    simp only
    split
    · split
      · rename_i h1
        rw [string_literal_end_loop_plain st c1 s2 q (octal_isxdigit h1)] at h
        cases s2 with
        | nil => simp [string_literal_end_loop] at h
        | cons c2 s3 =>
          simp only
          split
          · exact Or.inl ⟨_, _, rfl⟩
          · exact Or.inl ⟨_, _, rfl⟩
      · exact Or.inl ⟨_, _, rfl⟩
    · split
      · split
        · exact Or.inr rfl
        · obtain ⟨v, n, hvn⟩ := read_hex_loop_of_end st (c1 :: s2) q e 0 h
          rw [hvn]
          exact Or.inl ⟨_, _, rfl⟩
      · exact Or.inl ⟨_, _, rfl⟩

theorem decode_loop_of_end (st : Nat) :
    ∀ (fuel : Nat) (t : List Nat) (p e : Nat),
      string_literal_end_loop st t p = Except.ok e → e - p ≤ fuel →
      (∃ bs, decode_loop fuel t p e = Except.ok (bs, e) ∧ bs.length ≤ e - p) ∨
        ∃ q, decode_loop fuel t p e = Except.error (LexError.invalid_hex_escape q) := by
  intro fuel
  induction fuel with
  | zero =>
    intro t p e hs hf
    have hge := string_literal_end_loop_ge st _ t p e (Nat.le_refl _) hs
    have hpe : p = e := by omega
    subst hpe
    left
    exact ⟨[], by simp [decode_loop], by simp⟩
  | succ fuel ih =>
    intro t p e hs hf
    have hge := string_literal_end_loop_ge st _ t p e (Nat.le_refl _) hs
    simp only [decode_loop]
    by_cases hlt : p < e
    · rw [if_pos hlt]
      cases t with
      | nil => simp [string_literal_end_loop] at hs
      | cons c rest =>
        simp only
        by_cases hc : c = 92
        · subst hc
          rw [if_pos rfl]
          have hs2 := hs
          rw [string_literal_end_loop_cons] at hs2
          simp only [show (92 : Nat) ≠ 34 by decide,
            show ¬((92 : Nat) = 10 ∨ (92 : Nat) = 0) by decide, if_false, if_true] at hs2
          cases rest with
          | nil => simp at hs2
          | cons c0 s1 =>
            simp only at hs2
            rcases read_escaped_char_of_end st hs2 (p + 1) with ⟨v, n, hr⟩ | hr
            · rw [hr]
              simp only
              have hstep := string_literal_end_loop_escape st hs hr
              have hn := (read_escaped_char_consumed hr).1
              rcases ih _ _ e hstep (by omega) with ⟨bs, hd, hl⟩ | ⟨q, hd⟩
              · rw [hd]
                left
                exact ⟨_, rfl, by simp; omega⟩
              · rw [hd]
                exact Or.inr ⟨q, rfl⟩
            · rw [hr]
              exact Or.inr ⟨_, rfl⟩
        · rw [if_neg hc]
          have hstep := string_literal_end_loop_other st hs hc hlt
          rcases ih _ _ e hstep (by omega) with ⟨bs, hd, hl⟩ | ⟨q, hd⟩
          · rw [hd]
            left
            exact ⟨_, rfl, by simp; omega⟩
          · rw [hd]
            exact Or.inr ⟨q, rfl⟩
    · rw [if_neg hlt]
      have hpe : p = e := by omega
      subst hpe
      left
      exact ⟨[], rfl, by simp⟩

theorem decode_loop_error_at {e : Nat} {t : List Nat} {p : Nat} {rest : List Nat} {p2 : Nat}
    (h : DecodePath e t p (92 :: rest) p2) (hlt : p2 < e) {err : LexError}
    (hr : read_escaped_char rest (p2 + 1) = Except.error err) :
    ∀ fuel, e - p ≤ fuel → decode_loop fuel t p e = Except.error err := by
  generalize ht2 : 92 :: rest = t2 at h
  induction h with
  | here t p =>
    subst ht2
    intro fuel hf
    cases fuel with
    | zero => omega
    | succ fuel =>
      simp only [decode_loop, if_pos hlt, if_true, hr]
  | escape rest0 p v n t2 p2 hp hr0 _ ih =>
    intro fuel hf
    cases fuel with
    | zero => omega
    | succ fuel =>
      have hn := (read_escaped_char_consumed hr0).1
      simp only [decode_loop, if_pos hp, if_true, hr0]
      rw [ih hlt hr ht2 fuel (by omega)]
  | plain c rest0 p t2 p2 hp hc _ ih =>
    intro fuel hf
    cases fuel with
    | zero => omega
    | succ fuel =>
      simp only [decode_loop, if_pos hp, if_neg hc]
      rw [ih hlt hr ht2 fuel (by omega)]

theorem read_hex_loop_take :
    ∀ (s : List Nat) (acc v : Int) (n m : Nat), read_hex_loop s acc = Except.ok (v, n) →
      n < m → read_hex_loop (s.take m) acc = Except.ok (v, n) := by
  intro s
  induction s with
  | nil => intro acc v n m h; simp [read_hex_loop] at h
  | cons c rest ih =>
    intro acc v n m h hm
    cases m with
    | zero => omega
    | succ m =>
      rw [List.take_succ_cons]
      rw [read_hex_loop] at h ⊢
      by_cases hx : isxdigit c = true
      · rw [if_pos hx] at h ⊢
        split at h
        · cases h
        · rename_i v2 n2 h2
          simp only [Except.ok.injEq, Prod.mk.injEq] at h
          obtain ⟨hv, hn⟩ := h
          subst hv
          subst hn
          rw [ih _ _ _ m h2 (by omega)]
      · rw [if_neg hx] at h ⊢
        exact h

theorem read_escaped_char_take {s : List Nat} {q : Nat} {v : Int} {n : Nat}
    (h : read_escaped_char s q = Except.ok (v, n)) (m : Nat) (hm : n < m) :
    read_escaped_char (s.take m) q = Except.ok (v, n) := by
  unfold read_escaped_char at h ⊢
  cases s with
  | nil => cases h
  | cons c0 s1 =>
    cases m with
    | zero => omega
    | succ m =>
      rw [List.take_succ_cons]
      simp only at h ⊢
      split at h
      · rename_i h0
        rw [if_pos h0]
        cases s1 with
        | nil => cases h
        | cons c1 s2 =>
          simp only at h
          cases m with
          | zero =>
            exfalso
            split at h
            · cases s2 with
              | nil => cases h
              | cons c2 s3 =>
                simp only at h
                split at h <;>
                  (simp only [Except.ok.injEq, Prod.mk.injEq] at h; omega)
            · simp only [Except.ok.injEq, Prod.mk.injEq] at h; omega
          | succ m =>
            rw [List.take_succ_cons]
            simp only
            split at h
            · rename_i h1
              rw [if_pos h1]
              cases s2 with
              | nil => cases h
              | cons c2 s3 =>
                simp only at h
                cases m with
                | zero =>
                  exfalso
                  split at h <;>
                    (simp only [Except.ok.injEq, Prod.mk.injEq] at h; omega)
                | succ m =>
                  rw [List.take_succ_cons]
                  exact h
            · rename_i h1
              rw [if_neg h1]
              exact h
      · rename_i h0
        rw [if_neg h0]
        split at h
        · rename_i hx
          rw [if_pos hx]
          cases s1 with
          | nil => cases h
          | cons c1 s2 =>
            simp only at h
            split at h
            · cases h
            · rename_i hxd
              split at h
              · cases h
              · rename_i v2 n2 h2
                simp only [Except.ok.injEq, Prod.mk.injEq] at h
                obtain ⟨hv, hn⟩ := h
                subst hv
                subst hn
                have h3 := read_hex_loop_take (c1 :: s2) 0 v2 n2 m h2 (by omega)
                cases m with
                | zero => omega
                | succ m =>
                  rw [List.take_succ_cons] at h3 ⊢
                  simp only
                  rw [if_neg hxd, h3]
        · rename_i hx
          rw [if_neg hx]
          exact h

/-- C19 does not hold of the reads: in the literal of the escape `\1` the closing quote is at
offset 3 and the only escape is decoded at offset 1; `read_escaped_char` takes the
digit at offset 2 and then looks at the next byte for a second octal digit, which is
the closing quote: with the bytes from offset 3 on out of reach the same call is out of
bounds. -/
theorem decode_in_step_counterexample :
    string_literal_end (buf_octal_one.drop 1) 1 = Except.ok 3 ∧
    buf_octal_one.get? 3 = some 34 ∧
    DecodePath 3 (buf_octal_one.drop 1) 1 (92 :: buf_octal_one.drop 2) 1 ∧
    read_escaped_char (buf_octal_one.drop 2) 2 = Except.ok (1, 1) ∧
    read_escaped_char ((buf_octal_one.take 3).drop 2) 2 =
      Except.error LexError.out_of_bounds :=
  ⟨by decide, by decide, DecodePath.here _ _, by decide, by decide⟩

/-- C19, amended: for a string literal (opening quote at offset `start`, `body` the bytes
after it) whose closing quote `string_literal_end` finds at offset `e` and whose
decoding meets no invalid hex escape, the decoding loop stays in step with the first
pass: wherever its cursor gets to, the first pass restarted there finds the same
closing quote; every escape it gets to is decoded, consumes bytes before the closing
quote only, and reads no byte beyond the closing quote (it may look at the closing
quote itself); the loop ends with its cursor on the closing quote; the token spans
`start` to `e` inclusive; the decoded bytes are at most the bytes between the quotes,
so they and the terminator fit in the `e - start` bytes allocated. -/
theorem decode_in_step (body : List Nat) (start e : Nat)
    (hend : string_literal_end body (start + 1) = Except.ok e)
    (hvalid : ∀ q, decode_loop (e - start) body (start + 1) e ≠
      Except.error (LexError.invalid_hex_escape q)) :
    (∀ t2 p2, DecodePath e body (start + 1) t2 p2 →
      p2 ≤ e ∧ string_literal_end_loop (start + 1) t2 p2 = Except.ok e) ∧
    (∀ rest p2, DecodePath e body (start + 1) (92 :: rest) p2 → p2 < e →
      ∃ v n, read_escaped_char rest (p2 + 1) = Except.ok (v, n) ∧ 1 ≤ n ∧ p2 + 1 + n ≤ e ∧
        read_escaped_char (rest.take (e - p2)) (p2 + 1) = Except.ok (v, n)) ∧
    ∃ bs, decode_loop (e - start) body (start + 1) e = Except.ok (bs, e) ∧
      body.get? (e - (start + 1)) = some 34 ∧ start + 1 ≤ e ∧
      bs.length ≤ e - (start + 1) ∧ bs.length + 1 ≤ e - start ∧
      read_string_literal (34 :: body) start =
        Except.ok { new_token TokenKind.TK_STR start (e + 1 - start) with
                    ty := some (array_of CType.ty_char (bs.length + 1)),
                    str := some (bs ++ List.replicate (e - start - bs.length) 0) } := by
  have hs : string_literal_end_loop (start + 1) body (start + 1) = Except.ok e := hend
  have hge := string_literal_end_loop_ge (start + 1) _ body (start + 1) e (Nat.le_refl _) hs
  have hq := string_literal_end_loop_quote (start + 1) _ body (start + 1) e (Nat.le_refl _) hs
  refine ⟨?_, ?_, ?_⟩
  · intro t2 p2 hpath
    have h2 := hpath.in_step (start + 1) hs
    exact ⟨string_literal_end_loop_ge (start + 1) _ t2 p2 e (Nat.le_refl _) h2, h2⟩
  · intro rest p2 hpath hlt
    have h2 := hpath.in_step (start + 1) hs
    have h3 := h2
    rw [string_literal_end_loop_cons] at h3
    simp only [show (92 : Nat) ≠ 34 by decide,
      show ¬((92 : Nat) = 10 ∨ (92 : Nat) = 0) by decide, if_false, if_true] at h3
    cases rest with
    | nil => simp at h3
    | cons c0 s1 =>
      simp only at h3
      rcases read_escaped_char_of_end (start + 1) h3 (p2 + 1) with ⟨v, n, hr⟩ | hr
      · have h4 := string_literal_end_loop_escape (start + 1) h2 hr
        have h5 := string_literal_end_loop_ge (start + 1) _ _ _ e (Nat.le_refl _) h4
        exact ⟨v, n, hr, (read_escaped_char_consumed hr).1, h5,
          read_escaped_char_take hr (e - p2) (by omega)⟩
      · exact absurd (decode_loop_error_at hpath hlt hr (e - start) (by omega)) (hvalid _)
  · rcases decode_loop_of_end (start + 1) (e - start) body (start + 1) e hs (by omega) with
      ⟨bs, hd, hl⟩ | ⟨q, hd⟩
    · refine ⟨bs, hd, hq, hge, hl, by omega, ?_⟩
      unfold read_string_literal
      simp only [List.drop_succ_cons, List.drop_zero, hend, hd]
      rw [if_pos (by omega)]
    · exact absurd hd (hvalid q)

/-- C19 on the literal of `\101\x42\n`: the closing quote is at offset 11, the three escapes
decode to three bytes and the loop ends on the closing quote. -/
theorem decode_in_step_witness :
    string_literal_end (buf_escapes.drop 1) (0 + 1) = Except.ok 11 ∧
    ∃ bs, decode_loop (11 - 0) (buf_escapes.drop 1) (0 + 1) 11 = Except.ok (bs, 11) ∧
      (buf_escapes.drop 1).get? (11 - (0 + 1)) = some 34 ∧ 0 + 1 ≤ 11 ∧
      bs.length ≤ 11 - (0 + 1) ∧ bs.length + 1 ≤ 11 - 0 ∧
      read_string_literal (34 :: buf_escapes.drop 1) 0 =
        Except.ok { new_token TokenKind.TK_STR 0 (11 + 1 - 0) with
                    ty := some (array_of CType.ty_char (bs.length + 1)),
                    str := some (bs ++ List.replicate (11 - 0 - bs.length) 0) } :=
  ⟨by decide,
    (decode_in_step (buf_escapes.drop 1) 0 11 (by decide)
      (fun q hq => by
        have h2 : decode_loop (11 - 0) (buf_escapes.drop 1) (0 + 1) 11 =
            Except.ok ([65, 66, 10], 11) := by decide
        rw [h2] at hq
        cases hq)).2.2⟩

theorem ScanOut.disjoint {buf : List Nat} {p : Nat} {toks : List Token}
    (h : ScanOut buf p toks) :
    List.Pairwise (fun a b : Token => a.loc + a.len ≤ b.loc) toks := by
  induction h with
  | eof p _ => simp
  | skip p k c toks _ _ _ _ ih => exact ih
  | tok p k c t toks _ _ hstep hrest ih =>
    refine List.Pairwise.cons ?_ ih
    intro b hb
    obtain ⟨hl, hk, _⟩ := StepOk.token hstep
    have := ScanOut.loc_ge hrest b hb
    omega

theorem ScanOut.gaps_blank {buf : List Nat} {p : Nat} {toks : List Token}
    (h : ScanOut buf p toks) (hslash : 47 ∉ buf) :
    ∀ i, p ≤ i → (∀ t ∈ toks, ¬t.covers i) →
      (∃ c, buf.get? i = some c ∧ isspace c = true) ∨
        ∃ t ∈ toks, t.kind = TokenKind.TK_EOF ∧ t.loc ≤ i := by
  induction h with
  | eof p _ =>
    intro i hi _
    exact Or.inr ⟨_, List.mem_singleton.mpr rfl, rfl, hi⟩
  | skip p k c toks hc _ hstep _ ih =>
    intro i hi hcov
    have hhead : ∀ rest2, buf.drop p ≠ 47 :: rest2 := by
      intro rest2 hd
      have := (drop_eq_cons hd).1
      rw [hc] at this
      cases this
      exact hslash (List.get?_mem hc)
    have hnot : ∀ q, startswith (buf.drop p) (47 :: q) ≠ Except.ok true := by
      intro q hsw
      obtain ⟨rest, hr⟩ := get?_drop_cons hc
      rw [hr] at hsw
      have hc47 : c ≠ 47 := fun h47 => hhead rest (h47 ▸ hr)
      simp [startswith, hc47] at hsw
    generalize ht : (none : Option Token) = t at hstep
    cases hstep with
    | line_comment n h1 _ => exact absurd h1 (hnot _)
    | block_comment j _ h2 _ => exact absurd h2 (hnot _)
    | space c2 rest hs _ _ hsp =>
      have hc2 := (drop_eq_cons hs).1
      by_cases hip : i = p
      · subst hip
        exact Or.inl ⟨c2, hc2, hsp⟩
      · exact ih i (by omega) hcov
    | num => cases ht
    | str => cases ht
    | ident => cases ht
    | punct => cases ht
  | tok p k c t toks _ _ hstep _ ih =>
    intro i hi hcov
    obtain ⟨hl, hk, _⟩ := StepOk.token hstep
    have h1 := hcov t (List.mem_cons_self _ _)
    unfold Token.covers at h1
    rcases ih i (by omega) (fun t2 ht2 => hcov t2 (List.mem_cons_of_mem _ ht2)) with h2 | h2
    · exact Or.inl h2
    · obtain ⟨t2, ht2, h3⟩ := h2
      exact Or.inr ⟨t2, List.mem_cons_of_mem _ ht2, h3⟩

/-- C20 does not hold when a NUL byte precedes the terminator: on `a`, NUL, `b`, newline the
tokens are the identifier `a` and end-of-stream at offset 1; the byte `b` at offset 2
is before the terminator (offset 4), outside both spans, and no whitespace. -/
theorem spans_cover_counterexample :
    47 ∉ buf_a_nul_b ∧
    tokenize buf_a_nul_b =
      Except.ok [ { kind := TokenKind.TK_IDENT, loc := 0, len := 1, line_no := 1 },
                  { kind := TokenKind.TK_EOF, loc := 1, len := 0, line_no := 1 } ] ∧
    buf_a_nul_b.length - 1 = 4 ∧ buf_a_nul_b.get? 2 = some 98 ∧ isspace 98 = false ∧
    ¬Token.covers { kind := TokenKind.TK_IDENT, loc := 0, len := 1, line_no := 1 } 2 ∧
    ¬Token.covers { kind := TokenKind.TK_EOF, loc := 1, len := 0, line_no := 1 } 2 := by
  decide

/-- C20, amended: for every buffer that has no `/` byte and on which `tokenize` succeeds, the
token spans are pairwise disjoint (each ends where or before the next begins), the
last token is end-of-stream, and every byte before the offset of the end-of-stream
token that lies in no span is a whitespace byte.  When no NUL byte precedes the
terminator of the buffer, the end-of-stream token is at the terminator. -/
theorem spans_cover (buf : List Nat) (toks : List Token) (hslash : 47 ∉ buf)
    (h : tokenize buf = Except.ok toks) :
    List.Pairwise (fun a b : Token => a.loc + a.len ≤ b.loc) toks ∧
    ∃ init eof, toks = init ++ [eof] ∧ eof.kind = TokenKind.TK_EOF ∧ eof.len = 0 ∧
      buf.get? eof.loc = some 0 ∧
      (∀ i, i < eof.loc → (∀ t ∈ toks, ¬t.covers i) →
        ∃ c, buf.get? i = some c ∧ isspace c = true) ∧
      (newline_terminated buf → eof.loc + 1 = buf.length) := by
  obtain ⟨raw, hraw, rfl⟩ := (tokenize_ok_iff buf toks).mp h
  have hscan := scan_ok buf raw hraw
  obtain ⟨init, pe, hinit, _, hpe, hall⟩ := ScanOut.ends hscan
  have hfe : (Token.finish buf (new_token TokenKind.TK_EOF pe 0)).kind = TokenKind.TK_EOF := by
    unfold Token.finish
    rw [if_neg (by simp [new_token]), Token.with_line_kind]
    rfl
  constructor
  · rw [List.pairwise_map]
    refine (ScanOut.disjoint hscan).imp ?_
    intro a b hab
    rw [Token.finish_loc, Token.finish_len, Token.finish_loc]
    exact hab
  · refine ⟨init.map (Token.finish buf), Token.finish buf (new_token TokenKind.TK_EOF pe 0),
      by rw [hinit]; simp, hfe, by rw [Token.finish_len]; rfl,
      by rw [Token.finish_loc]; exact hpe, ?_, ?_⟩
    · intro i hi hcov
      rw [Token.finish_loc] at hi
      have hi2 : i < pe := hi
      rcases ScanOut.gaps_blank hscan hslash i (Nat.zero_le _) (by
          intro t ht hc
          apply hcov (Token.finish buf t) (List.mem_map_of_mem _ ht)
          unfold Token.covers at hc ⊢
          rw [Token.finish_loc, Token.finish_len]
          exact hc) with h2 | ⟨t, ht, hk, hle⟩
      · exact h2
      · exfalso
        rw [hinit] at ht
        rcases List.mem_append.mp ht with hin | hlast
        · exact (hall t hin).1 hk
        · simp at hlast
          subst hlast
          simp [new_token] at hle
          omega
    · intro hnt
      rw [Token.finish_loc]
      exact (eof_offset_of_terminated hnt hpe).1

/-- C20 on `int x;`, which has no `/` byte: the spans of its four tokens are disjoint. -/
theorem spans_cover_witness :
    47 ∉ buf_int_x ∧ tokenize buf_int_x = Except.ok toks_int_x ∧
    List.Pairwise (fun a b : Token => a.loc + a.len ≤ b.loc) toks_int_x :=
  ⟨by decide, by decide, (spans_cover buf_int_x toks_int_x (by decide) (by decide)).1⟩

end Angcc
